import Mathlib

/-!
Verification development for the `storage` package of mcp-confluence:
a shallow embedding of its Confluence Storage Format parser
(`parse.go`), renderer (`render.go`) and validator (`validate.go`),
together with theorems about the claims of the specification.

Modelling notes.

* Go's `encoding/xml` streaming decoder is modelled as a character-level
  state machine (`tokStep`) folded over the input.  It produces the three
  token kinds the repository's code inspects (`StartElement`,
  `EndElement`, `CharData`); `Comment`, `ProcInst` and `Directive`
  tokens are consumed and dropped, since the repository's parser and
  validator ignore them.  Tokens produced before a syntax error are kept
  and the error is reported at the position where the decoder would
  return it, mirroring the streaming interface.  Namespace prefixes are
  stripped: a qualified name keeps everything after the first colon,
  matching the `Name.Local` field used throughout the source.  The model
  keeps Go's carriage-return normalisation (`\r\n` and `\r` become `\n`
  in character data, CDATA and attribute values), its entity decoding
  (the five XML defaults, numeric references, and the package's entity
  table), its end-tag matching against the open-element stack, and its
  rejection of an unescaped `]]>` in character data (the decoder tracks
  the previous two raw bytes, resetting the pair at entity references;
  the `textRB`/`textRBRB` modes model exactly that).
  Simplifications that only widen the set of accepted inputs: the model
  does not reject an unescaped `]]>` or `<` inside a quoted attribute
  value (the renderer always escapes `>` and `<` there, so no rendered
  output exercises this), and directives are skipped to the next `>`
  without bracket tracking.
* Go `map[string]string` is modelled as an insertion-ordered association
  list with overwrite-on-repeated-key (`mapPut`); Go map iteration order
  is unspecified, the list order is this model's commitment.
* Go slices/structs map to lists/structures; `nil` pointer inputs of the
  render helpers are not modelled (no claim mentions them).
* Machine integers are modelled as `Int`/`Nat`; no arithmetic here can
  overflow for any realistic input.
-/

namespace Storage

/-- Model of Go's `unicode.IsSpace` (the White_Space property). -/
def goIsSpace (c : Char) : Bool :=
  let n := c.toNat
  n == 9 || n == 10 || n == 11 || n == 12 || n == 13 || n == 32 ||
  n == 0x85 || n == 0xA0 || n == 0x1680 ||
  (decide (0x2000 ≤ n) && decide (n ≤ 0x200A)) ||
  n == 0x2028 || n == 0x2029 || n == 0x202F || n == 0x205F || n == 0x3000

/-- Trim leading and trailing Go whitespace from a character list. -/
def goTrimChars (l : List Char) : List Char :=
  ((l.dropWhile goIsSpace).reverse.dropWhile goIsSpace).reverse

/-- Model of Go's `strings.TrimSpace`. -/
def goTrimSpace (s : String) : String :=
  ⟨goTrimChars s.data⟩

/-- Carriage-return normalisation of Go's `encoding/xml` text reader:
`\r\n` and bare `\r` both become `\n`. -/
def crNormChars : List Char → List Char
  | [] => []
  | '\r' :: '\n' :: rest => '\n' :: crNormChars rest
  | '\r' :: rest => '\n' :: crNormChars rest
  | c :: rest => c :: crNormChars rest

/-- String form of `crNormChars`. -/
def crNorm (s : String) : String := ⟨crNormChars s.data⟩

/-- Model of Go's `html.EscapeString` on one character: it escapes
exactly `&`, `'`, `<`, `>`, `"` (as `&amp;` `&#39;` `&lt;` `&gt;`
`&#34;`). -/
def escapeChar (c : Char) : List Char :=
  if c = '&' then "&amp;".data
  else if c = '\'' then "&#39;".data
  else if c = '<' then "&lt;".data
  else if c = '>' then "&gt;".data
  else if c = '"' then "&#34;".data
  else [c]

/-- Model of Go's `html.EscapeString` on a character list. -/
def escapeChars (l : List Char) : List Char :=
  (l.map escapeChar).flatten

/-- Model of Go's `html.EscapeString`. -/
def escapeString (s : String) : String :=
  ⟨escapeChars s.data⟩

/-- Local part of a possibly prefixed XML name: everything after the
first colon (Go keeps `Name.Local` this way). -/
def localChars (l : List Char) : List Char :=
  match l.span (· ≠ ':') with
  | (pre, []) => pre
  | (_, _ :: post) => post

/-- Local part of a qualified name as a string. -/
def localName (s : String) : String := ⟨localChars s.data⟩

/-- Modelled from the spec: the package's extended named-entity decoding
table (`htmlEntities`).  The file defining it is not among the provided
sources; the spec describes "an explicit decoding table covering the
common named entities (e.g. bullet, right-arrow) the platform permits
beyond the XML-default five". -/
def htmlEntities : List (String × Char) :=
  [("nbsp", Char.ofNat 0xA0), ("bull", Char.ofNat 0x2022),
   ("rarr", Char.ofNat 0x2192), ("larr", Char.ofNat 0x2190),
   ("mdash", Char.ofNat 0x2014), ("ndash", Char.ofNat 0x2013),
   ("hellip", Char.ofNat 0x2026), ("middot", Char.ofNat 0xB7)]

/-- Decimal digit string to a number, if every character is a digit. -/
def decDigits? : List Char → Option Nat
  | [] => none
  | l => l.foldl (fun acc c =>
      match acc with
      | none => none
      | some n => if c.isDigit then some (n * 10 + (c.toNat - 48)) else none)
      (some 0)

/-- Hexadecimal digit string to a number. -/
def hexDigits? : List Char → Option Nat
  | [] => none
  | l => l.foldl (fun acc c =>
      match acc with
      | none => none
      | some n =>
        if c.isDigit then some (n * 16 + (c.toNat - 48))
        else if 'a' ≤ c ∧ c ≤ 'f' then some (n * 16 + (c.toNat - 87))
        else if 'A' ≤ c ∧ c ≤ 'F' then some (n * 16 + (c.toNat - 55))
        else none)
      (some 0)

/-- Decode one entity reference (the text between `&` and `;`):
the five XML defaults, numeric references, then the package table. -/
def decodeEntity (ent : List Char) : Option Char :=
  let s : String := ⟨ent⟩
  if s = "lt" then some '<'
  else if s = "gt" then some '>'
  else if s = "amp" then some '&'
  else if s = "apos" then some '\''
  else if s = "quot" then some '"'
  else
    match ent with
    | '#' :: 'x' :: ds => (hexDigits? ds).map Char.ofNat
    | '#' :: ds => (decDigits? ds).map Char.ofNat
    | _ => (htmlEntities.find? (fun p => p.1 == s)).map (fun p => p.2)

/-- A character allowed inside an XML name (ASCII model of Go's
`isNameByte`/`isName`). -/
def isNameChar (c : Char) : Bool :=
  c.isAlpha || c.isDigit || c = '_' || c = ':' || c = '.' || c = '-'

/-- XML whitespace inside markup. -/
def xmlSpace (c : Char) : Bool :=
  c = ' ' || c = '\t' || c = '\n' || c = '\r'

/-- The three token kinds the repository's code inspects.  Element and
attribute names are already reduced to their local part. -/
inductive Tok where
  | startEl (name : String) (attrs : List (String × String))
  | endEl (name : String)
  | charData (text : String)
deriving DecidableEq, Repr

/-- Tokenizer mode: the state of the character-level decoder. -/
inductive TkMode where
  | text (acc : List Char)
  | textCR (acc : List Char)
  | textRB (acc : List Char)
  | textRBRB (acc : List Char)
  | entity (acc : List Char) (ent : List Char)
  | tagOpen
  | tagName (nm : List Char)
  | attrsGap (nm : List Char) (attrs : List (String × String))
  | attrName (nm : List Char) (attrs : List (String × String)) (k : List Char)
  | attrAfterName (nm : List Char) (attrs : List (String × String)) (k : List Char)
  | attrValStart (nm : List Char) (attrs : List (String × String)) (k : List Char)
  | attrVal (nm : List Char) (attrs : List (String × String)) (k : List Char)
      (q : Char) (v : List Char)
  | attrValCR (nm : List Char) (attrs : List (String × String)) (k : List Char)
      (q : Char) (v : List Char)
  | attrEntity (nm : List Char) (attrs : List (String × String)) (k : List Char)
      (q : Char) (v : List Char) (ent : List Char)
  | selfSlash (nm : List Char) (attrs : List (String × String))
  | closeTag (nm : List Char)
  | closeTagSp (nm : List Char)
  | bang
  | commentD1
  | comment
  | commentD
  | commentDD
  | cdataPre (expect : List Char)
  | cdata (acc : List Char)
  | cdataCR (acc : List Char)
  | cdataRB (acc : List Char)
  | cdataRBRB (acc : List Char)
  | procInst
  | procInstQ
  | directive
deriving DecidableEq, Repr

/-- Tokenizer state: mode, stack of open raw element names (innermost
first), reversed token output, sticky error. -/
structure TkSt where
  mode : TkMode
  stk : List String
  out : List Tok
  err : Option String
deriving DecidableEq, Repr

/-- Flush pending character data as a token (only when non-empty,
matching the decoder returning a text run at a markup boundary). -/
def flushText (acc : List Char) (out : List Tok) : List Tok :=
  if acc = [] then out else Tok.charData ⟨acc⟩ :: out

/-- Error state (tokens produced so far are kept). -/
def tkFail (stk : List String) (out : List Tok) (msg : String) : TkSt :=
  ⟨TkMode.text [], stk, out, some msg⟩

/-- Emit a start-element token and push the raw name. -/
def pushStart (stk : List String) (out : List Tok)
    (nm : List Char) (attrs : List (String × String)) : TkSt :=
  ⟨TkMode.text [], (⟨nm⟩ : String) :: stk,
    Tok.startEl (localName ⟨nm⟩) attrs :: out, none⟩

/-- Process the matching `>` of an end tag: the raw name must equal the
top of the open-element stack. -/
def closeAct (stk : List String) (out : List Tok) (nm : List Char) : TkSt :=
  match stk with
  | [] => tkFail [] out "unexpected end element"
  | top :: rest =>
    if (⟨nm⟩ : String) = top then
      ⟨TkMode.text [], rest, Tok.endEl (localName top) :: out, none⟩
    else tkFail (top :: rest) out "mismatched end element"

/-- One step of text mode.  A `]` moves into the bracket-lookahead
states that implement the decoder's check for an unescaped `]]>` in
character data (Go tracks the previous two raw bytes `b0, b1`; the
pair is reset by entity references and carriage returns). -/
def stepText (stk : List String) (out : List Tok) (acc : List Char)
    (c : Char) : TkSt :=
  if c = '<' then ⟨TkMode.tagOpen, stk, flushText acc out, none⟩
  else if c = '&' then ⟨TkMode.entity acc [], stk, out, none⟩
  else if c = '\r' then ⟨TkMode.textCR acc, stk, out, none⟩
  else if c = ']' then ⟨TkMode.textRB (acc ++ [']']), stk, out, none⟩
  else ⟨TkMode.text (acc ++ [c]), stk, out, none⟩

/-- One step of attribute-value mode. -/
def stepAttrVal (stk : List String) (out : List Tok) (nm : List Char)
    (attrs : List (String × String)) (k : List Char) (q : Char)
    (v : List Char) (c : Char) : TkSt :=
  if c = q then
    ⟨TkMode.attrsGap nm (attrs ++ [(localName ⟨k⟩, (⟨v⟩ : String))]), stk, out, none⟩
  else if c = '&' then ⟨TkMode.attrEntity nm attrs k q v [], stk, out, none⟩
  else if c = '\r' then ⟨TkMode.attrValCR nm attrs k q v, stk, out, none⟩
  else ⟨TkMode.attrVal nm attrs k q (v ++ [c]), stk, out, none⟩

/-- One step of CDATA mode. -/
def stepCData (stk : List String) (out : List Tok) (acc : List Char)
    (c : Char) : TkSt :=
  if c = ']' then ⟨TkMode.cdataRB acc, stk, out, none⟩
  else if c = '\r' then ⟨TkMode.cdataCR acc, stk, out, none⟩
  else ⟨TkMode.cdata (acc ++ [c]), stk, out, none⟩

/-- One step of the streaming XML tokenizer. -/
def tokStep (st : TkSt) (c : Char) : TkSt :=
  match st with
  | ⟨_, _, _, some _⟩ => st
  | ⟨mode, stk, out, none⟩ =>
    match mode with
    | TkMode.text acc => stepText stk out acc c
    | TkMode.textCR acc =>
      if c = '\n' then ⟨TkMode.text (acc ++ ['\n']), stk, out, none⟩
      else stepText stk out (acc ++ ['\n']) c
    | TkMode.textRB acc =>
      if c = ']' then ⟨TkMode.textRBRB (acc ++ [']']), stk, out, none⟩
      else stepText stk out acc c
    | TkMode.textRBRB acc =>
      if c = ']' then ⟨TkMode.textRBRB (acc ++ [']']), stk, out, none⟩
      else if c = '>' then tkFail stk out "unescaped ]]> not in CDATA section"
      else stepText stk out acc c
    | TkMode.entity acc ent =>
      if c = ';' then
        match decodeEntity ent with
        | some ch => ⟨TkMode.text (acc ++ [ch]), stk, out, none⟩
        | none => tkFail stk out "invalid character entity"
      else if isNameChar c || c = '#' then
        ⟨TkMode.entity acc (ent ++ [c]), stk, out, none⟩
      else tkFail stk out "invalid character entity"
    | TkMode.tagOpen =>
      if c = '/' then ⟨TkMode.closeTag [], stk, out, none⟩
      else if c = '!' then ⟨TkMode.bang, stk, out, none⟩
      else if c = '?' then ⟨TkMode.procInst, stk, out, none⟩
      else if isNameChar c then ⟨TkMode.tagName [c], stk, out, none⟩
      else tkFail stk out "expected element name after <"
    | TkMode.tagName nm =>
      if isNameChar c then ⟨TkMode.tagName (nm ++ [c]), stk, out, none⟩
      else if c = '>' then pushStart stk out nm []
      else if c = '/' then ⟨TkMode.selfSlash nm [], stk, out, none⟩
      else if xmlSpace c then ⟨TkMode.attrsGap nm [], stk, out, none⟩
      else tkFail stk out "invalid tag name character"
    | TkMode.attrsGap nm attrs =>
      if xmlSpace c then ⟨TkMode.attrsGap nm attrs, stk, out, none⟩
      else if c = '>' then pushStart stk out nm attrs
      else if c = '/' then ⟨TkMode.selfSlash nm attrs, stk, out, none⟩
      else if isNameChar c then ⟨TkMode.attrName nm attrs [c], stk, out, none⟩
      else tkFail stk out "invalid attribute name character"
    | TkMode.attrName nm attrs k =>
      if isNameChar c then ⟨TkMode.attrName nm attrs (k ++ [c]), stk, out, none⟩
      else if c = '=' then ⟨TkMode.attrValStart nm attrs k, stk, out, none⟩
      else if xmlSpace c then ⟨TkMode.attrAfterName nm attrs k, stk, out, none⟩
      else tkFail stk out "invalid attribute name character"
    | TkMode.attrAfterName nm attrs k =>
      if xmlSpace c then ⟨TkMode.attrAfterName nm attrs k, stk, out, none⟩
      else if c = '=' then ⟨TkMode.attrValStart nm attrs k, stk, out, none⟩
      else tkFail stk out "attribute name without = in element"
    | TkMode.attrValStart nm attrs k =>
      if xmlSpace c then ⟨TkMode.attrValStart nm attrs k, stk, out, none⟩
      else if c = '"' || c = '\'' then
        ⟨TkMode.attrVal nm attrs k c [], stk, out, none⟩
      else tkFail stk out "unquoted or missing attribute value in element"
    | TkMode.attrVal nm attrs k q v => stepAttrVal stk out nm attrs k q v c
    | TkMode.attrValCR nm attrs k q v =>
      if c = '\n' then ⟨TkMode.attrVal nm attrs k q (v ++ ['\n']), stk, out, none⟩
      else stepAttrVal stk out nm attrs k q (v ++ ['\n']) c
    | TkMode.attrEntity nm attrs k q v ent =>
      if c = ';' then
        match decodeEntity ent with
        | some ch => ⟨TkMode.attrVal nm attrs k q (v ++ [ch]), stk, out, none⟩
        | none => tkFail stk out "invalid character entity"
      else if isNameChar c || c = '#' then
        ⟨TkMode.attrEntity nm attrs k q v (ent ++ [c]), stk, out, none⟩
      else tkFail stk out "invalid character entity"
    | TkMode.selfSlash nm attrs =>
      if c = '>' then
        ⟨TkMode.text [], stk,
          Tok.endEl (localName ⟨nm⟩) :: Tok.startEl (localName ⟨nm⟩) attrs :: out,
          none⟩
      else tkFail stk out "expected /> in element"
    | TkMode.closeTag nm =>
      if isNameChar c then ⟨TkMode.closeTag (nm ++ [c]), stk, out, none⟩
      else if c = '>' then closeAct stk out nm
      else if xmlSpace c then ⟨TkMode.closeTagSp nm, stk, out, none⟩
      else tkFail stk out "invalid characters between </ and >"
    | TkMode.closeTagSp nm =>
      if xmlSpace c then ⟨TkMode.closeTagSp nm, stk, out, none⟩
      else if c = '>' then closeAct stk out nm
      else tkFail stk out "invalid characters between </ and >"
    | TkMode.bang =>
      if c = '-' then ⟨TkMode.commentD1, stk, out, none⟩
      else if c = '[' then ⟨TkMode.cdataPre "CDATA[".data, stk, out, none⟩
      else ⟨TkMode.directive, stk, out, none⟩
    | TkMode.commentD1 =>
      if c = '-' then ⟨TkMode.comment, stk, out, none⟩
      else tkFail stk out "invalid sequence after <!-"
    | TkMode.comment =>
      if c = '-' then ⟨TkMode.commentD, stk, out, none⟩
      else ⟨TkMode.comment, stk, out, none⟩
    | TkMode.commentD =>
      if c = '-' then ⟨TkMode.commentDD, stk, out, none⟩
      else ⟨TkMode.comment, stk, out, none⟩
    | TkMode.commentDD =>
      if c = '>' then ⟨TkMode.text [], stk, out, none⟩
      else if c = '-' then ⟨TkMode.commentDD, stk, out, none⟩
      else ⟨TkMode.comment, stk, out, none⟩
    | TkMode.cdataPre expect =>
      match expect with
      | [] => tkFail stk out "invalid <![ sequence"
      | e :: es =>
        if c = e then
          if es.isEmpty then ⟨TkMode.cdata [], stk, out, none⟩
          else ⟨TkMode.cdataPre es, stk, out, none⟩
        else tkFail stk out "invalid <![ sequence"
    | TkMode.cdata acc => stepCData stk out acc c
    | TkMode.cdataCR acc =>
      if c = '\n' then ⟨TkMode.cdata (acc ++ ['\n']), stk, out, none⟩
      else stepCData stk out (acc ++ ['\n']) c
    | TkMode.cdataRB acc =>
      if c = ']' then ⟨TkMode.cdataRBRB acc, stk, out, none⟩
      else stepCData stk out (acc ++ [']']) c
    | TkMode.cdataRBRB acc =>
      if c = '>' then
        ⟨TkMode.text [], stk, Tok.charData ⟨acc⟩ :: out, none⟩
      else if c = ']' then ⟨TkMode.cdataRBRB (acc ++ [']']), stk, out, none⟩
      else stepCData stk out (acc ++ [']', ']']) c
    | TkMode.procInst =>
      if c = '?' then ⟨TkMode.procInstQ, stk, out, none⟩
      else ⟨TkMode.procInst, stk, out, none⟩
    | TkMode.procInstQ =>
      if c = '>' then ⟨TkMode.text [], stk, out, none⟩
      else if c = '?' then ⟨TkMode.procInstQ, stk, out, none⟩
      else ⟨TkMode.procInst, stk, out, none⟩
    | TkMode.directive =>
      if c = '>' then ⟨TkMode.text [], stk, out, none⟩
      else ⟨TkMode.directive, stk, out, none⟩

/-- Fold the tokenizer over a character list. -/
def tokSteps (l : List Char) (st : TkSt) : TkSt :=
  l.foldl tokStep st

/-- End-of-input behaviour: pending text is flushed; an open element or
a mode in the middle of markup is an unexpected-EOF error. -/
def tokFinish (st : TkSt) : List Tok × Option String :=
  match st.err with
  | some e => (st.out.reverse, some e)
  | none =>
    match st.mode with
    | TkMode.text acc =>
      let out := flushText acc st.out
      if st.stk.isEmpty then (out.reverse, none)
      else (out.reverse, some "unexpected EOF")
    | _ => (st.out.reverse, some "unexpected EOF")

/-- Initial tokenizer state. -/
def initSt : TkSt := ⟨TkMode.text [], [], [], none⟩

/-- The synthetic root wrapper the package puts around every fragment. -/
def rootOpen : String :=
  "<root xmlns:ac=\"http://atlassian.com/confluence\" xmlns:ri=\"http://atlassian.com/confluence\">"

/-- Closing tag of the synthetic root wrapper. -/
def rootClose : String := "</root>"

/-- Token stream of a wrapped fragment: the tokens produced before any
error, and the error (if any) that ended the stream. -/
def xmlTokens (s : String) : List Tok × Option String :=
  tokFinish (tokSteps (rootOpen ++ s ++ rootClose).data initSt)

/-! ## IR model (`types.go`) -/

/-- A Confluence macro (`ac:structured-macro`).  Go's
`map[string]string` for the parameters is modelled as an
insertion-ordered association list. -/
structure Macro where
  name : String
  params : List (String × String)
  body : String
deriving DecidableEq, Repr

/-- A table cell: text and/or a macro (`Cell` has a `Text` string field
and a `*Macro` pointer field). -/
structure Cell where
  text : String
  mac : Option Macro
deriving DecidableEq, Repr

/-- A table row. -/
structure Row where
  cells : List Cell
deriving DecidableEq, Repr

/-- A list item. -/
structure ListItem where
  text : String
deriving DecidableEq, Repr

/-- The closed union of content blocks. -/
inductive Block where
  | table (headers : List String) (rows : List Row)
  | paragraph (text : String)
  | heading (level : Int) (text : String)
  | bulletList (items : List ListItem)
  | numberedList (items : List ListItem)
  | macroBlk (m : Macro)
  | codeBlock (language : String) (code : String)
  | horizontalRule
deriving DecidableEq, Repr

/-- A page: an ordered sequence of blocks. -/
structure Page where
  blocks : List Block
deriving DecidableEq, Repr

/-! ## Renderer (`render.go`) -/

/-- A string-builder loop appending one rendered piece per element
(the Go renderers' `for ... buf.WriteString` loops). -/
def concatMap {α : Type} (f : α → String) : List α → String
  | [] => ""
  | x :: xs => f x ++ concatMap f xs

/-- The serialized form of one macro parameter. -/
def paramXhtml (p : String × String) : String :=
  "<ac:parameter ac:name=\"" ++ escapeString p.1 ++ "\">" ++
    escapeString p.2 ++ "</ac:parameter>"

/-- The serialized form of a macro (`RenderMacro` body; it never
fails).  The body is emitted verbatim, not escaped. -/
def macroXhtml (m : Macro) : String :=
  "<ac:structured-macro ac:name=\"" ++ escapeString m.name ++ "\">" ++
    concatMap paramXhtml m.params ++
    (if m.body = "" then ""
     else "<ac:rich-text-body>" ++ m.body ++ "</ac:rich-text-body>") ++
    "</ac:structured-macro>"

/-- Model of `RenderMacro`. -/
def RenderMacro (m : Macro) : Except String String :=
  Except.ok (macroXhtml m)

/-- Model of `renderCell`: a macro renders in place of the text. -/
def renderCell (c : Cell) : String :=
  match c.mac with
  | some m => macroXhtml m
  | none => escapeString c.text

/-- Serialized form of one data row. -/
def rowXhtml (r : Row) : String :=
  "<tr>" ++ concatMap (fun c => "<td>" ++ renderCell c ++ "</td>") r.cells ++ "</tr>"

/-- Model of `renderTable`: tbody is always emitted, the header row only
when headers are non-empty. -/
def renderTable (headers : List String) (rows : List Row) : Except String String :=
  Except.ok ("<table><tbody>" ++
    (if headers.isEmpty then ""
     else "<tr>" ++
       concatMap (fun h => "<th>" ++ escapeString h ++ "</th>") headers ++
       "</tr>") ++
    concatMap rowXhtml rows ++
    "</tbody></table>")

/-- Model of `renderParagraph`. -/
def renderParagraph (text : String) : Except String String :=
  Except.ok ("<p>" ++ escapeString text ++ "</p>")

/-- Model of `renderHeading`: a level outside [1,6] is an error. -/
def renderHeading (level : Int) (text : String) : Except String String :=
  if level < 1 ∨ level > 6 then
    Except.error ("invalid heading level: " ++ toString level)
  else
    Except.ok ("<h" ++ toString level ++ ">" ++ escapeString text ++
      "</h" ++ toString level ++ ">")

/-- Model of `renderBulletList`. -/
def renderBulletList (items : List ListItem) : Except String String :=
  Except.ok ("<ul>" ++
    concatMap (fun i => "<li>" ++ escapeString i.text ++ "</li>") items ++
    "</ul>")

/-- Model of `renderNumberedList`. -/
def renderNumberedList (items : List ListItem) : Except String String :=
  Except.ok ("<ol>" ++
    concatMap (fun i => "<li>" ++ escapeString i.text ++ "</li>") items ++
    "</ol>")

/-- Model of `renderCodeBlock`: a macro named "code" with an optional
language parameter and a CDATA-wrapped body emitted verbatim. -/
def renderCodeBlock (language : String) (code : String) : Except String String :=
  Except.ok ("<ac:structured-macro ac:name=\"code\">" ++
    (if language = "" then ""
     else "<ac:parameter ac:name=\"language\">" ++ escapeString language ++
       "</ac:parameter>") ++
    "<ac:plain-text-body><![CDATA[" ++ code ++
    "]]></ac:plain-text-body></ac:structured-macro>")

/-- Model of `RenderBlock` (the pointer/value pairs of the Go type
switch collapse to one case per variant). -/
def RenderBlock : Block → Except String String
  | Block.table headers rows => renderTable headers rows
  | Block.paragraph text => renderParagraph text
  | Block.heading level text => renderHeading level text
  | Block.bulletList items => renderBulletList items
  | Block.numberedList items => renderNumberedList items
  | Block.macroBlk m => RenderMacro m
  | Block.codeBlock language code => renderCodeBlock language code
  | Block.horizontalRule => Except.ok "<hr/>"

/-- Model of `Render` over a block list: concatenates block renderings,
stopping at the first error. -/
def renderBlocks : List Block → Except String String
  | [] => Except.ok ""
  | b :: bs =>
    match RenderBlock b with
    | Except.error e => Except.error e
    | Except.ok s =>
      match renderBlocks bs with
      | Except.error e => Except.error e
      | Except.ok r => Except.ok (s ++ r)

/-- Model of `Render`. -/
def Render (p : Page) : Except String String :=
  renderBlocks p.blocks

/-! ## Validator (`validate.go`) -/

/-- A validation failure: message, plus the offending tag/macro name. -/
structure ValidationError where
  message : String
  tag : String
deriving DecidableEq, Repr

/-- The default forbidden-tag set. -/
def ForbiddenTags : List String :=
  ["thead", "tfoot", "colgroup", "col", "div", "span", "script", "style",
   "iframe", "form", "input", "button"]

/-- Validator options (`AllowedMacros`/`ForbiddenTags` Go sets are
modelled as lists; membership is what matters). -/
structure ValidatorOptions where
  requireTableTbody : Bool
  allowedMacros : List String
  forbiddenTags : List String
deriving Repr

/-- Model of `DefaultValidatorOptions`. -/
def DefaultValidatorOptions : ValidatorOptions :=
  ⟨true, [], ForbiddenTags⟩

/-- Model of `getMacroName`: the first attribute whose local name is
`name`, or the empty string. -/
def getMacroName (attrs : List (String × String)) : String :=
  match attrs.find? (fun a => a.1 == "name") with
  | some a => a.2
  | none => ""

/-- The validator's single pass over the token stream.  Note the single
shared `tbodyFound` flag: it is reset at every `table` start-tag and is
not restored when a nested table closes. -/
def validateLoop (opts : ValidatorOptions) :
    List Tok → Option String → Int → Bool → Except ValidationError Unit
  | [], none, _, _ => Except.ok ()
  | [], some e, _, _ => Except.error ⟨"invalid XML: " ++ e, ""⟩
  | Tok.startEl name attrs :: ts, e, tableDepth, tbodyFound =>
    if opts.forbiddenTags.contains name then
      Except.error ⟨"forbidden tag", name⟩
    else if name = "structured-macro" ∧ opts.allowedMacros ≠ [] ∧
        getMacroName attrs ≠ "" ∧ ¬ opts.allowedMacros.contains (getMacroName attrs) then
      Except.error ⟨"disallowed macro", getMacroName attrs⟩
    else if name = "table" then
      validateLoop opts ts e (tableDepth + 1) false
    else if name = "tbody" ∧ tableDepth > 0 then
      validateLoop opts ts e tableDepth true
    else if name = "tr" ∧ tableDepth > 0 ∧ ¬ tbodyFound ∧ opts.requireTableTbody then
      Except.error ⟨"<tr> must be inside <tbody>", "tr"⟩
    else
      validateLoop opts ts e tableDepth tbodyFound
  | Tok.endEl name :: ts, e, tableDepth, tbodyFound =>
    if name = "table" then
      if ¬ tbodyFound ∧ opts.requireTableTbody then
        Except.error ⟨"<table> must contain <tbody>", "table"⟩
      else
        validateLoop opts ts e (tableDepth - 1) tbodyFound
    else
      validateLoop opts ts e tableDepth tbodyFound
  | Tok.charData _ :: ts, e, tableDepth, tbodyFound =>
    validateLoop opts ts e tableDepth tbodyFound

/-- Model of `ValidateWithOptions`. -/
def ValidateWithOptions (s : String) (opts : ValidatorOptions) :
    Except ValidationError Unit :=
  if s = "" then Except.ok ()
  else
    let te := xmlTokens s
    validateLoop opts te.1 te.2 0 false

/-- Model of `Validate`. -/
def Validate (s : String) : Except ValidationError Unit :=
  ValidateWithOptions s DefaultValidatorOptions

/-- Model of `ValidateBlock`: render then validate. -/
def ValidateBlock (b : Block) : Except String Unit :=
  match RenderBlock b with
  | Except.error e => Except.error e
  | Except.ok s =>
    match Validate s with
    | Except.error e => Except.error (e.message ++ " (tag: " ++ e.tag ++ ")")
    | Except.ok () => Except.ok ()

/-- Model of `IsValidXML` (wraps with a bare root, checks only
well-formedness). -/
def IsValidXML (s : String) : Bool :=
  (tokFinish (tokSteps ("<root>" ++ s ++ "</root>").data initSt)).2.isNone

/-! ## Parser (`parse.go`)

Each Go parse helper reads tokens from the decoder until its end tag,
the end of input (clean EOF returns the partial value, an error
propagates), or a nested failure.  The token stream is the pair of the
already-produced tokens and the optional error that ended tokenization.
The `fuel` argument only makes the recursion structural; every run in
this file uses more fuel than there are tokens, so the `0` branch is
never reached. -/

/-- Go map assignment `m[k] = v` on the association-list model:
overwrite in place, else append. -/
def mapPut (l : List (String × String)) (k v : String) : List (String × String) :=
  if l.any (fun p => p.1 == k) then
    l.map (fun p => if p.1 == k then (k, v) else p)
  else l ++ [(k, v)]

/-- The last `name` attribute value, or empty (the attribute loops in
`parseMacro` and on `parameter` elements overwrite, keeping the last). -/
def lastNameAttr (attrs : List (String × String)) : String :=
  attrs.foldl (fun acc a => if a.1 == "name" then a.2 else acc) ""

/-- Model of `skipElement`: discard tokens until the matching end tag,
tracking nesting depth; clean EOF is success. -/
def skipElement (fuel : Nat) (depth : Nat) (ts : List Tok) (e : Option String) :
    Except String (List Tok) :=
  match fuel with
  | 0 => Except.error "out of fuel"
  | fuel + 1 =>
    if depth = 0 then Except.ok ts
    else
      match ts with
      | [] =>
        match e with
        | some m => Except.error m
        | none => Except.ok []
      | Tok.startEl _ _ :: rest => skipElement fuel (depth + 1) rest e
      | Tok.endEl _ :: rest => skipElement fuel (depth - 1) rest e
      | Tok.charData _ :: rest => skipElement fuel depth rest e

/-- Model of `extractNestedText`: concatenate all character data at any
depth until the matching end tag, then trim. -/
def extractNestedText (fuel : Nat) (depth : Nat) (acc : List Char)
    (ts : List Tok) (e : Option String) : Except String (String × List Tok) :=
  match fuel with
  | 0 => Except.error "out of fuel"
  | fuel + 1 =>
    if depth = 0 then Except.ok (goTrimSpace ⟨acc⟩, ts)
    else
      match ts with
      | [] =>
        match e with
        | some m => Except.error m
        | none => Except.ok (goTrimSpace ⟨acc⟩, [])
      | Tok.charData s :: rest => extractNestedText fuel depth (acc ++ s.data) rest e
      | Tok.startEl _ _ :: rest => extractNestedText fuel (depth + 1) acc rest e
      | Tok.endEl _ :: rest => extractNestedText fuel (depth - 1) acc rest e

/-- Model of `parseTextContent`: top-level character data only; nested
elements are skipped whole (`skipElement`), their text discarded.  The
normal exit (at `endTag`) trims; the EOF exit does not. -/
def parseTextContent (fuel : Nat) (endTag : String) (acc : List Char)
    (ts : List Tok) (e : Option String) : Except String (String × List Tok) :=
  match fuel with
  | 0 => Except.error "out of fuel"
  | fuel + 1 =>
    match ts with
    | [] =>
      match e with
      | some m => Except.error m
      | none => Except.ok (⟨acc⟩, [])
    | Tok.charData s :: rest => parseTextContent fuel endTag (acc ++ s.data) rest e
    | Tok.endEl n :: rest =>
      if n = endTag then Except.ok (goTrimSpace ⟨acc⟩, rest)
      else parseTextContent fuel endTag acc rest e
    | Tok.startEl _ _ :: rest =>
      match skipElement fuel 1 rest e with
      | Except.error m => Except.error m
      | Except.ok rest2 => parseTextContent fuel endTag acc rest2 e

/-- The token-consuming loop of `parseMacro` (the macro name was taken
from the start tag's attributes before the loop). -/
def parseMacroLoop (fuel : Nat) (m : Macro) (ts : List Tok) (e : Option String) :
    Except String (Macro × List Tok) :=
  match fuel with
  | 0 => Except.error "out of fuel"
  | fuel + 1 =>
    match ts with
    | [] =>
      match e with
      | some msg => Except.error msg
      | none => Except.ok (m, [])
    | Tok.startEl n attrs :: rest =>
      if n = "parameter" then
        match parseTextContent fuel "parameter" [] rest e with
        | Except.error msg => Except.error msg
        | Except.ok (value, rest2) =>
          let pname := lastNameAttr attrs
          if pname = "" then parseMacroLoop fuel m rest2 e
          else parseMacroLoop fuel ⟨m.name, mapPut m.params pname value, m.body⟩ rest2 e
      else if n = "rich-text-body" ∨ n = "plain-text-body" then
        match parseTextContent fuel n [] rest e with
        | Except.error msg => Except.error msg
        | Except.ok (body, rest2) =>
          parseMacroLoop fuel ⟨m.name, m.params, body⟩ rest2 e
      else
        match skipElement fuel 1 rest e with
        | Except.error msg => Except.error msg
        | Except.ok rest2 => parseMacroLoop fuel m rest2 e
    | Tok.endEl n :: rest =>
      if n = "structured-macro" then Except.ok (m, rest)
      else parseMacroLoop fuel m rest e
    | Tok.charData _ :: rest => parseMacroLoop fuel m rest e

/-- Model of `parseMacro`: name from the start tag's `name` attribute
(last one wins), then the child loop. -/
def parseMacro (fuel : Nat) (attrs : List (String × String))
    (ts : List Tok) (e : Option String) : Except String (Macro × List Tok) :=
  parseMacroLoop fuel ⟨lastNameAttr attrs, [], ""⟩ ts e

/-- Model of `parseTableCell`: character data accumulates; a
`structured-macro` child sets the cell's macro; any other element's
nested text is appended with a separating space when both sides are
non-empty; the end tag trims and returns. -/
def parseTableCell (fuel : Nat) (tagName : String) (accText : List Char)
    (accMac : Option Macro) (ts : List Tok) (e : Option String) :
    Except String (Cell × List Tok) :=
  match fuel with
  | 0 => Except.error "out of fuel"
  | fuel + 1 =>
    match ts with
    | [] =>
      match e with
      | some msg => Except.error msg
      | none => Except.ok (⟨"", accMac⟩, [])
    | Tok.startEl n attrs :: rest =>
      if n = "structured-macro" then
        match parseMacro fuel attrs rest e with
        | Except.error msg => Except.error msg
        | Except.ok (m, rest2) => parseTableCell fuel tagName accText (some m) rest2 e
      else
        match extractNestedText fuel 1 [] rest e with
        | Except.error msg => Except.error msg
        | Except.ok (nested, rest2) =>
          let accText2 :=
            if accText ≠ [] ∧ nested ≠ "" then accText ++ ' ' :: nested.data
            else accText ++ nested.data
          parseTableCell fuel tagName accText2 accMac rest2 e
    | Tok.charData s :: rest =>
      parseTableCell fuel tagName (accText ++ s.data) accMac rest e
    | Tok.endEl n :: rest =>
      if n = tagName then Except.ok (⟨goTrimSpace ⟨accText⟩, accMac⟩, rest)
      else parseTableCell fuel tagName accText accMac rest e

/-- Model of `parseTableRow`: `th` marks the row as a header row; cells
parse in order; unknown children are skipped. -/
def parseTableRow (fuel : Nat) (cells : List Cell) (isHeader : Bool)
    (ts : List Tok) (e : Option String) :
    Except String (Row × Bool × List Tok) :=
  match fuel with
  | 0 => Except.error "out of fuel"
  | fuel + 1 =>
    match ts with
    | [] =>
      match e with
      | some msg => Except.error msg
      | none => Except.ok (⟨cells⟩, isHeader, [])
    | Tok.startEl n _ :: rest =>
      if n = "th" then
        match parseTableCell fuel "th" [] none rest e with
        | Except.error msg => Except.error msg
        | Except.ok (cell, rest2) => parseTableRow fuel (cells ++ [cell]) true rest2 e
      else if n = "td" then
        match parseTableCell fuel "td" [] none rest e with
        | Except.error msg => Except.error msg
        | Except.ok (cell, rest2) => parseTableRow fuel (cells ++ [cell]) isHeader rest2 e
      else
        match skipElement fuel 1 rest e with
        | Except.error msg => Except.error msg
        | Except.ok rest2 => parseTableRow fuel cells isHeader rest2 e
    | Tok.endEl n :: rest =>
      if n = "tr" then Except.ok (⟨cells⟩, isHeader, rest)
      else parseTableRow fuel cells isHeader rest e
    | Tok.charData _ :: rest => parseTableRow fuel cells isHeader rest e

/-- Header-row handling shared by `parseTbody` and `parseTable`: a
header row appends all its cells' text to the accumulated headers, a
data row appends to the rows. -/
def addRow (headers : List String) (rows : List Row) (r : Row) (isHeader : Bool) :
    List String × List Row :=
  if isHeader then (headers ++ r.cells.map (fun c => c.text), rows)
  else (headers, rows ++ [r])

/-- Model of `parseTbody`: rows inside `tbody`. -/
def parseTbody (fuel : Nat) (headers : List String) (rows : List Row)
    (ts : List Tok) (e : Option String) :
    Except String (List String × List Row × List Tok) :=
  match fuel with
  | 0 => Except.error "out of fuel"
  | fuel + 1 =>
    match ts with
    | [] =>
      match e with
      | some msg => Except.error msg
      | none => Except.ok (headers, rows, [])
    | Tok.startEl n _ :: rest =>
      if n = "tr" then
        match parseTableRow fuel [] false rest e with
        | Except.error msg => Except.error msg
        | Except.ok (r, isHeader, rest2) =>
          let hr := addRow headers rows r isHeader
          parseTbody fuel hr.1 hr.2 rest2 e
      else
        match skipElement fuel 1 rest e with
        | Except.error msg => Except.error msg
        | Except.ok rest2 => parseTbody fuel headers rows rest2 e
    | Tok.endEl n :: rest =>
      if n = "tbody" then Except.ok (headers, rows, rest)
      else parseTbody fuel headers rows rest e
    | Tok.charData _ :: rest => parseTbody fuel headers rows rest e

/-- The token-consuming loop of `parseTable`: rows may appear inside
`tbody` or directly under `table`. -/
def parseTableLoop (fuel : Nat) (headers : List String) (rows : List Row)
    (ts : List Tok) (e : Option String) :
    Except String (List String × List Row × List Tok) :=
  match fuel with
  | 0 => Except.error "out of fuel"
  | fuel + 1 =>
    match ts with
    | [] =>
      match e with
      | some msg => Except.error msg
      | none => Except.ok (headers, rows, [])
    | Tok.startEl n _ :: rest =>
      if n = "tbody" then
        match parseTbody fuel headers rows rest e with
        | Except.error msg => Except.error msg
        | Except.ok (headers2, rows2, rest2) => parseTableLoop fuel headers2 rows2 rest2 e
      else if n = "tr" then
        match parseTableRow fuel [] false rest e with
        | Except.error msg => Except.error msg
        | Except.ok (r, isHeader, rest2) =>
          let hr := addRow headers rows r isHeader
          parseTableLoop fuel hr.1 hr.2 rest2 e
      else
        match skipElement fuel 1 rest e with
        | Except.error msg => Except.error msg
        | Except.ok rest2 => parseTableLoop fuel headers rows rest2 e
    | Tok.endEl n :: rest =>
      if n = "table" then Except.ok (headers, rows, rest)
      else parseTableLoop fuel headers rows rest e
    | Tok.charData _ :: rest => parseTableLoop fuel headers rows rest e

/-- Model of `parseTable` (headers and rows start empty). -/
def parseTable (fuel : Nat) (ts : List Tok) (e : Option String) :
    Except String (List String × List Row × List Tok) :=
  parseTableLoop fuel [] [] ts e

/-- Model of `parseParagraph`: character data plus flattened nested
text (no separating space); the `p` end tag trims, the EOF exit does
not. -/
def parseParagraph (fuel : Nat) (acc : List Char)
    (ts : List Tok) (e : Option String) : Except String (String × List Tok) :=
  match fuel with
  | 0 => Except.error "out of fuel"
  | fuel + 1 =>
    match ts with
    | [] =>
      match e with
      | some msg => Except.error msg
      | none => Except.ok (⟨acc⟩, [])
    | Tok.charData s :: rest => parseParagraph fuel (acc ++ s.data) rest e
    | Tok.endEl n :: rest =>
      if n = "p" then Except.ok (goTrimSpace ⟨acc⟩, rest)
      else parseParagraph fuel acc rest e
    | Tok.startEl _ _ :: rest =>
      match extractNestedText fuel 1 [] rest e with
      | Except.error msg => Except.error msg
      | Except.ok (nested, rest2) => parseParagraph fuel (acc ++ nested.data) rest2 e

/-- Go's `strings.HasPrefix(name, "h")` for the single-character
prefix: the first character is `h`. -/
def startsH (n : String) : Bool :=
  match n.data with
  | 'h' :: _ => true
  | _ => false

/-- Model of `parseHeading`'s loop (the level came from the tag name):
exits at any end tag whose local name starts with `h`. -/
def parseHeadingLoop (fuel : Nat) (acc : List Char)
    (ts : List Tok) (e : Option String) : Except String (String × List Tok) :=
  match fuel with
  | 0 => Except.error "out of fuel"
  | fuel + 1 =>
    match ts with
    | [] =>
      match e with
      | some msg => Except.error msg
      | none => Except.ok (⟨acc⟩, [])
    | Tok.charData s :: rest => parseHeadingLoop fuel (acc ++ s.data) rest e
    | Tok.endEl n :: rest =>
      if startsH n then Except.ok (goTrimSpace ⟨acc⟩, rest)
      else parseHeadingLoop fuel acc rest e
    | Tok.startEl _ _ :: rest =>
      match extractNestedText fuel 1 [] rest e with
      | Except.error msg => Except.error msg
      | Except.ok (nested, rest2) => parseHeadingLoop fuel (acc ++ nested.data) rest2 e

/-- Model of `parseListItem`. -/
def parseListItem (fuel : Nat) (acc : List Char)
    (ts : List Tok) (e : Option String) : Except String (ListItem × List Tok) :=
  match fuel with
  | 0 => Except.error "out of fuel"
  | fuel + 1 =>
    match ts with
    | [] =>
      match e with
      | some msg => Except.error msg
      | none => Except.ok (⟨(⟨acc⟩ : String)⟩, [])
    | Tok.charData s :: rest => parseListItem fuel (acc ++ s.data) rest e
    | Tok.endEl n :: rest =>
      if n = "li" then Except.ok (⟨goTrimSpace ⟨acc⟩⟩, rest)
      else parseListItem fuel acc rest e
    | Tok.startEl _ _ :: rest =>
      match extractNestedText fuel 1 [] rest e with
      | Except.error msg => Except.error msg
      | Except.ok (nested, rest2) => parseListItem fuel (acc ++ nested.data) rest2 e

/-- Model of `parseBulletList`/`parseNumberedList` (identical loops,
parameterised by the closing tag). -/
def parseListLoop (fuel : Nat) (endTag : String) (items : List ListItem)
    (ts : List Tok) (e : Option String) :
    Except String (List ListItem × List Tok) :=
  match fuel with
  | 0 => Except.error "out of fuel"
  | fuel + 1 =>
    match ts with
    | [] =>
      match e with
      | some msg => Except.error msg
      | none => Except.ok (items, [])
    | Tok.startEl n _ :: rest =>
      if n = "li" then
        match parseListItem fuel [] rest e with
        | Except.error msg => Except.error msg
        | Except.ok (item, rest2) => parseListLoop fuel endTag (items ++ [item]) rest2 e
      else
        match skipElement fuel 1 rest e with
        | Except.error msg => Except.error msg
        | Except.ok rest2 => parseListLoop fuel endTag items rest2 e
    | Tok.endEl n :: rest =>
      if n = endTag then Except.ok (items, rest)
      else parseListLoop fuel endTag items rest e
    | Tok.charData _ :: rest => parseListLoop fuel endTag items rest e

/-- Model of `parseElement`: dispatch on the start tag's local name.
Unknown elements are skipped structurally and contribute no block. -/
def parseElement (fuel : Nat) (name : String) (attrs : List (String × String))
    (ts : List Tok) (e : Option String) :
    Except String (Option Block × List Tok) :=
  match name with
  | "root" => Except.ok (none, ts)
  | "table" =>
    match parseTable fuel ts e with
    | Except.error msg => Except.error msg
    | Except.ok (headers, rows, rest) => Except.ok (some (Block.table headers rows), rest)
  | "p" =>
    match parseParagraph fuel [] ts e with
    | Except.error msg => Except.error msg
    | Except.ok (text, rest) => Except.ok (some (Block.paragraph text), rest)
  | "h1" =>
    match parseHeadingLoop fuel [] ts e with
    | Except.error msg => Except.error msg
    | Except.ok (text, rest) => Except.ok (some (Block.heading 1 text), rest)
  | "h2" =>
    match parseHeadingLoop fuel [] ts e with
    | Except.error msg => Except.error msg
    | Except.ok (text, rest) => Except.ok (some (Block.heading 2 text), rest)
  | "h3" =>
    match parseHeadingLoop fuel [] ts e with
    | Except.error msg => Except.error msg
    | Except.ok (text, rest) => Except.ok (some (Block.heading 3 text), rest)
  | "h4" =>
    match parseHeadingLoop fuel [] ts e with
    | Except.error msg => Except.error msg
    | Except.ok (text, rest) => Except.ok (some (Block.heading 4 text), rest)
  | "h5" =>
    match parseHeadingLoop fuel [] ts e with
    | Except.error msg => Except.error msg
    | Except.ok (text, rest) => Except.ok (some (Block.heading 5 text), rest)
  | "h6" =>
    match parseHeadingLoop fuel [] ts e with
    | Except.error msg => Except.error msg
    | Except.ok (text, rest) => Except.ok (some (Block.heading 6 text), rest)
  | "ul" =>
    match parseListLoop fuel "ul" [] ts e with
    | Except.error msg => Except.error msg
    | Except.ok (items, rest) => Except.ok (some (Block.bulletList items), rest)
  | "ol" =>
    match parseListLoop fuel "ol" [] ts e with
    | Except.error msg => Except.error msg
    | Except.ok (items, rest) => Except.ok (some (Block.numberedList items), rest)
  | "hr" => Except.ok (some Block.horizontalRule, ts)
  | "structured-macro" =>
    match parseMacro fuel attrs ts e with
    | Except.error msg => Except.error msg
    | Except.ok (m, rest) => Except.ok (some (Block.macroBlk m), rest)
  | _ =>
    match skipElement fuel 1 ts e with
    | Except.error msg => Except.error msg
    | Except.ok rest => Except.ok (none, rest)

/-- The main `Parse` loop over top-level tokens: start elements
dispatch, everything else is ignored; a tokenizer error is wrapped. -/
def parsePage (fuel : Nat) (blocks : List Block)
    (ts : List Tok) (e : Option String) : Except String (List Block) :=
  match fuel with
  | 0 => Except.error "out of fuel"
  | fuel + 1 =>
    match ts with
    | [] =>
      match e with
      | some msg => Except.error ("parse error: " ++ msg)
      | none => Except.ok blocks
    | Tok.startEl n attrs :: rest =>
      match parseElement fuel n attrs rest e with
      | Except.error msg => Except.error msg
      | Except.ok (some b, rest2) => parsePage fuel (blocks ++ [b]) rest2 e
      | Except.ok (none, rest2) => parsePage fuel blocks rest2 e
    | Tok.endEl _ :: rest => parsePage fuel blocks rest e
    | Tok.charData _ :: rest => parsePage fuel blocks rest e

/-- Model of `Parse`: empty input short-circuits to an empty page. -/
def Parse (s : String) : Except String Page :=
  if s = "" then Except.ok ⟨[]⟩
  else
    let te := xmlTokens s
    match parsePage (te.1.length + 1) [] te.1 te.2 with
    | Except.error msg => Except.error msg
    | Except.ok blocks => Except.ok ⟨blocks⟩

/-! ## Sanity checks against the repository's own tests -/

set_option maxRecDepth 400000

/-- The `TestParse` table-with-macro scenario parses as the Go test
expects. -/
theorem parse_table_with_macro_matches_test :
    Parse "<table><tbody><tr><th>Status</th></tr><tr><td><ac:structured-macro ac:name=\"status\"><ac:parameter ac:name=\"colour\">Green</ac:parameter><ac:parameter ac:name=\"title\">OK</ac:parameter></ac:structured-macro></td></tr></tbody></table>" =
      Except.ok ⟨[Block.table ["Status"]
        [⟨[⟨"", some ⟨"status", [("colour", "Green"), ("title", "OK")], ""⟩⟩]⟩]]⟩ := rfl

/-- The `TestRenderParagraph` escaping scenario renders as the Go test
expects. -/
theorem render_paragraph_matches_test :
    RenderBlock (Block.paragraph "Hello <World> & \"Friends\"") =
      Except.ok "<p>Hello &lt;World&gt; &amp; &#34;Friends&#34;</p>" := rfl

/-- The `TestValidate` missing-tbody scenario fails as the Go test
expects. -/
theorem validate_tr_outside_tbody_matches_test :
    Validate "<table><tr><td>Data</td></tr></table>" =
      Except.error ⟨"<tr> must be inside <tbody>", "tr"⟩ := rfl

/-! ## Claim C1: the renderer/validator gate -/

/-- Claim C1, as stated, is false: a macro body is rendered verbatim,
so a `Page` whose macro body contains a forbidden tag renders
successfully to markup that `Validate` rejects. -/
theorem render_validate_gate_counterexample :
    Render ⟨[Block.macroBlk ⟨"info", [], "<div>x</div>"⟩]⟩ =
      Except.ok "<ac:structured-macro ac:name=\"info\"><ac:rich-text-body><div>x</div></ac:rich-text-body></ac:structured-macro>" ∧
    Validate "<ac:structured-macro ac:name=\"info\"><ac:rich-text-body><div>x</div></ac:rich-text-body></ac:structured-macro>" =
      Except.error ⟨"forbidden tag", "div"⟩ :=
  ⟨rfl, rfl⟩

/-! ## Claim C2: round-trip idempotence -/

/-- Claim C2, as stated, is false: a paragraph with leading whitespace
is in the IR's representable subset, yet the parser trims the text, so
the second rendering differs from the first byte-for-byte. -/
theorem round_trip_counterexample :
    Render ⟨[Block.paragraph " a"]⟩ = Except.ok "<p> a</p>" ∧
    Parse "<p> a</p>" = Except.ok ⟨[Block.paragraph "a"]⟩ ∧
    Render ⟨[Block.paragraph "a"]⟩ = Except.ok "<p>a</p>" ∧
    "<p>a</p>" ≠ "<p> a</p>" :=
  ⟨rfl, rfl, rfl, by decide⟩

/-! ## Claim C3: header-row classification -/

/-- Claim C3, as stated, is false: with two header rows the parser
appends the second row's cell texts to the first's, rather than
overwriting (last wins would give `["B"]`). -/
theorem table_headers_append_counterexample :
    Parse "<table><tbody><tr><th>A</th></tr><tr><th>B</th></tr></tbody></table>" =
      Except.ok ⟨[Block.table ["A", "B"] []]⟩ ∧
    ["A", "B"] ≠ ["B"] :=
  ⟨rfl, by decide⟩

/-! ## Claim C4: per-table tbody tracking -/

/-- Claim C4, as stated, is false: the validator keeps a single shared
`tbodyFound` flag, so an outer table that closes without its own tbody
passes validation when a nested table's tbody left the flag set. -/
theorem tbody_flag_not_per_table_counterexample :
    Validate "<table><table><tbody><tr><td>x</td></tr></tbody></table></table>" =
      Except.ok () :=
  rfl

/-! ## Claim C5: cell text/macro exclusivity -/

/-- Claim C5, as stated, is false: a cell holding character data and a
structured-macro child parses with both fields set. -/
theorem cell_text_and_macro_counterexample :
    Parse "<table><tbody><tr><td>hi<ac:structured-macro ac:name=\"s\"></ac:structured-macro></td></tr></tbody></table>" =
      Except.ok ⟨[Block.table []
        [⟨[⟨"hi", some ⟨"s", [], ""⟩⟩]⟩]]⟩ ∧
    "hi" ≠ "" :=
  ⟨rfl, by decide⟩

/-! ## Claim C6: macro body extraction -/

/-- Claim C6, as stated, is false: `parseTextContent` skips nested
elements whole (discarding their text), so the body of
`a<strong>b</strong>c` parses as `ac`, not the flattened `abc`. -/
theorem macro_body_skips_nested_counterexample :
    Parse "<ac:structured-macro ac:name=\"info\"><ac:rich-text-body>a<strong>b</strong>c</ac:rich-text-body></ac:structured-macro>" =
      Except.ok ⟨[Block.macroBlk ⟨"info", [], "ac"⟩]⟩ ∧
    "ac" ≠ "abc" :=
  ⟨rfl, by decide⟩

/-! ## Claim C7: macro allowlist -/

/-- Claim C7, as stated, is false: a macro whose `name` attribute is
empty is not in the non-empty allowlist, yet the validator skips the
check for empty names and accepts the input. -/
theorem allowlist_empty_name_counterexample :
    ValidateWithOptions "<ac:structured-macro ac:name=\"\"></ac:structured-macro>"
      ⟨true, ["status"], ForbiddenTags⟩ = Except.ok () ∧
    ("" ∈ (["status"] : List String) → False) ∧
    (["status"] : List String) ≠ [] :=
  ⟨rfl, by decide, by decide⟩

/-! ## Claim C8: heading level bounds -/

/-- Claim C8: `RenderBlock` on a heading succeeds exactly for levels 1
through 6, producing the `<hN>` form with escaped text; out-of-range
levels produce a `RenderError`, never a clamped or defaulted level. -/
theorem renderBlock_heading_level_bounds (level : Int) (text : String) :
    (1 ≤ level ∧ level ≤ 6 →
      RenderBlock (Block.heading level text) =
        Except.ok ("<h" ++ toString level ++ ">" ++ escapeString text ++
          "</h" ++ toString level ++ ">")) ∧
    (level < 1 ∨ 6 < level →
      RenderBlock (Block.heading level text) =
        Except.error ("invalid heading level: " ++ toString level)) := by
  constructor
  · intro h
    have hc : ¬ (level < 1 ∨ level > 6) := by omega
    simp [RenderBlock, renderHeading, hc]
  · intro h
    have hc : level < 1 ∨ level > 6 := by omega
    simp [RenderBlock, renderHeading, hc]

/-- Witness for C8 at concrete levels 3 (in range) and 0 (out of
range). -/
theorem renderBlock_heading_level_bounds_witness :
    RenderBlock (Block.heading 3 "Subtitle") = Except.ok "<h3>Subtitle</h3>" ∧
    RenderBlock (Block.heading 0 "Bad") =
      Except.error "invalid heading level: 0" := by
  constructor
  · exact (renderBlock_heading_level_bounds 3 "Subtitle").1 (by decide)
  · exact (renderBlock_heading_level_bounds 0 "Bad").2 (by decide)

/-! ## Validator pass lemmas -/

/-- The character data of a wrapped tokenizer error message starts with
the letter i. -/
theorem invalidXML_data (e : String) :
    ("invalid XML: " ++ e).data = 'i' :: ("nvalid XML: ".data ++ e.data) := by
  rw [String.data_append]
  rfl

/-- A wrapped tokenizer error message differs from any message whose
first character is not the letter i. -/
theorem invalidXML_ne_of_head (e t : String) (ht : t.data.head? ≠ some 'i') :
    ("invalid XML: " ++ e) ≠ t := by
  intro h
  apply ht
  rw [← h, invalidXML_data]
  rfl

/-- A wrapped tokenizer error message never reads "disallowed macro". -/
theorem invalidXML_message_ne (e : String) :
    ("invalid XML: " ++ e) ≠ "disallowed macro" :=
  invalidXML_ne_of_head e "disallowed macro" (by decide)

/-- Success of the validator pass means every `structured-macro` start
token in the stream carried an allowed (or empty) first `name`
attribute. -/
theorem validateLoop_ok_macro_allowed (opts : ValidatorOptions) :
    ∀ (ts : List Tok) (e : Option String) (d : Int) (f : Bool)
      (attrs : List (String × String)),
      validateLoop opts ts e d f = Except.ok () →
      Tok.startEl "structured-macro" attrs ∈ ts →
      opts.allowedMacros ≠ [] →
      getMacroName attrs = "" ∨ getMacroName attrs ∈ opts.allowedMacros := by
  intro ts
  induction ts with
  | nil => intro e d f attrs _ hmem _; simp at hmem
  | cons t rest ih =>
    intro e d f attrs hok hmem hne
    match t with
    | Tok.startEl n a =>
      rw [validateLoop] at hok
      split at hok
      · exact absurd hok (by simp)
      · split at hok
        · exact absurd hok (by simp)
        next hmac =>
          rcases List.mem_cons.mp hmem with hhd | htl
          · have hn : n = "structured-macro" ∧ a = attrs := by
              injection hhd.symm with h1 h2; exact ⟨h1, h2⟩
            rcases hn with ⟨hn1, hn2⟩
            subst hn1; subst hn2
            by_cases hempty : getMacroName a = ""
            · exact Or.inl hempty
            · right
              by_cases hcont : opts.allowedMacros.contains (getMacroName a) = true
              · simpa using hcont
              · exact absurd ⟨rfl, hne, hempty, hcont⟩ hmac
          · split at hok
            · exact ih e (d+1) false attrs hok htl hne
            · split at hok
              · exact ih e d true attrs hok htl hne
              · split at hok
                · exact absurd hok (by simp)
                · exact ih e d f attrs hok htl hne
    | Tok.endEl n =>
      rw [validateLoop] at hok
      have htl : Tok.startEl "structured-macro" attrs ∈ rest := by
        rcases List.mem_cons.mp hmem with hhd | htl
        · exact absurd hhd.symm (by simp)
        · exact htl
      split at hok
      · split at hok
        · exact absurd hok (by simp)
        · exact ih e (d-1) f attrs hok htl hne
      · exact ih e d f attrs hok htl hne
    | Tok.charData s =>
      rw [validateLoop] at hok
      have htl : Tok.startEl "structured-macro" attrs ∈ rest := by
        rcases List.mem_cons.mp hmem with hhd | htl
        · exact absurd hhd.symm (by simp)
        · exact htl
      exact ih e d f attrs hok htl hne

/-- A "disallowed macro" failure of the validator pass always names a
macro that is non-empty and outside the allowlist. -/
theorem validateLoop_disallowed_tag (opts : ValidatorOptions) :
    ∀ (ts : List Tok) (e : Option String) (d : Int) (f : Bool)
      (err : ValidationError),
      validateLoop opts ts e d f = Except.error err →
      err.message = "disallowed macro" →
      ¬ err.tag ∈ opts.allowedMacros ∧ err.tag ≠ "" := by
  intro ts
  induction ts with
  | nil =>
    intro e d f err herr hmsg
    match e with
    | none => rw [validateLoop] at herr; exact absurd herr (by simp)
    | some m =>
      rw [validateLoop] at herr
      injection herr with h
      have : err.message = "invalid XML: " ++ m := by rw [← h]
      rw [hmsg] at this
      exact absurd this.symm (invalidXML_message_ne m)
  | cons t rest ih =>
    intro e d f err herr hmsg
    match t with
    | Tok.startEl n a =>
      rw [validateLoop] at herr
      split at herr
      · injection herr with h
        have hmm : err.message = "forbidden tag" := by rw [← h]
        rw [hmsg] at hmm
        exact absurd hmm (by decide)
      · split at herr
        next hmac =>
          injection herr with h
          have htag : err.tag = getMacroName a := by rw [← h]
          refine ⟨?_, ?_⟩
          · rw [htag]
            intro hmem
            exact hmac.2.2.2 (by simpa using hmem)
          · rw [htag]; exact hmac.2.2.1
        · split at herr
          · exact ih e (d+1) false err herr hmsg
          · split at herr
            · exact ih e d true err herr hmsg
            · split at herr
              · injection herr with h
                have hmm : err.message = "<tr> must be inside <tbody>" := by rw [← h]
                rw [hmsg] at hmm
                exact absurd hmm (by decide)
              · exact ih e d f err herr hmsg
    | Tok.endEl n =>
      rw [validateLoop] at herr
      split at herr
      · split at herr
        · injection herr with h
          have hmm : err.message = "<table> must contain <tbody>" := by rw [← h]
          rw [hmsg] at hmm
          exact absurd hmm (by decide)
        · exact ih e (d-1) f err herr hmsg
      · exact ih e d f err herr hmsg
    | Tok.charData s =>
      rw [validateLoop] at herr
      exact ih e d f err herr hmsg

/-! ## Claim C7: the allowlist check, amended -/

/-- Claim C7, amended: with a non-empty allowlist, validation succeeds
only when every `structured-macro` start-tag's `name` attribute is
empty or in the set, and a "disallowed macro" failure always identifies
a non-empty macro name outside the set.  (A macro with an empty or
missing `name` attribute skips the check — the correction the
counterexample forces.) -/
theorem allowlist_check_amended (s : String) (r : Bool)
    (allowed forbidden : List String) (hne : allowed ≠ []) :
    (ValidateWithOptions s ⟨r, allowed, forbidden⟩ = Except.ok () →
      ∀ attrs, Tok.startEl "structured-macro" attrs ∈ (xmlTokens s).1 →
        getMacroName attrs = "" ∨ getMacroName attrs ∈ allowed) ∧
    (∀ err, ValidateWithOptions s ⟨r, allowed, forbidden⟩ = Except.error err →
      err.message = "disallowed macro" →
      ¬ err.tag ∈ allowed ∧ err.tag ≠ "") := by
  constructor
  · intro hok attrs hmem
    by_cases hs : s = ""
    · subst hs
      have : Tok.startEl "structured-macro" attrs ∈ (xmlTokens "").1 := hmem
      rw [show (xmlTokens "").1 =
        [Tok.startEl "root" [("ac", "http://atlassian.com/confluence"),
          ("ri", "http://atlassian.com/confluence")], Tok.endEl "root"] from rfl] at this
      simp at this
    · rw [ValidateWithOptions, if_neg hs] at hok
      exact validateLoop_ok_macro_allowed ⟨r, allowed, forbidden⟩
        (xmlTokens s).1 (xmlTokens s).2 0 false attrs hok hmem hne
  · intro err herr hmsg
    by_cases hs : s = ""
    · rw [ValidateWithOptions, if_pos hs] at herr
      exact absurd herr (by simp)
    · rw [ValidateWithOptions, if_neg hs] at herr
      exact validateLoop_disallowed_tag ⟨r, allowed, forbidden⟩
        (xmlTokens s).1 (xmlTokens s).2 0 false err herr hmsg

/-- Witness for the amended C7 at the spec's own scenario: allowlist
`{status, info}`, macro "danger" fails naming "danger", macro "status"
passes. -/
theorem allowlist_check_amended_witness :
    (ValidateWithOptions "<ac:structured-macro ac:name=\"status\"></ac:structured-macro>"
        ⟨true, ["status", "info"], ForbiddenTags⟩ = Except.ok ()) ∧
    (ValidateWithOptions "<ac:structured-macro ac:name=\"danger\"></ac:structured-macro>"
        ⟨true, ["status", "info"], ForbiddenTags⟩ =
      Except.error ⟨"disallowed macro", "danger"⟩) ∧
    ¬ "danger" ∈ (["status", "info"] : List String) ∧ "danger" ≠ "" := by
  refine ⟨rfl, rfl, ?_⟩
  exact (allowlist_check_amended
    "<ac:structured-macro ac:name=\"danger\"></ac:structured-macro>" true
    ["status", "info"] ForbiddenTags (by decide)).2
    ⟨"disallowed macro", "danger"⟩ rfl rfl

/-! ## Claim C4: the shared tbody flag, amended -/

/-- A token that neither opens a table or tbody nor closes a table:
inside such a stretch the validator's shared flag and depth are
stable. -/
def MidTok (t : Tok) : Prop :=
  (∀ a, t ≠ Tok.startEl "table" a ∧ t ≠ Tok.startEl "tbody" a) ∧
    t ≠ Tok.endEl "table"

/-- With the flag down and no table/tbody boundary before it, the
closing `table` tag can only be reached in a failing state. -/
theorem validateLoop_mid_fails (opts : ValidatorOptions)
    (hreq : opts.requireTableTbody = true) :
    ∀ (mid : List Tok), (∀ t ∈ mid, MidTok t) →
      ∀ (post : List Tok) (e : Option String) (d : Int),
        validateLoop opts (mid ++ Tok.endEl "table" :: post) e d false ≠
          Except.ok () := by
  intro mid
  induction mid with
  | nil =>
    intro _ post e d
    rw [List.nil_append, validateLoop]
    simp [hreq]
  | cons t rest ih =>
    intro hmid post e d
    have hhd : MidTok t := hmid t (by simp)
    have htl : ∀ u ∈ rest, MidTok u := fun u hu => hmid u (by simp [hu])
    rw [List.cons_append]
    match t with
    | Tok.startEl n a =>
      rw [validateLoop]
      split
      · simp
      · split
        · simp
        · split
          next hn =>
            exact absurd (show Tok.startEl n a = Tok.startEl "table" a from by rw [hn])
              ((hhd.1 a).1)
          · split
            next hn =>
              exact absurd (show Tok.startEl n a = Tok.startEl "tbody" a from by rw [hn.1])
                ((hhd.1 a).2)
            · split
              · simp
              · exact ih htl post e d
    | Tok.endEl n =>
      rw [validateLoop]
      split
      next hn =>
        exact absurd (show Tok.endEl n = Tok.endEl "table" from by rw [hn]) hhd.2
      · exact ih htl post e d
    | Tok.charData s =>
      rw [validateLoop]
      exact ih htl post e d

/-- Any occurrence of a `table` start-tag followed (with no intervening
table or tbody boundary) by a `table` end-tag makes the validator fail
when tbody is required, whatever came before. -/
theorem validateLoop_table_no_tbody_fails (opts : ValidatorOptions)
    (hreq : opts.requireTableTbody = true) :
    ∀ (pre : List Tok) (attrs : List (String × String)) (mid post : List Tok)
      (e : Option String) (d : Int) (f : Bool),
      (∀ t ∈ mid, MidTok t) →
      validateLoop opts
        (pre ++ Tok.startEl "table" attrs :: (mid ++ Tok.endEl "table" :: post))
        e d f ≠ Except.ok () := by
  intro pre
  induction pre with
  | nil =>
    intro attrs mid post e d f hmid
    rw [List.nil_append, validateLoop]
    split
    · simp
    · split
      · simp
      · split
        · exact validateLoop_mid_fails opts hreq mid hmid post e (d + 1)
        next hn => exact absurd rfl hn
  | cons t rest ih =>
    intro attrs mid post e d f hmid
    rw [List.cons_append]
    match t with
    | Tok.startEl n a =>
      rw [validateLoop]
      split
      · simp
      · split
        · simp
        · split
          · exact ih attrs mid post e (d + 1) false hmid
          · split
            · exact ih attrs mid post e d true hmid
            · split
              · simp
              · exact ih attrs mid post e d f hmid
    | Tok.endEl n =>
      rw [validateLoop]
      split
      · split
        · simp
        · exact ih attrs mid post e (d - 1) f hmid
      · exact ih attrs mid post e d f hmid
    | Tok.charData s =>
      rw [validateLoop]
      exact ih attrs mid post e d f hmid

/-- Claim C4, amended: the validator keeps one shared tbody flag,
cleared at every `table` start-tag and set by a `tbody` start-tag
inside a table.  Whenever the token stream contains a `table` start-tag
followed by a `table` end-tag with no table or tbody boundary in
between — which covers every sibling (non-nested) table lacking a
tbody — validation with `requireTableTbody` cannot succeed.  (The
per-open-table bookkeeping the claim describes does not exist: an
outer table closing after a nested table's tbody is accepted, as the
counterexample shows.) -/
theorem tbody_flag_amended (s : String) (opts : ValidatorOptions)
    (hreq : opts.requireTableTbody = true)
    (pre mid post : List Tok) (attrs : List (String × String))
    (hdec : (xmlTokens s).1 =
      pre ++ Tok.startEl "table" attrs :: (mid ++ Tok.endEl "table" :: post))
    (hmid : ∀ t ∈ mid, MidTok t) :
    ValidateWithOptions s opts ≠ Except.ok () := by
  by_cases hs : s = ""
  · exfalso
    subst hs
    have hmem : Tok.startEl "table" attrs ∈ (xmlTokens "").1 := by
      rw [hdec]; simp
    rw [show (xmlTokens "").1 =
      [Tok.startEl "root" [("ac", "http://atlassian.com/confluence"),
        ("ri", "http://atlassian.com/confluence")], Tok.endEl "root"] from rfl] at hmem
    simp at hmem
  · rw [ValidateWithOptions, if_neg hs]
    show validateLoop opts (xmlTokens s).1 (xmlTokens s).2 0 false ≠ Except.ok ()
    rw [hdec]
    exact validateLoop_table_no_tbody_fails opts hreq pre attrs mid post
      (xmlTokens s).2 0 false hmid

/-- Witness for the amended C4: the bare table `<table></table>`
(no tbody anywhere) is rejected under the default options. -/
theorem tbody_flag_amended_witness :
    Validate "<table></table>" ≠ Except.ok () := by
  have h := tbody_flag_amended "<table></table>" DefaultValidatorOptions rfl
    [Tok.startEl "root" [("ac", "http://atlassian.com/confluence"),
      ("ri", "http://atlassian.com/confluence")]]
    [] [Tok.endEl "root"] []
    (by rfl) (by intro t ht; simp at ht)
  exact h

/-! ## Claim C10: rows outside tables -/

/-- Two validation errors with different messages are different. -/
theorem valErrNe (m1 t1 m2 t2 : String) (hm : m1 ≠ m2) :
    (Except.error ⟨m1, t1⟩ : Except ValidationError Unit) ≠ Except.error ⟨m2, t2⟩ := by
  intro h
  injection h with h2
  exact hm (congrArg ValidationError.message h2)

/-- A token that opens or closes a `table` element. -/
def isTableBoundary (t : Tok) : Bool :=
  match t with
  | Tok.startEl n _ => n == "table"
  | Tok.endEl n => n == "table"
  | Tok.charData _ => false

/-- Without table boundary tokens the depth stays non-positive and the
two tbody rules never fire: the validator cannot return either tbody
error. -/
theorem validateLoop_no_table_no_tbody_error (opts : ValidatorOptions) :
    ∀ (ts : List Tok) (e : Option String) (d : Int) (f : Bool),
      d ≤ 0 →
      (∀ t ∈ ts, isTableBoundary t = false) →
      validateLoop opts ts e d f ≠ Except.error ⟨"<tr> must be inside <tbody>", "tr"⟩ ∧
      validateLoop opts ts e d f ≠ Except.error ⟨"<table> must contain <tbody>", "table"⟩ := by
  intro ts
  induction ts with
  | nil =>
    intro e d f _ _
    match e with
    | none => rw [validateLoop]; exact ⟨by simp, by simp⟩
    | some m =>
      rw [validateLoop]
      exact ⟨valErrNe _ _ _ _ (invalidXML_ne_of_head m _ (by decide)),
        valErrNe _ _ _ _ (invalidXML_ne_of_head m _ (by decide))⟩
  | cons t rest ih =>
    intro e d f hd hts
    have hhd := hts t (by simp)
    have htl : ∀ u ∈ rest, isTableBoundary u = false :=
      fun u hu => hts u (by simp [hu])
    match t with
    | Tok.startEl n a =>
      rw [validateLoop]
      split
      · exact ⟨valErrNe _ _ _ _ (by decide), valErrNe _ _ _ _ (by decide)⟩
      · split
        · exact ⟨valErrNe _ _ _ _ (by decide), valErrNe _ _ _ _ (by decide)⟩
        · split
          next hn => simp [isTableBoundary, hn] at hhd
          · split
            · exact ih e d true hd htl
            · split
              next hn => exact absurd hn.2.1 (not_lt.mpr hd)
              · exact ih e d f hd htl
    | Tok.endEl n =>
      rw [validateLoop]
      split
      next hn => simp [isTableBoundary, hn] at hhd
      · exact ih e d f hd htl
    | Tok.charData s =>
      rw [validateLoop]
      exact ih e d f hd htl

/-- Claim C10: a `tr` outside any open table is never rejected by the
tbody rules — both apply only at positive table depth — and the
spec's stray-row example passes under the default options (with
`requireTableTbody = true`). -/
theorem tr_outside_table_accepted (s : String) (opts : ValidatorOptions)
    (hts : ∀ t ∈ (xmlTokens s).1, isTableBoundary t = false) :
    (ValidateWithOptions s opts ≠
        Except.error ⟨"<tr> must be inside <tbody>", "tr"⟩ ∧
      ValidateWithOptions s opts ≠
        Except.error ⟨"<table> must contain <tbody>", "table"⟩) ∧
    Validate "<tr><td>x</td></tr>" = Except.ok () := by
  refine ⟨?_, rfl⟩
  by_cases hs : s = ""
  · rw [ValidateWithOptions, if_pos hs]
    exact ⟨by simp, by simp⟩
  · rw [ValidateWithOptions, if_neg hs]
    exact validateLoop_no_table_no_tbody_error opts (xmlTokens s).1
      (xmlTokens s).2 0 false (by omega) hts

/-- Witness for C10 at the spec's stray-row example. -/
theorem tr_outside_table_accepted_witness :
    (Validate "<tr><td>x</td></tr>" ≠
        Except.error ⟨"<tr> must be inside <tbody>", "tr"⟩ ∧
      Validate "<tr><td>x</td></tr>" ≠
        Except.error ⟨"<table> must contain <tbody>", "table"⟩) ∧
    Validate "<tr><td>x</td></tr>" = Except.ok () :=
  tr_outside_table_accepted "<tr><td>x</td></tr>" DefaultValidatorOptions
    (by decide)

/-! ## Tokenizing rendered output

The lemmas below run the tokenizer state machine over the exact strings
the renderer produces, one fragment at a time.  `tokSteps` distributes
over list append, literal markup fragments evaluate definitionally, and
escaped text runs are handled by induction on the unescaped text. -/

/-- Unfolding: one tokenizer step off the front. -/
theorem tokSteps_cons (c : Char) (l : List Char) (st : TkSt) :
    tokSteps (c :: l) st = tokSteps l (tokStep st c) := rfl

/-- The tokenizer fold distributes over append. -/
theorem tokSteps_append (a b : List Char) (st : TkSt) :
    tokSteps (a ++ b) st = tokSteps b (tokSteps a st) :=
  List.foldl_append ..

/-- The tokenizer fold on no input is the identity. -/
theorem tokSteps_nil (st : TkSt) : tokSteps [] st = st := rfl

/-- Carriage-return normalisation of a cons whose head is not CR. -/
theorem crNormChars_cons (c : Char) (l : List Char) (hc : c ≠ '\r') :
    crNormChars (c :: l) = c :: crNormChars l :=
  crNormChars.eq_4 c l (fun _ h _ => hc h) hc

/-- Carriage-return normalisation of a CR not followed by a newline. -/
theorem crNormChars_cr (l : List Char) (hl : l.head? ≠ some '\n') :
    crNormChars ('\r' :: l) = '\n' :: crNormChars l :=
  crNormChars.eq_3 l (fun r1 h => hl (by rw [h]; rfl))

/-- Normalisation never creates or removes characters other than
collapsing a CRLF pair, so only the empty text normalises to empty. -/
theorem crNormChars_eq_nil_iff (l : List Char) : crNormChars l = [] ↔ l = [] := by
  cases l with
  | nil => exact ⟨fun _ => rfl, fun _ => rfl⟩
  | cons c ls =>
    constructor
    · intro h
      exfalso
      by_cases hc : c = '\r'
      · subst hc
        cases ls with
        | nil =>
          rw [show crNormChars ['\r'] = ['\n'] from rfl] at h
          simp at h
        | cons d ls2 =>
          by_cases hd : d = '\n'
          · subst hd
            rw [crNormChars.eq_2] at h
            simp at h
          · rw [crNormChars_cr (d :: ls2) (by simpa using hd)] at h
            simp at h
      · rw [crNormChars_cons c ls hc] at h
        simp at h
    · intro h
      simp at h

/-- Text already free of CR is untouched by normalisation. -/
theorem crNormChars_of_noCR (l : List Char) (h : '\r' ∉ l) :
    crNormChars l = l := by
  induction l with
  | nil => rfl
  | cons c ls ih =>
    have hc : c ≠ '\r' := fun hc => h (by rw [hc]; simp)
    rw [crNormChars_cons c ls hc, ih (fun hm => h (by simp [hm]))]

/-- The text-mode family: plain text together with the one- and
two-bracket lookahead states of the decoder's unescaped-`]]>` check. -/
def textish (m : TkMode) (acc : List Char) : Prop :=
  m = TkMode.text acc ∨ m = TkMode.textRB acc ∨ m = TkMode.textRBRB acc

/-- Escaped ampersand chunk in text mode (the entity reference resets
the bracket lookahead, as in the decoder). -/
theorem chunkAmp (m : TkMode) (acc : List Char) (stk : List String) (out : List Tok)
    (hm : textish m acc) :
    tokSteps "&amp;".data ⟨m, stk, out, none⟩ =
      ⟨TkMode.text (acc ++ ['&']), stk, out, none⟩ := by
  rcases hm with rfl | rfl | rfl <;> rfl

/-- Escaped apostrophe chunk in text mode. -/
theorem chunkApos (m : TkMode) (acc : List Char) (stk : List String) (out : List Tok)
    (hm : textish m acc) :
    tokSteps "&#39;".data ⟨m, stk, out, none⟩ =
      ⟨TkMode.text (acc ++ ['\'']), stk, out, none⟩ := by
  rcases hm with rfl | rfl | rfl <;> rfl

/-- Escaped less-than chunk in text mode. -/
theorem chunkLt (m : TkMode) (acc : List Char) (stk : List String) (out : List Tok)
    (hm : textish m acc) :
    tokSteps "&lt;".data ⟨m, stk, out, none⟩ =
      ⟨TkMode.text (acc ++ ['<']), stk, out, none⟩ := by
  rcases hm with rfl | rfl | rfl <;> rfl

/-- Escaped greater-than chunk in text mode: the decoded `>` does not
trigger the unescaped-`]]>` check even right after brackets, because
the decoder resets its byte pair at every entity reference. -/
theorem chunkGt (m : TkMode) (acc : List Char) (stk : List String) (out : List Tok)
    (hm : textish m acc) :
    tokSteps "&gt;".data ⟨m, stk, out, none⟩ =
      ⟨TkMode.text (acc ++ ['>']), stk, out, none⟩ := by
  rcases hm with rfl | rfl | rfl <;> rfl

/-- Escaped quote chunk in text mode. -/
theorem chunkQuot (m : TkMode) (acc : List Char) (stk : List String) (out : List Tok)
    (hm : textish m acc) :
    tokSteps "&#34;".data ⟨m, stk, out, none⟩ =
      ⟨TkMode.text (acc ++ ['"']), stk, out, none⟩ := by
  rcases hm with rfl | rfl | rfl <;> rfl

/-- A `<` flushes pending text and opens a tag from any text-mode
state. -/
theorem chunkTagOpen (m : TkMode) (acc : List Char) (stk : List String)
    (out : List Tok) (hm : textish m acc) :
    tokStep ⟨m, stk, out, none⟩ '<' =
      ⟨TkMode.tagOpen, stk, flushText acc out, none⟩ := by
  rcases hm with rfl | rfl | rfl <;> rfl

/-- A carriage return moves to the CR state (resetting the bracket
lookahead) from any text-mode state. -/
theorem chunkCR (m : TkMode) (acc : List Char) (stk : List String) (out : List Tok)
    (hm : textish m acc) :
    tokStep ⟨m, stk, out, none⟩ '\r' =
      ⟨TkMode.textCR acc, stk, out, none⟩ := by
  rcases hm with rfl | rfl | rfl <;> rfl

/-- A literal `]` accumulates and advances the bracket lookahead. -/
theorem chunkRB (m : TkMode) (acc : List Char) (stk : List String) (out : List Tok)
    (hm : textish m acc) :
    ∃ m2, tokStep ⟨m, stk, out, none⟩ ']' = ⟨m2, stk, out, none⟩ ∧
      textish m2 (acc ++ [']']) := by
  rcases hm with rfl | rfl | rfl
  · exact ⟨TkMode.textRB (acc ++ [']']), rfl, Or.inr (Or.inl rfl)⟩
  · exact ⟨TkMode.textRBRB (acc ++ [']']), rfl, Or.inr (Or.inr rfl)⟩
  · exact ⟨TkMode.textRBRB (acc ++ [']']), rfl, Or.inr (Or.inr rfl)⟩

/-- A plain character (not markup-significant, not a bracket, not a
greater-than) accumulates and returns to plain text mode. -/
theorem chunkPlain (c : Char) (m : TkMode) (acc : List Char) (stk : List String)
    (out : List Tok) (hm : textish m acc)
    (h1 : c ≠ '<') (h2 : c ≠ '&') (h3 : c ≠ '\r') (h4 : c ≠ ']') (h5 : c ≠ '>') :
    tokStep ⟨m, stk, out, none⟩ c =
      ⟨TkMode.text (acc ++ [c]), stk, out, none⟩ := by
  rcases hm with rfl | rfl | rfl <;> simp [tokStep, stepText, h1, h2, h3, h4, h5]

/-- After a CR, any character other than a newline is handled exactly
as in text mode with the newline already appended. -/
theorem stepTextCR (c : Char) (stk : List String) (out : List Tok) (acc : List Char)
    (hc : c ≠ '\n') :
    tokStep ⟨TkMode.textCR acc, stk, out, none⟩ c =
      tokStep ⟨TkMode.text (acc ++ ['\n']), stk, out, none⟩ c := by
  simp [tokStep, hc]

/-- Every escaped chunk is non-empty, and its first character is the
character itself or an ampersand — never a newline when the character
is not one. -/
theorem escapeChar_head (c : Char) (hc : c ≠ '\n') :
    ∃ h hs, escapeChar c = h :: hs ∧ h ≠ '\n' := by
  by_cases h1 : c = '&'
  · exact ⟨'&', _, by rw [h1]; rfl, by decide⟩
  · by_cases h2 : c = '\''
    · exact ⟨'&', _, by rw [h2]; rfl, by decide⟩
    · by_cases h3 : c = '<'
      · exact ⟨'&', _, by rw [h3]; rfl, by decide⟩
      · by_cases h4 : c = '>'
        · exact ⟨'&', _, by rw [h4]; rfl, by decide⟩
        · by_cases h5 : c = '"'
          · exact ⟨'&', _, by rw [h5]; rfl, by decide⟩
          · exact ⟨c, [], by simp [escapeChar, h1, h2, h3, h4, h5], hc⟩

/-- Escaped ampersand chunk in attribute-value mode. -/
theorem chunkAmpA (nm : List Char) (attrs : List (String × String)) (k v : List Char)
    (stk : List String) (out : List Tok) :
    tokSteps "&amp;".data ⟨TkMode.attrVal nm attrs k '"' v, stk, out, none⟩ =
      ⟨TkMode.attrVal nm attrs k '"' (v ++ ['&']), stk, out, none⟩ := rfl

/-- Escaped apostrophe chunk in attribute-value mode. -/
theorem chunkAposA (nm : List Char) (attrs : List (String × String)) (k v : List Char)
    (stk : List String) (out : List Tok) :
    tokSteps "&#39;".data ⟨TkMode.attrVal nm attrs k '"' v, stk, out, none⟩ =
      ⟨TkMode.attrVal nm attrs k '"' (v ++ ['\'']), stk, out, none⟩ := rfl

/-- Escaped less-than chunk in attribute-value mode. -/
theorem chunkLtA (nm : List Char) (attrs : List (String × String)) (k v : List Char)
    (stk : List String) (out : List Tok) :
    tokSteps "&lt;".data ⟨TkMode.attrVal nm attrs k '"' v, stk, out, none⟩ =
      ⟨TkMode.attrVal nm attrs k '"' (v ++ ['<']), stk, out, none⟩ := rfl

/-- Escaped greater-than chunk in attribute-value mode. -/
theorem chunkGtA (nm : List Char) (attrs : List (String × String)) (k v : List Char)
    (stk : List String) (out : List Tok) :
    tokSteps "&gt;".data ⟨TkMode.attrVal nm attrs k '"' v, stk, out, none⟩ =
      ⟨TkMode.attrVal nm attrs k '"' (v ++ ['>']), stk, out, none⟩ := rfl

/-- Escaped quote chunk in attribute-value mode (the decoded quote does
not close the attribute). -/
theorem chunkQuotA (nm : List Char) (attrs : List (String × String)) (k v : List Char)
    (stk : List String) (out : List Tok) :
    tokSteps "&#34;".data ⟨TkMode.attrVal nm attrs k '"' v, stk, out, none⟩ =
      ⟨TkMode.attrVal nm attrs k '"' (v ++ ['"']), stk, out, none⟩ := rfl

/-- A plain character accumulates in attribute-value mode. -/
theorem chunkPlainA (c : Char) (nm : List Char) (attrs : List (String × String))
    (k v : List Char) (stk : List String) (out : List Tok)
    (h1 : c ≠ '"') (h2 : c ≠ '&') (h3 : c ≠ '\r') :
    tokStep ⟨TkMode.attrVal nm attrs k '"' v, stk, out, none⟩ c =
      ⟨TkMode.attrVal nm attrs k '"' (v ++ [c]), stk, out, none⟩ := by
  simp [tokStep, stepAttrVal, h1, h2, h3]

/-- After a CR in an attribute value, any character other than a
newline is handled as in value mode with the newline appended. -/
theorem stepAttrValCR (c : Char) (nm : List Char) (attrs : List (String × String))
    (k v : List Char) (stk : List String) (out : List Tok) (hc : c ≠ '\n') :
    tokStep ⟨TkMode.attrValCR nm attrs k '"' v, stk, out, none⟩ c =
      tokStep ⟨TkMode.attrVal nm attrs k '"' (v ++ ['\n']), stk, out, none⟩ c := by
  simp [tokStep, hc]

/-- Running the tokenizer over the escaped form of `t` inside a quoted
attribute value up to the closing quote: the decoded, CR-normalised
value is recorded with the attribute's local name. -/
theorem tokSteps_escAttr (t : List Char) :
    ∀ (stk : List String) (out : List Tok) (nm : List Char)
      (attrs : List (String × String)) (k v rest : List Char),
      tokSteps (escapeChars t ++ '"' :: rest)
          ⟨TkMode.attrVal nm attrs k '"' v, stk, out, none⟩ =
        tokSteps rest
          ⟨TkMode.attrsGap nm
            (attrs ++ [(localName ⟨k⟩, (⟨v ++ crNormChars t⟩ : String))]),
            stk, out, none⟩ := by
  induction t using crNormChars.induct with
  | case1 =>
    intro stk out nm attrs k v rest
    rw [show escapeChars ([] : List Char) = [] from rfl, List.nil_append, tokSteps_cons]
    rw [show tokStep ⟨TkMode.attrVal nm attrs k '"' v, stk, out, none⟩ '"' =
      ⟨TkMode.attrsGap nm (attrs ++ [(localName ⟨k⟩, (⟨v⟩ : String))]), stk, out, none⟩
      from rfl]
    rw [show crNormChars [] = [] from rfl]
    simp
  | case2 t' ih =>
    intro stk out nm attrs k v rest
    rw [show escapeChars ('\r' :: '\n' :: t') = '\r' :: '\n' :: escapeChars t' from rfl]
    rw [List.cons_append, List.cons_append, tokSteps_cons, tokSteps_cons]
    rw [show tokStep ⟨TkMode.attrVal nm attrs k '"' v, stk, out, none⟩ '\r' =
      ⟨TkMode.attrValCR nm attrs k '"' v, stk, out, none⟩ from rfl]
    rw [show tokStep ⟨TkMode.attrValCR nm attrs k '"' v, stk, out, none⟩ '\n' =
      ⟨TkMode.attrVal nm attrs k '"' (v ++ ['\n']), stk, out, none⟩ from rfl]
    rw [ih stk out nm attrs k (v ++ ['\n']) rest]
    rw [show crNormChars ('\r' :: '\n' :: t') = '\n' :: crNormChars t' from rfl]
    simp
  | case3 t' hne ih =>
    intro stk out nm attrs k v rest
    rw [show escapeChars ('\r' :: t') = '\r' :: escapeChars t' from rfl]
    rw [List.cons_append, tokSteps_cons]
    rw [show tokStep ⟨TkMode.attrVal nm attrs k '"' v, stk, out, none⟩ '\r' =
      ⟨TkMode.attrValCR nm attrs k '"' v, stk, out, none⟩ from rfl]
    have hnorm : crNormChars ('\r' :: t') = '\n' :: crNormChars t' := by
      apply crNormChars_cr
      intro hh
      cases t' with
      | nil => simp at hh
      | cons d ls =>
        simp at hh
        exact hne ls (by rw [hh])
    match t' with
    | [] =>
      rw [show escapeChars ([] : List Char) = [] from rfl, List.nil_append, tokSteps_cons]
      rw [stepAttrValCR '"' nm attrs k v stk out (by decide)]
      rw [show tokStep ⟨TkMode.attrVal nm attrs k '"' (v ++ ['\n']), stk, out, none⟩ '"' =
        ⟨TkMode.attrsGap nm (attrs ++ [(localName ⟨k⟩, (⟨v ++ ['\n']⟩ : String))]),
          stk, out, none⟩ from rfl]
      rw [hnorm]
      rfl
    | c :: t'' =>
      have hcn : c ≠ '\n' := fun h => hne t'' (by rw [h])
      obtain ⟨h, hs, hE, hhn⟩ := escapeChar_head c hcn
      rw [show escapeChars (c :: t'') = escapeChar c ++ escapeChars t'' from rfl, hE]
      rw [List.cons_append, List.cons_append, tokSteps_cons,
        stepAttrValCR h nm attrs k v stk out hhn]
      rw [← tokSteps_cons, ← List.cons_append, ← List.cons_append, ← hE]
      rw [show escapeChar c ++ escapeChars t'' = escapeChars (c :: t'') from rfl]
      rw [ih stk out nm attrs k (v ++ ['\n']) rest, hnorm]
      simp
  | case4 c t' hpat hc ih =>
    intro stk out nm attrs k v rest
    have hcr : c ≠ '\r' := fun h => hc h
    rw [show escapeChars (c :: t') = escapeChar c ++ escapeChars t' from rfl]
    rw [List.append_assoc, tokSteps_append]
    rw [crNormChars_cons c t' hcr]
    by_cases h1 : c = '&'
    · subst h1
      rw [show escapeChar '&' = "&amp;".data from rfl, chunkAmpA, ih]
      simp
    · by_cases h2 : c = '\''
      · subst h2
        rw [show escapeChar '\'' = "&#39;".data from rfl, chunkAposA, ih]
        simp
      · by_cases h3 : c = '<'
        · subst h3
          rw [show escapeChar '<' = "&lt;".data from rfl, chunkLtA, ih]
          simp
        · by_cases h4 : c = '>'
          · subst h4
            rw [show escapeChar '>' = "&gt;".data from rfl, chunkGtA, ih]
            simp
          · by_cases h5 : c = '"'
            · subst h5
              rw [show escapeChar '"' = "&#34;".data from rfl, chunkQuotA, ih]
              simp
            · rw [show escapeChar c = [c] from by
                simp [escapeChar, h1, h2, h3, h4, h5]]
              rw [show tokSteps [c] ⟨TkMode.attrVal nm attrs k '"' v, stk, out, none⟩ =
                tokStep ⟨TkMode.attrVal nm attrs k '"' v, stk, out, none⟩ c from rfl]
              rw [chunkPlainA c nm attrs k v stk out h5 h1 hcr, ih]
              simp

/-- A plain character accumulates in CDATA mode. -/
theorem chunkPlainCD (c : Char) (stk : List String) (out : List Tok) (acc : List Char)
    (h1 : c ≠ ']') (h2 : c ≠ '\r') :
    tokStep ⟨TkMode.cdata acc, stk, out, none⟩ c =
      ⟨TkMode.cdata (acc ++ [c]), stk, out, none⟩ := by
  simp [tokStep, stepCData, h1, h2]

/-- The CDATA terminator is not an infix of the tail when it is not an
infix of the whole. -/
theorem noInfix_peel (p l : List Char) (c : Char) (h : ¬ (p <:+: (c :: l))) :
    ¬ (p <:+: l) :=
  fun hi => h (List.infix_cons hi)

/-- Running the tokenizer over CR-free CDATA content (not containing
the close sequence) up to and including the close sequence: the content
is emitted as one character-data token, bracket runs included.  The
three conjuncts track the decoder's one- and two-bracket lookahead
states. -/
theorem tokSteps_cdataRun (n : Nat) :
    ∀ (code : List Char), code.length ≤ n → '\r' ∉ code →
      ∀ (stk : List String) (out : List Tok) (acc rest : List Char),
        ((¬ ([']', ']', '>'] <:+: code)) →
          tokSteps (code ++ ']' :: ']' :: '>' :: rest)
              ⟨TkMode.cdata acc, stk, out, none⟩ =
            tokSteps rest
              ⟨TkMode.text [], stk, Tok.charData ⟨acc ++ code⟩ :: out, none⟩) ∧
        ((¬ ([']', ']', '>'] <:+: (']' :: code))) →
          tokSteps (code ++ ']' :: ']' :: '>' :: rest)
              ⟨TkMode.cdataRB acc, stk, out, none⟩ =
            tokSteps rest
              ⟨TkMode.text [], stk, Tok.charData ⟨acc ++ ']' :: code⟩ :: out, none⟩) ∧
        ((¬ ([']', ']', '>'] <:+: (']' :: ']' :: code))) →
          tokSteps (code ++ ']' :: ']' :: '>' :: rest)
              ⟨TkMode.cdataRBRB acc, stk, out, none⟩ =
            tokSteps rest
              ⟨TkMode.text [], stk, Tok.charData ⟨acc ++ ']' :: ']' :: code⟩ :: out, none⟩) := by
  induction n with
  | zero =>
    intro code hlen _ stk out acc rest
    have hnil : code = [] := List.eq_nil_of_length_eq_zero (Nat.le_zero.mp hlen)
    subst hnil
    refine ⟨fun _ => ?_, fun _ => ?_, fun _ => ?_⟩
    · rw [List.nil_append]
      rw [show tokSteps (']' :: ']' :: '>' :: rest) ⟨TkMode.cdata acc, stk, out, none⟩ =
        tokSteps rest ⟨TkMode.text [], stk, Tok.charData ⟨acc⟩ :: out, none⟩ from rfl]
      simp
    · rw [List.nil_append]
      rw [show tokSteps (']' :: ']' :: '>' :: rest) ⟨TkMode.cdataRB acc, stk, out, none⟩ =
        tokSteps rest ⟨TkMode.text [], stk, Tok.charData ⟨acc ++ [']']⟩ :: out, none⟩
        from rfl]
    · rw [List.nil_append]
      rw [show tokSteps (']' :: ']' :: '>' :: rest) ⟨TkMode.cdataRBRB acc, stk, out, none⟩ =
        tokSteps rest
          ⟨TkMode.text [], stk, Tok.charData ⟨(acc ++ [']']) ++ [']']⟩ :: out, none⟩
        from rfl]
      simp
  | succ n ihn =>
    intro code hlen hcr stk out acc rest
    match code with
    | [] =>
      exact ihn [] (by simp) (by simp) stk out acc rest
    | c :: c' =>
      have hlen' : c'.length ≤ n := by simpa using hlen
      have hcr' : '\r' ∉ c' := fun h => hcr (by simp [h])
      have hccr : c ≠ '\r' := fun h => hcr (by simp [h])
      refine ⟨fun hni => ?_, fun hni => ?_, fun hni => ?_⟩
      · by_cases hb : c = ']'
        · subst hb
          rw [List.cons_append, tokSteps_cons]
          rw [show tokStep ⟨TkMode.cdata acc, stk, out, none⟩ ']' =
            ⟨TkMode.cdataRB acc, stk, out, none⟩ from rfl]
          exact (ihn c' hlen' hcr' stk out acc rest).2.1 hni
        · rw [List.cons_append, tokSteps_cons, chunkPlainCD c stk out acc hb hccr]
          rw [(ihn c' hlen' hcr' stk out (acc ++ [c]) rest).1 (noInfix_peel _ _ _ hni)]
          simp
      · by_cases hb : c = ']'
        · subst hb
          rw [List.cons_append, tokSteps_cons]
          rw [show tokStep ⟨TkMode.cdataRB acc, stk, out, none⟩ ']' =
            ⟨TkMode.cdataRBRB acc, stk, out, none⟩ from rfl]
          exact (ihn c' hlen' hcr' stk out acc rest).2.2 hni
        · rw [List.cons_append, tokSteps_cons]
          rw [show tokStep ⟨TkMode.cdataRB acc, stk, out, none⟩ c =
            stepCData stk out (acc ++ [']']) c from by simp [tokStep, hb]]
          rw [show stepCData stk out (acc ++ [']']) c =
            ⟨TkMode.cdata ((acc ++ [']']) ++ [c]), stk, out, none⟩ from by
            simp [stepCData, hb, hccr]]
          rw [(ihn c' hlen' hcr' stk out ((acc ++ [']']) ++ [c]) rest).1
            (noInfix_peel _ _ _ (noInfix_peel _ _ _ hni))]
          simp
      · by_cases hb : c = ']'
        · subst hb
          rw [List.cons_append, tokSteps_cons]
          rw [show tokStep ⟨TkMode.cdataRBRB acc, stk, out, none⟩ ']' =
            ⟨TkMode.cdataRBRB (acc ++ [']']), stk, out, none⟩ from rfl]
          have hni' : ¬ ([']', ']', '>'] <:+: (']' :: ']' :: c')) :=
            noInfix_peel _ _ _ hni
          rw [(ihn c' hlen' hcr' stk out (acc ++ [']']) rest).2.2 hni']
          simp
        · by_cases hg : c = '>'
          · exfalso
            subst hg
            exact hni ⟨[], c', rfl⟩
          · rw [List.cons_append, tokSteps_cons]
            rw [show tokStep ⟨TkMode.cdataRBRB acc, stk, out, none⟩ c =
              stepCData stk out (acc ++ [']', ']']) c from by simp [tokStep, hg, hb]]
            rw [show stepCData stk out (acc ++ [']', ']']) c =
              ⟨TkMode.cdata ((acc ++ [']', ']']) ++ [c]), stk, out, none⟩ from by
              simp [stepCData, hb, hccr]]
            rw [(ihn c' hlen' hcr' stk out ((acc ++ [']', ']']) ++ [c]) rest).1
              (noInfix_peel _ _ _ (noInfix_peel _ _ _ (noInfix_peel _ _ _ hni)))]
            simp

/-- Running the tokenizer over the escaped form of `t` followed by the
opening `<` of the next tag: the decoded, CR-normalised text
accumulates and is flushed at the markup boundary. -/
theorem tokSteps_escText (t : List Char) :
    ∀ (m : TkMode) (acc : List Char), textish m acc →
      ∀ (stk : List String) (out : List Tok) (rest : List Char),
      tokSteps (escapeChars t ++ '<' :: rest) ⟨m, stk, out, none⟩ =
        tokSteps rest ⟨TkMode.tagOpen, stk, flushText (acc ++ crNormChars t) out, none⟩ := by
  induction t using crNormChars.induct with
  | case1 =>
    intro m acc hm stk out rest
    rw [show escapeChars ([] : List Char) = [] from rfl, List.nil_append, tokSteps_cons]
    rw [chunkTagOpen m acc stk out hm]
    rw [show crNormChars [] = [] from rfl]
    simp
  | case2 t' ih =>
    intro m acc hm stk out rest
    rw [show escapeChars ('\r' :: '\n' :: t') = '\r' :: '\n' :: escapeChars t' from rfl]
    rw [List.cons_append, List.cons_append, tokSteps_cons, tokSteps_cons]
    rw [chunkCR m acc stk out hm]
    rw [show tokStep ⟨TkMode.textCR acc, stk, out, none⟩ '\n' =
      ⟨TkMode.text (acc ++ ['\n']), stk, out, none⟩ from rfl]
    rw [ih (TkMode.text (acc ++ ['\n'])) (acc ++ ['\n']) (Or.inl rfl) stk out rest]
    rw [show crNormChars ('\r' :: '\n' :: t') = '\n' :: crNormChars t' from rfl]
    simp
  | case3 t' hne ih =>
    intro m acc hm stk out rest
    rw [show escapeChars ('\r' :: t') = '\r' :: escapeChars t' from rfl]
    rw [List.cons_append, tokSteps_cons]
    rw [chunkCR m acc stk out hm]
    have hnorm : crNormChars ('\r' :: t') = '\n' :: crNormChars t' := by
      apply crNormChars_cr
      intro hh
      cases t' with
      | nil => simp at hh
      | cons d ls =>
        simp at hh
        exact hne ls (by rw [hh])
    match t' with
    | [] =>
      rw [show escapeChars ([] : List Char) = [] from rfl, List.nil_append, tokSteps_cons]
      rw [stepTextCR '<' stk out acc (by decide)]
      rw [show tokStep ⟨TkMode.text (acc ++ ['\n']), stk, out, none⟩ '<' =
        ⟨TkMode.tagOpen, stk, flushText (acc ++ ['\n']) out, none⟩ from rfl]
      rw [hnorm]
      rfl
    | c :: t'' =>
      have hcn : c ≠ '\n' := fun h => hne t'' (by rw [h])
      obtain ⟨h, hs, hE, hhn⟩ := escapeChar_head c hcn
      rw [show escapeChars (c :: t'') = escapeChar c ++ escapeChars t'' from rfl, hE]
      rw [List.cons_append, List.cons_append, tokSteps_cons, stepTextCR h stk out acc hhn]
      rw [← tokSteps_cons, ← List.cons_append, ← List.cons_append, ← hE]
      rw [show escapeChar c ++ escapeChars t'' = escapeChars (c :: t'') from rfl]
      rw [ih (TkMode.text (acc ++ ['\n'])) (acc ++ ['\n']) (Or.inl rfl) stk out rest,
        hnorm]
      simp
  | case4 c t' hpat hc ih =>
    intro m acc hm stk out rest
    have hcr : c ≠ '\r' := fun h => hc h
    rw [show escapeChars (c :: t') = escapeChar c ++ escapeChars t' from rfl]
    rw [List.append_assoc, tokSteps_append]
    rw [crNormChars_cons c t' hcr]
    by_cases h1 : c = '&'
    · subst h1
      rw [show escapeChar '&' = "&amp;".data from rfl, chunkAmp m acc stk out hm,
        ih (TkMode.text (acc ++ ['&'])) (acc ++ ['&']) (Or.inl rfl) stk out rest]
      simp
    · by_cases h2 : c = '\''
      · subst h2
        rw [show escapeChar '\'' = "&#39;".data from rfl, chunkApos m acc stk out hm,
          ih (TkMode.text (acc ++ ['\''])) (acc ++ ['\'']) (Or.inl rfl) stk out rest]
        simp
      · by_cases h3 : c = '<'
        · subst h3
          rw [show escapeChar '<' = "&lt;".data from rfl, chunkLt m acc stk out hm,
            ih (TkMode.text (acc ++ ['<'])) (acc ++ ['<']) (Or.inl rfl) stk out rest]
          simp
        · by_cases h4 : c = '>'
          · subst h4
            rw [show escapeChar '>' = "&gt;".data from rfl, chunkGt m acc stk out hm,
              ih (TkMode.text (acc ++ ['>'])) (acc ++ ['>']) (Or.inl rfl) stk out rest]
            simp
          · by_cases h5 : c = '"'
            · subst h5
              rw [show escapeChar '"' = "&#34;".data from rfl, chunkQuot m acc stk out hm,
                ih (TkMode.text (acc ++ ['"'])) (acc ++ ['"']) (Or.inl rfl) stk out rest]
              simp
            · by_cases h6 : c = ']'
              · subst h6
                rw [show escapeChar ']' = [']'] from rfl]
                obtain ⟨m2, hstep, hm2⟩ := chunkRB m acc stk out hm
                rw [show tokSteps [']'] ⟨m, stk, out, none⟩ =
                  tokStep ⟨m, stk, out, none⟩ ']' from rfl, hstep]
                rw [ih m2 (acc ++ [']']) hm2 stk out rest]
                simp
              · rw [show escapeChar c = [c] from by
                  simp [escapeChar, h1, h2, h3, h4, h5]]
                rw [show tokSteps [c] ⟨m, stk, out, none⟩ =
                  tokStep ⟨m, stk, out, none⟩ c from rfl]
                rw [chunkPlain c m acc stk out hm h3 h1 hcr h6 h4,
                  ih (TkMode.text (acc ++ [c])) (acc ++ [c]) (Or.inl rfl) stk out rest]
                simp

/-! ## Token streams of rendered blocks

`blockToks` is the token stream the tokenizer produces from a rendered
block (under the goodness side conditions below); the lemmas prove
exactly that. -/

/-- Tokens of an escaped text run (empty text produces no token). -/
def textToks (t : String) : List Tok :=
  if t = "" then [] else [Tok.charData (crNorm t)]

/-- Tokens of one rendered header cell. -/
def thToks (h : String) : List Tok :=
  Tok.startEl "th" [] :: textToks h ++ [Tok.endEl "th"]

/-- Tokens of one rendered macro parameter. -/
def paramToks (p : String × String) : List Tok :=
  Tok.startEl "parameter" [("name", crNorm p.1)] :: textToks p.2 ++
    [Tok.endEl "parameter"]

/-- Tokens of a rendered macro (body emitted verbatim; under the
plain-body side condition it is one text run). -/
def macroToks (m : Macro) : List Tok :=
  Tok.startEl "structured-macro" [("name", crNorm m.name)] ::
    (m.params.flatMap paramToks ++
      ((if m.body = "" then []
        else Tok.startEl "rich-text-body" [] :: Tok.charData (crNorm m.body) ::
          [Tok.endEl "rich-text-body"]) ++
        [Tok.endEl "structured-macro"]))

/-- Tokens of one rendered data cell. -/
def cellToks (c : Cell) : List Tok :=
  Tok.startEl "td" [] ::
    ((match c.mac with
      | some m => macroToks m
      | none => textToks c.text) ++ [Tok.endEl "td"])

/-- Tokens of one rendered data row. -/
def rowToks (r : Row) : List Tok :=
  Tok.startEl "tr" [] :: (r.cells.flatMap cellToks ++ [Tok.endEl "tr"])

/-- Tokens of a rendered list item. -/
def liToks (i : ListItem) : List Tok :=
  Tok.startEl "li" [] :: (textToks i.text ++ [Tok.endEl "li"])

/-- The `hN` tag name of a heading level. -/
def hTag (level : Int) : String := "h" ++ toString level

/-- Tokens of a rendered block. -/
def blockToks : Block → List Tok
  | Block.table headers rows =>
    Tok.startEl "table" [] :: Tok.startEl "tbody" [] ::
      ((if headers.isEmpty then []
        else Tok.startEl "tr" [] :: (headers.flatMap thToks ++ [Tok.endEl "tr"])) ++
        (rows.flatMap rowToks ++ [Tok.endEl "tbody", Tok.endEl "table"]))
  | Block.paragraph t => Tok.startEl "p" [] :: (textToks t ++ [Tok.endEl "p"])
  | Block.heading level t =>
    Tok.startEl (hTag level) [] :: (textToks t ++ [Tok.endEl (hTag level)])
  | Block.bulletList items =>
    Tok.startEl "ul" [] :: (items.flatMap liToks ++ [Tok.endEl "ul"])
  | Block.numberedList items =>
    Tok.startEl "ol" [] :: (items.flatMap liToks ++ [Tok.endEl "ol"])
  | Block.macroBlk m => macroToks m
  | Block.codeBlock language code =>
    Tok.startEl "structured-macro" [("name", "code")] ::
      ((if language = "" then []
        else Tok.startEl "parameter" [("name", "language")] ::
          (textToks language ++ [Tok.endEl "parameter"])) ++
        (Tok.startEl "plain-text-body" [] :: Tok.charData code ::
          [Tok.endEl "plain-text-body", Tok.endEl "structured-macro"]))
  | Block.horizontalRule => [Tok.startEl "hr" [], Tok.endEl "hr"]

/-- A macro body the tokenizer reads back as one text run: empty, or
free of markup-significant characters and of the sequence `]]>` (which
the decoder rejects as an unescaped CDATA terminator even in plain
character data). -/
def PlainBody (b : String) : Prop :=
  b ≠ "" → ('<' ∉ b.data ∧ '&' ∉ b.data ∧ '\r' ∉ b.data ∧
    ¬ ([']', ']', '>'] <:+: b.data))

/-- Side conditions for a macro to tokenize to `macroToks`. -/
def GoodMacro (m : Macro) : Prop := PlainBody m.body

/-- Side conditions for a cell. -/
def GoodCell (c : Cell) : Prop :=
  match c.mac with
  | some m => GoodMacro m
  | none => True

/-- Side conditions for a block to tokenize to `blockToks`: macro
bodies (anywhere) are plain, and code avoids the CDATA close sequence
and carriage returns. -/
def GoodBlock : Block → Prop
  | Block.table _ rows => ∀ r ∈ rows, ∀ c ∈ r.cells, GoodCell c
  | Block.macroBlk m => GoodMacro m
  | Block.codeBlock _ code =>
    ¬ ([']', ']', '>'] <:+: code.data) ∧ '\r' ∉ code.data
  | _ => True

/-! ### Literal markup fragments -/

/-- Opening a literal `p` tag. -/
theorem litP (stk : List String) (out : List Tok) :
    tokSteps "<p>".data ⟨TkMode.text [], stk, out, none⟩ =
      ⟨TkMode.text [], "p" :: stk, Tok.startEl "p" [] :: out, none⟩ := rfl

/-- Closing a literal `p` tag. -/
theorem litPc (stk : List String) (out : List Tok) :
    tokSteps "</p>".data ⟨TkMode.text [], "p" :: stk, out, none⟩ =
      ⟨TkMode.text [], stk, Tok.endEl "p" :: out, none⟩ := rfl

/-- A literal `<hr/>` element. -/
theorem litHr (stk : List String) (out : List Tok) :
    tokSteps "<hr/>".data ⟨TkMode.text [], stk, out, none⟩ =
      ⟨TkMode.text [], stk, Tok.endEl "hr" :: Tok.startEl "hr" [] :: out, none⟩ := rfl

/-- Opening literal `table` and `tbody` tags. -/
theorem litTableTbody (stk : List String) (out : List Tok) :
    tokSteps "<table><tbody>".data ⟨TkMode.text [], stk, out, none⟩ =
      ⟨TkMode.text [], "tbody" :: "table" :: stk,
        Tok.startEl "tbody" [] :: Tok.startEl "table" [] :: out, none⟩ := rfl

/-- Closing literal `tbody` and `table` tags. -/
theorem litTbodyTableC (stk : List String) (out : List Tok) :
    tokSteps "</tbody></table>".data
        ⟨TkMode.text [], "tbody" :: "table" :: stk, out, none⟩ =
      ⟨TkMode.text [], stk, Tok.endEl "table" :: Tok.endEl "tbody" :: out, none⟩ := rfl

/-- Opening a literal `tr` tag. -/
theorem litTr (stk : List String) (out : List Tok) :
    tokSteps "<tr>".data ⟨TkMode.text [], stk, out, none⟩ =
      ⟨TkMode.text [], "tr" :: stk, Tok.startEl "tr" [] :: out, none⟩ := rfl

/-- Closing a literal `tr` tag. -/
theorem litTrC (stk : List String) (out : List Tok) :
    tokSteps "</tr>".data ⟨TkMode.text [], "tr" :: stk, out, none⟩ =
      ⟨TkMode.text [], stk, Tok.endEl "tr" :: out, none⟩ := rfl

/-- Opening a literal `th` tag. -/
theorem litTh (stk : List String) (out : List Tok) :
    tokSteps "<th>".data ⟨TkMode.text [], stk, out, none⟩ =
      ⟨TkMode.text [], "th" :: stk, Tok.startEl "th" [] :: out, none⟩ := rfl

/-- Closing a literal `th` tag. -/
theorem litThC (stk : List String) (out : List Tok) :
    tokSteps "</th>".data ⟨TkMode.text [], "th" :: stk, out, none⟩ =
      ⟨TkMode.text [], stk, Tok.endEl "th" :: out, none⟩ := rfl

/-- Opening a literal `td` tag. -/
theorem litTd (stk : List String) (out : List Tok) :
    tokSteps "<td>".data ⟨TkMode.text [], stk, out, none⟩ =
      ⟨TkMode.text [], "td" :: stk, Tok.startEl "td" [] :: out, none⟩ := rfl

/-- Closing a literal `td` tag. -/
theorem litTdC (stk : List String) (out : List Tok) :
    tokSteps "</td>".data ⟨TkMode.text [], "td" :: stk, out, none⟩ =
      ⟨TkMode.text [], stk, Tok.endEl "td" :: out, none⟩ := rfl

/-- Opening a literal `ul` tag. -/
theorem litUl (stk : List String) (out : List Tok) :
    tokSteps "<ul>".data ⟨TkMode.text [], stk, out, none⟩ =
      ⟨TkMode.text [], "ul" :: stk, Tok.startEl "ul" [] :: out, none⟩ := rfl

/-- Closing a literal `ul` tag. -/
theorem litUlC (stk : List String) (out : List Tok) :
    tokSteps "</ul>".data ⟨TkMode.text [], "ul" :: stk, out, none⟩ =
      ⟨TkMode.text [], stk, Tok.endEl "ul" :: out, none⟩ := rfl

/-- Opening a literal `ol` tag. -/
theorem litOl (stk : List String) (out : List Tok) :
    tokSteps "<ol>".data ⟨TkMode.text [], stk, out, none⟩ =
      ⟨TkMode.text [], "ol" :: stk, Tok.startEl "ol" [] :: out, none⟩ := rfl

/-- Closing a literal `ol` tag. -/
theorem litOlC (stk : List String) (out : List Tok) :
    tokSteps "</ol>".data ⟨TkMode.text [], "ol" :: stk, out, none⟩ =
      ⟨TkMode.text [], stk, Tok.endEl "ol" :: out, none⟩ := rfl

/-- Opening a literal `li` tag. -/
theorem litLi (stk : List String) (out : List Tok) :
    tokSteps "<li>".data ⟨TkMode.text [], stk, out, none⟩ =
      ⟨TkMode.text [], "li" :: stk, Tok.startEl "li" [] :: out, none⟩ := rfl

/-- Closing a literal `li` tag. -/
theorem litLiC (stk : List String) (out : List Tok) :
    tokSteps "</li>".data ⟨TkMode.text [], "li" :: stk, out, none⟩ =
      ⟨TkMode.text [], stk, Tok.endEl "li" :: out, none⟩ := rfl

/-- The literal prefix of a structured-macro start tag, up to the
opening quote of its name attribute. -/
theorem litMacroPre (stk : List String) (out : List Tok) :
    tokSteps "<ac:structured-macro ac:name=\"".data ⟨TkMode.text [], stk, out, none⟩ =
      ⟨TkMode.attrVal "ac:structured-macro".data [] "ac:name".data '"' [],
        stk, out, none⟩ := rfl

/-- The closing `>` after the name attribute of a structured-macro
start tag. -/
theorem litMacroGt (attrs : List (String × String)) (stk : List String) (out : List Tok) :
    tokSteps ">".data ⟨TkMode.attrsGap "ac:structured-macro".data attrs, stk, out, none⟩ =
      ⟨TkMode.text [], "ac:structured-macro" :: stk,
        Tok.startEl "structured-macro" attrs :: out, none⟩ := rfl

/-- Closing a literal structured-macro tag. -/
theorem litMacroC (stk : List String) (out : List Tok) :
    tokSteps "</ac:structured-macro>".data
        ⟨TkMode.text [], "ac:structured-macro" :: stk, out, none⟩ =
      ⟨TkMode.text [], stk, Tok.endEl "structured-macro" :: out, none⟩ := rfl

/-- The literal prefix of a parameter start tag, up to the opening
quote of its name attribute. -/
theorem litParamPre (stk : List String) (out : List Tok) :
    tokSteps "<ac:parameter ac:name=\"".data ⟨TkMode.text [], stk, out, none⟩ =
      ⟨TkMode.attrVal "ac:parameter".data [] "ac:name".data '"' [],
        stk, out, none⟩ := rfl

/-- The closing `>` after the name attribute of a parameter start tag. -/
theorem litParamGt (attrs : List (String × String)) (stk : List String) (out : List Tok) :
    tokSteps ">".data ⟨TkMode.attrsGap "ac:parameter".data attrs, stk, out, none⟩ =
      ⟨TkMode.text [], "ac:parameter" :: stk,
        Tok.startEl "parameter" attrs :: out, none⟩ := rfl

/-- Closing a literal parameter tag. -/
theorem litParamC (stk : List String) (out : List Tok) :
    tokSteps "</ac:parameter>".data
        ⟨TkMode.text [], "ac:parameter" :: stk, out, none⟩ =
      ⟨TkMode.text [], stk, Tok.endEl "parameter" :: out, none⟩ := rfl

/-- Opening a literal rich-text-body tag. -/
theorem litRtb (stk : List String) (out : List Tok) :
    tokSteps "<ac:rich-text-body>".data ⟨TkMode.text [], stk, out, none⟩ =
      ⟨TkMode.text [], "ac:rich-text-body" :: stk,
        Tok.startEl "rich-text-body" [] :: out, none⟩ := rfl

/-- Closing a literal rich-text-body tag. -/
theorem litRtbC (stk : List String) (out : List Tok) :
    tokSteps "</ac:rich-text-body>".data
        ⟨TkMode.text [], "ac:rich-text-body" :: stk, out, none⟩ =
      ⟨TkMode.text [], stk, Tok.endEl "rich-text-body" :: out, none⟩ := rfl

/-- Opening a literal plain-text-body tag followed by the CDATA
opening. -/
theorem litPtbCdata (stk : List String) (out : List Tok) :
    tokSteps "<ac:plain-text-body><![CDATA[".data ⟨TkMode.text [], stk, out, none⟩ =
      ⟨TkMode.cdata [], "ac:plain-text-body" :: stk,
        Tok.startEl "plain-text-body" [] :: out, none⟩ := rfl

/-- Closing a literal plain-text-body tag and the enclosing
structured-macro. -/
theorem litPtbC (stk : List String) (out : List Tok) :
    tokSteps "</ac:plain-text-body></ac:structured-macro>".data
        ⟨TkMode.text [], "ac:plain-text-body" :: "ac:structured-macro" :: stk, out, none⟩ =
      ⟨TkMode.text [], stk,
        Tok.endEl "structured-macro" :: Tok.endEl "plain-text-body" :: out, none⟩ := rfl

/-- Opening the synthetic root element. -/
theorem litRoot (stk : List String) (out : List Tok) :
    tokSteps rootOpen.data ⟨TkMode.text [], stk, out, none⟩ =
      ⟨TkMode.text [], "root" :: stk,
        Tok.startEl "root" [("ac", "http://atlassian.com/confluence"),
          ("ri", "http://atlassian.com/confluence")] :: out, none⟩ := rfl

/-- Closing the synthetic root element. -/
theorem litRootC (stk : List String) (out : List Tok) :
    tokSteps rootClose.data ⟨TkMode.text [], "root" :: stk, out, none⟩ =
      ⟨TkMode.text [], stk, Tok.endEl "root" :: out, none⟩ := rfl

/-- The between-markup tokenizer state. -/
def mkSt (stk : List String) (out : List Tok) : TkSt :=
  ⟨TkMode.text [], stk, out, none⟩

/-- Remainder of a closing `p` tag after its `<`. -/
theorem slashP (stk : List String) (out : List Tok) :
    tokSteps "/p>".data ⟨TkMode.tagOpen, stk.cons "p", out, none⟩ =
      mkSt stk (Tok.endEl "p" :: out) := rfl

/-- Remainder of a closing `li` tag after its `<`. -/
theorem slashLi (stk : List String) (out : List Tok) :
    tokSteps "/li>".data ⟨TkMode.tagOpen, stk.cons "li", out, none⟩ =
      mkSt stk (Tok.endEl "li" :: out) := rfl

/-- Remainder of a closing `th` tag after its `<`. -/
theorem slashTh (stk : List String) (out : List Tok) :
    tokSteps "/th>".data ⟨TkMode.tagOpen, stk.cons "th", out, none⟩ =
      mkSt stk (Tok.endEl "th" :: out) := rfl

/-- Remainder of a closing `td` tag after its `<`. -/
theorem slashTd (stk : List String) (out : List Tok) :
    tokSteps "/td>".data ⟨TkMode.tagOpen, stk.cons "td", out, none⟩ =
      mkSt stk (Tok.endEl "td" :: out) := rfl

/-- Remainder of a closing parameter tag after its `<`. -/
theorem slashParam (stk : List String) (out : List Tok) :
    tokSteps "/ac:parameter>".data ⟨TkMode.tagOpen, stk.cons "ac:parameter", out, none⟩ =
      mkSt stk (Tok.endEl "parameter" :: out) := rfl

/-- Remainder of a closing rich-text-body tag after its `<`. -/
theorem slashRtb (stk : List String) (out : List Tok) :
    tokSteps "/ac:rich-text-body>".data
        ⟨TkMode.tagOpen, stk.cons "ac:rich-text-body", out, none⟩ =
      mkSt stk (Tok.endEl "rich-text-body" :: out) := rfl

/-- The data of an escaped string is the escaped data. -/
theorem escapeString_data (t : String) :
    (escapeString t).data = escapeChars t.data := rfl

/-- Flushing the normalised text equals prepending its token. -/
theorem flushText_crNorm (t : String) (out : List Tok) :
    flushText (crNormChars t.data) out = (textToks t).reverse ++ out := by
  by_cases ht : t = ""
  · subst ht
    rw [show crNormChars ("" : String).data = [] from rfl]
    simp [flushText, textToks]
  · have hd : t.data ≠ [] := by
      intro h
      apply ht
      cases t with
      | mk l => simp at h; rw [h]
    have hn : crNormChars t.data ≠ [] := by
      rw [Ne, crNormChars_eq_nil_iff]
      exact hd
    simp [flushText, hn, textToks, ht, crNorm]

/-- An escaped text run followed by the `<` of the next tag, producing
the text token (if any) and leaving the tag-open state. -/
theorem textRunLt (t : String) (u : List Char) (stk : List String) (out : List Tok) :
    tokSteps ((escapeString t).data ++ '<' :: u) ⟨TkMode.text [], stk, out, none⟩ =
      tokSteps u ⟨TkMode.tagOpen, stk, (textToks t).reverse ++ out, none⟩ := by
  rw [escapeString_data,
    tokSteps_escText t.data (TkMode.text []) [] (Or.inl rfl) stk out u,
    List.nil_append, flushText_crNorm]

/-- Running the tokenizer over a raw text run free of `<`, `&` and CR
and not containing the sequence `]]>`, up to the `<` of the next tag:
the run accumulates verbatim.  The three conjuncts track the decoder's
one- and two-bracket `]]>` lookahead states. -/
theorem tokSteps_textRun (n : Nat) :
    ∀ (l : List Char), l.length ≤ n → '<' ∉ l → '&' ∉ l → '\r' ∉ l →
      ∀ (u : List Char) (stk : List String) (out : List Tok) (acc : List Char),
        ((¬ ([']', ']', '>'] <:+: l)) →
          tokSteps (l ++ '<' :: u) ⟨TkMode.text acc, stk, out, none⟩ =
            tokSteps u ⟨TkMode.tagOpen, stk, flushText (acc ++ l) out, none⟩) ∧
        ((¬ ([']', ']', '>'] <:+: (']' :: l))) →
          tokSteps (l ++ '<' :: u) ⟨TkMode.textRB acc, stk, out, none⟩ =
            tokSteps u ⟨TkMode.tagOpen, stk, flushText (acc ++ l) out, none⟩) ∧
        ((¬ ([']', ']', '>'] <:+: (']' :: ']' :: l))) →
          tokSteps (l ++ '<' :: u) ⟨TkMode.textRBRB acc, stk, out, none⟩ =
            tokSteps u ⟨TkMode.tagOpen, stk, flushText (acc ++ l) out, none⟩) := by
  induction n with
  | zero =>
    intro l hlen _ _ _ u stk out acc
    have hnil : l = [] := List.eq_nil_of_length_eq_zero (Nat.le_zero.mp hlen)
    subst hnil
    refine ⟨fun _ => ?_, fun _ => ?_, fun _ => ?_⟩
    · rw [List.nil_append, tokSteps_cons]
      rw [chunkTagOpen (TkMode.text acc) acc stk out (Or.inl rfl)]
      simp
    · rw [List.nil_append, tokSteps_cons]
      rw [chunkTagOpen (TkMode.textRB acc) acc stk out (Or.inr (Or.inl rfl))]
      simp
    · rw [List.nil_append, tokSteps_cons]
      rw [chunkTagOpen (TkMode.textRBRB acc) acc stk out (Or.inr (Or.inr rfl))]
      simp
  | succ n ihn =>
    intro l hlen hlt hamp hcr u stk out acc
    match l with
    | [] =>
      exact ihn [] (by simp) (by simp) (by simp) (by simp) u stk out acc
    | c :: l' =>
      have hlen' : l'.length ≤ n := by simpa using hlen
      have hlt' : '<' ∉ l' := fun h => hlt (by simp [h])
      have hamp' : '&' ∉ l' := fun h => hamp (by simp [h])
      have hcr' : '\r' ∉ l' := fun h => hcr (by simp [h])
      have h1 : c ≠ '<' := fun h => hlt (by simp [h])
      have h2 : c ≠ '&' := fun h => hamp (by simp [h])
      have h3 : c ≠ '\r' := fun h => hcr (by simp [h])
      refine ⟨fun hni => ?_, fun hni => ?_, fun hni => ?_⟩
      · by_cases hb : c = ']'
        · subst hb
          rw [List.cons_append, tokSteps_cons]
          rw [show tokStep ⟨TkMode.text acc, stk, out, none⟩ ']' =
            ⟨TkMode.textRB (acc ++ [']']), stk, out, none⟩ from rfl]
          rw [(ihn l' hlen' hlt' hamp' hcr' u stk out (acc ++ [']'])).2.1 hni]
          simp
        · rw [List.cons_append, tokSteps_cons]
          rw [show tokStep ⟨TkMode.text acc, stk, out, none⟩ c =
            ⟨TkMode.text (acc ++ [c]), stk, out, none⟩ from by
            simp [tokStep, stepText, h1, h2, h3, hb]]
          rw [(ihn l' hlen' hlt' hamp' hcr' u stk out (acc ++ [c])).1
            (noInfix_peel _ _ _ hni)]
          simp
      · by_cases hb : c = ']'
        · subst hb
          rw [List.cons_append, tokSteps_cons]
          rw [show tokStep ⟨TkMode.textRB acc, stk, out, none⟩ ']' =
            ⟨TkMode.textRBRB (acc ++ [']']), stk, out, none⟩ from rfl]
          rw [(ihn l' hlen' hlt' hamp' hcr' u stk out (acc ++ [']'])).2.2 hni]
          simp
        · rw [List.cons_append, tokSteps_cons]
          rw [show tokStep ⟨TkMode.textRB acc, stk, out, none⟩ c =
            ⟨TkMode.text (acc ++ [c]), stk, out, none⟩ from by
            simp [tokStep, stepText, h1, h2, h3, hb]]
          rw [(ihn l' hlen' hlt' hamp' hcr' u stk out (acc ++ [c])).1
            (noInfix_peel _ _ _ (noInfix_peel _ _ _ hni))]
          simp
      · by_cases hb : c = ']'
        · subst hb
          rw [List.cons_append, tokSteps_cons]
          rw [show tokStep ⟨TkMode.textRBRB acc, stk, out, none⟩ ']' =
            ⟨TkMode.textRBRB (acc ++ [']']), stk, out, none⟩ from rfl]
          rw [(ihn l' hlen' hlt' hamp' hcr' u stk out (acc ++ [']'])).2.2
            (noInfix_peel _ _ _ hni)]
          simp
        · by_cases hg : c = '>'
          · exfalso
            subst hg
            exact hni ⟨[], l', rfl⟩
          · rw [List.cons_append, tokSteps_cons]
            rw [show tokStep ⟨TkMode.textRBRB acc, stk, out, none⟩ c =
              ⟨TkMode.text (acc ++ [c]), stk, out, none⟩ from by
              simp [tokStep, stepText, h1, h2, h3, hb, hg]]
            rw [(ihn l' hlen' hlt' hamp' hcr' u stk out (acc ++ [c])).1
              (noInfix_peel _ _ _ (noInfix_peel _ _ _ (noInfix_peel _ _ _ hni)))]
            simp

/-- A raw text run free of markup-significant characters and of the
sequence `]]>` accumulates verbatim up to the `<` of the next tag. -/
theorem plainRunLt (l : List Char) (hlt : '<' ∉ l) (hamp : '&' ∉ l) (hcr : '\r' ∉ l)
    (hni : ¬ ([']', ']', '>'] <:+: l)) :
    ∀ (u : List Char) (stk : List String) (out : List Tok) (acc : List Char),
      tokSteps (l ++ '<' :: u) ⟨TkMode.text acc, stk, out, none⟩ =
        tokSteps u ⟨TkMode.tagOpen, stk, flushText (acc ++ l) out, none⟩ := by
  intro u stk out acc
  exact (tokSteps_textRun l.length l le_rfl hlt hamp hcr u stk out acc).1 hni

/-- Tokenizing one rendered macro parameter. -/
theorem tokSteps_param (p : String × String) (stk : List String) (out : List Tok)
    (rest : List Char) :
    tokSteps ((paramXhtml p).data ++ rest) (mkSt stk out) =
      tokSteps rest (mkSt stk ((paramToks p).reverse ++ out)) := by
  rw [show (paramXhtml p).data ++ rest = "<ac:parameter ac:name=\"".data ++
    (escapeChars p.1.data ++ '"' :: ('>' :: ((escapeString p.2).data ++
      '<' :: ("/ac:parameter>".data ++ rest)))) from by
    simp [paramXhtml, String.data_append, escapeString_data]]
  rw [tokSteps_append, mkSt, litParamPre]
  rw [tokSteps_escAttr p.1.data stk out "ac:parameter".data [] "ac:name".data [] _]
  rw [tokSteps_cons]
  rw [show localName ⟨"ac:name".data⟩ = "name" from rfl]
  rw [show tokStep ⟨TkMode.attrsGap "ac:parameter".data
      ([] ++ [("name", (⟨[] ++ crNormChars p.1.data⟩ : String))]), stk, out, none⟩ '>' =
    ⟨TkMode.text [], "ac:parameter" :: stk,
      Tok.startEl "parameter" ([] ++ [("name", (⟨[] ++ crNormChars p.1.data⟩ : String))]) ::
        out, none⟩ from rfl]
  rw [show (⟨[] ++ crNormChars p.1.data⟩ : String) = crNorm p.1 from by
    rw [List.nil_append]; rfl]
  have hrun := textRunLt p.2 ("/ac:parameter>".data ++ rest) ("ac:parameter" :: stk)
    (Tok.startEl "parameter" ([] ++ [("name", crNorm p.1)]) :: out)
  rw [hrun, tokSteps_append, slashParam]
  rw [paramToks]
  simp [mkSt]

/-- Tokenizing a rendered-piece-per-element loop, given the lemma for
one piece. -/
theorem tokSteps_concatMap {α : Type} (f : α → String) (g : α → List Tok)
    (hf : ∀ (x : α) (stk : List String) (out : List Tok) (rest : List Char),
      tokSteps ((f x).data ++ rest) (mkSt stk out) =
        tokSteps rest (mkSt stk ((g x).reverse ++ out))) :
    ∀ (l : List α) (stk : List String) (out : List Tok) (rest : List Char),
      tokSteps ((concatMap f l).data ++ rest) (mkSt stk out) =
        tokSteps rest (mkSt stk ((l.flatMap g).reverse ++ out)) := by
  intro l
  induction l with
  | nil =>
    intro stk out rest
    rw [show (concatMap f ([] : List α)).data = [] from rfl, List.nil_append]
    simp
  | cons x xs ih =>
    intro stk out rest
    rw [show (concatMap f (x :: xs)).data ++ rest =
      (f x).data ++ ((concatMap f xs).data ++ rest) from by
      simp [concatMap, String.data_append]]
    rw [hf x stk out _, ih]
    simp

/-- A conditional piece lemma carries over to `concatMap` when the
pieces satisfy a predicate. -/
theorem tokSteps_concatMap_of {α : Type} (f : α → String) (g : α → List Tok)
    (P : α → Prop) :
    ∀ (l : List α), (∀ x ∈ l, P x) →
    (∀ (x : α), P x → ∀ (stk : List String) (out : List Tok) (rest : List Char),
      tokSteps ((f x).data ++ rest) (mkSt stk out) =
        tokSteps rest (mkSt stk ((g x).reverse ++ out))) →
    ∀ (stk : List String) (out : List Tok) (rest : List Char),
      tokSteps ((concatMap f l).data ++ rest) (mkSt stk out) =
        tokSteps rest (mkSt stk ((l.flatMap g).reverse ++ out)) := by
  intro l
  induction l with
  | nil =>
    intro _ _ stk out rest
    rw [show (concatMap f ([] : List α)).data = [] from rfl, List.nil_append]
    simp
  | cons x xs ih =>
    intro hP hf stk out rest
    rw [show (concatMap f (x :: xs)).data ++ rest =
      (f x).data ++ ((concatMap f xs).data ++ rest) from by
      simp [concatMap, String.data_append]]
    rw [hf x (hP x (by simp)) stk out _,
      ih (fun y hy => hP y (by simp [hy])) hf]
    simp

/-- Tokenizing a rendered macro (plain or empty body). -/
theorem tokSteps_macroXhtml (m : Macro) (hg : GoodMacro m) :
    ∀ (stk : List String) (out : List Tok) (rest : List Char),
      tokSteps ((macroXhtml m).data ++ rest) (mkSt stk out) =
        tokSteps rest (mkSt stk ((macroToks m).reverse ++ out)) := by
  intro stk out rest
  by_cases hb : m.body = ""
  · rw [show (macroXhtml m).data ++ rest = "<ac:structured-macro ac:name=\"".data ++
      (escapeChars m.name.data ++ '"' :: ('>' :: ((concatMap paramXhtml m.params).data ++
        ("</ac:structured-macro>".data ++ rest)))) from by
      simp [macroXhtml, hb, String.data_append, escapeString_data]]
    rw [tokSteps_append, mkSt, litMacroPre]
    rw [tokSteps_escAttr m.name.data stk out "ac:structured-macro".data []
      "ac:name".data [] _]
    rw [tokSteps_cons]
    rw [show localName ⟨"ac:name".data⟩ = "name" from rfl]
    rw [show tokStep ⟨TkMode.attrsGap "ac:structured-macro".data
        ([] ++ [("name", (⟨[] ++ crNormChars m.name.data⟩ : String))]), stk, out, none⟩ '>' =
      ⟨TkMode.text [], "ac:structured-macro" :: stk,
        Tok.startEl "structured-macro"
          ([] ++ [("name", (⟨[] ++ crNormChars m.name.data⟩ : String))]) :: out, none⟩
      from rfl]
    rw [show (⟨[] ++ crNormChars m.name.data⟩ : String) = crNorm m.name from by
      rw [List.nil_append]; rfl]
    have hps := tokSteps_concatMap paramXhtml paramToks tokSteps_param m.params
      ("ac:structured-macro" :: stk)
      (Tok.startEl "structured-macro" ([] ++ [("name", crNorm m.name)]) :: out)
      ("</ac:structured-macro>".data ++ rest)
    rw [mkSt] at hps
    rw [hps, tokSteps_append, mkSt, litMacroC]
    rw [macroToks, hb]
    simp [mkSt]
  · have hplain := hg hb
    rw [show (macroXhtml m).data ++ rest = "<ac:structured-macro ac:name=\"".data ++
      (escapeChars m.name.data ++ '"' :: ('>' :: ((concatMap paramXhtml m.params).data ++
        ("<ac:rich-text-body>".data ++ (m.body.data ++
          ('<' :: ("/ac:rich-text-body>".data ++
            ("</ac:structured-macro>".data ++ rest)))))))) from by
      simp [macroXhtml, hb, String.data_append, escapeString_data]]
    rw [tokSteps_append, mkSt, litMacroPre]
    rw [tokSteps_escAttr m.name.data stk out "ac:structured-macro".data []
      "ac:name".data [] _]
    rw [tokSteps_cons]
    rw [show localName ⟨"ac:name".data⟩ = "name" from rfl]
    rw [show tokStep ⟨TkMode.attrsGap "ac:structured-macro".data
        ([] ++ [("name", (⟨[] ++ crNormChars m.name.data⟩ : String))]), stk, out, none⟩ '>' =
      ⟨TkMode.text [], "ac:structured-macro" :: stk,
        Tok.startEl "structured-macro"
          ([] ++ [("name", (⟨[] ++ crNormChars m.name.data⟩ : String))]) :: out, none⟩
      from rfl]
    rw [show (⟨[] ++ crNormChars m.name.data⟩ : String) = crNorm m.name from by
      rw [List.nil_append]; rfl]
    have hps := tokSteps_concatMap paramXhtml paramToks tokSteps_param m.params
      ("ac:structured-macro" :: stk)
      (Tok.startEl "structured-macro" ([] ++ [("name", crNorm m.name)]) :: out)
      ("<ac:rich-text-body>".data ++ (m.body.data ++
        ('<' :: ("/ac:rich-text-body>".data ++ ("</ac:structured-macro>".data ++ rest)))))
    rw [mkSt] at hps
    rw [hps, tokSteps_append, mkSt, litRtb]
    rw [plainRunLt m.body.data hplain.1 hplain.2.1 hplain.2.2.1 hplain.2.2.2]
    rw [tokSteps_append, slashRtb, mkSt, tokSteps_append, litMacroC]
    rw [show flushText ([] ++ m.body.data)
        (Tok.startEl "rich-text-body" [] ::
          ((m.params.flatMap paramToks).reverse ++
            Tok.startEl "structured-macro" ([] ++ [("name", crNorm m.name)]) :: out)) =
      Tok.charData m.body :: Tok.startEl "rich-text-body" [] ::
        ((m.params.flatMap paramToks).reverse ++
          Tok.startEl "structured-macro" ([] ++ [("name", crNorm m.name)]) :: out) from by
      rw [List.nil_append, flushText]
      have hd : m.body.data ≠ [] := by
        intro h
        apply hb
        cases hm : m.body with
        | mk l => rw [hm] at h; simp at h; rw [h]
      simp [hd]]
    rw [macroToks]
    have hcrb : crNorm m.body = m.body := by
      rw [crNorm, crNormChars_of_noCR m.body.data hplain.2.2.1]
    rw [if_neg hb, hcrb]
    simp [mkSt]

/-- Tokenizing one rendered header cell. -/
theorem tokSteps_thCell (h : String) (stk : List String) (out : List Tok)
    (rest : List Char) :
    tokSteps (("<th>" ++ escapeString h ++ "</th>").data ++ rest) (mkSt stk out) =
      tokSteps rest (mkSt stk ((thToks h).reverse ++ out)) := by
  rw [show ("<th>" ++ escapeString h ++ "</th>").data ++ rest =
    "<th>".data ++ ((escapeString h).data ++ '<' :: ("/th>".data ++ rest)) from by
    simp [String.data_append]]
  rw [tokSteps_append, mkSt, litTh, textRunLt, tokSteps_append, slashTh]
  rw [thToks]
  simp [mkSt]

/-- Tokenizing one rendered data cell. -/
theorem tokSteps_cell (c : Cell) (hc : GoodCell c) (stk : List String) (out : List Tok)
    (rest : List Char) :
    tokSteps (("<td>" ++ renderCell c ++ "</td>").data ++ rest) (mkSt stk out) =
      tokSteps rest (mkSt stk ((cellToks c).reverse ++ out)) := by
  match hm : c.mac with
  | some m =>
    rw [show ("<td>" ++ renderCell c ++ "</td>").data ++ rest =
      "<td>".data ++ ((macroXhtml m).data ++ ("</td>".data ++ rest)) from by
      simp [renderCell, hm, String.data_append]]
    rw [tokSteps_append, mkSt, litTd]
    have hmac := tokSteps_macroXhtml m (by rw [GoodCell, hm] at hc; exact hc)
      ("td" :: stk) (Tok.startEl "td" [] :: out) ("</td>".data ++ rest)
    rw [mkSt] at hmac
    rw [hmac, tokSteps_append, mkSt, litTdC]
    rw [cellToks, hm]
    simp [mkSt]
  | none =>
    rw [show ("<td>" ++ renderCell c ++ "</td>").data ++ rest =
      "<td>".data ++ ((escapeString c.text).data ++ '<' :: ("/td>".data ++ rest)) from by
      simp [renderCell, hm, String.data_append]]
    rw [tokSteps_append, mkSt, litTd, textRunLt, tokSteps_append, slashTd]
    rw [cellToks, hm]
    simp [mkSt]

/-- Tokenizing one rendered data row. -/
theorem tokSteps_row (r : Row) (hr : ∀ c ∈ r.cells, GoodCell c)
    (stk : List String) (out : List Tok) (rest : List Char) :
    tokSteps ((rowXhtml r).data ++ rest) (mkSt stk out) =
      tokSteps rest (mkSt stk ((rowToks r).reverse ++ out)) := by
  rw [show (rowXhtml r).data ++ rest = "<tr>".data ++
    ((concatMap (fun c => "<td>" ++ renderCell c ++ "</td>") r.cells).data ++
      ("</tr>".data ++ rest)) from by
    simp [rowXhtml, String.data_append]]
  rw [tokSteps_append, mkSt, litTr]
  have hcs := tokSteps_concatMap_of (fun c => "<td>" ++ renderCell c ++ "</td>")
    cellToks GoodCell r.cells hr
    (fun c hc stk2 out2 rest2 => tokSteps_cell c hc stk2 out2 rest2)
    ("tr" :: stk) (Tok.startEl "tr" [] :: out) ("</tr>".data ++ rest)
  rw [mkSt] at hcs
  rw [hcs, tokSteps_append, mkSt, litTrC]
  rw [rowToks]
  simp [mkSt]

/-- Tokenizing a rendered table. -/
theorem tokSteps_table (headers : List String) (rows : List Row)
    (hg : ∀ r ∈ rows, ∀ c ∈ r.cells, GoodCell c) (s : String)
    (hs : renderTable headers rows = Except.ok s)
    (stk : List String) (out : List Tok) (rest : List Char) :
    tokSteps (s.data ++ rest) (mkSt stk out) =
      tokSteps rest (mkSt stk ((blockToks (Block.table headers rows)).reverse ++ out)) := by
  rw [renderTable] at hs
  injection hs with hs
  subst hs
  by_cases hh : headers.isEmpty
  · rw [show ("<table><tbody>" ++
      (if headers.isEmpty then ""
       else "<tr>" ++ concatMap (fun h => "<th>" ++ escapeString h ++ "</th>") headers ++
         "</tr>") ++ concatMap rowXhtml rows ++ "</tbody></table>").data ++ rest =
      "<table><tbody>".data ++ ((concatMap rowXhtml rows).data ++
        ("</tbody></table>".data ++ rest)) from by
      simp [hh, String.data_append]]
    rw [tokSteps_append, mkSt, litTableTbody]
    have hrs := tokSteps_concatMap_of rowXhtml rowToks
      (fun r => ∀ c ∈ r.cells, GoodCell c) rows hg
      (fun r hr stk2 out2 rest2 => tokSteps_row r hr stk2 out2 rest2)
      ("tbody" :: "table" :: stk)
      (Tok.startEl "tbody" [] :: Tok.startEl "table" [] :: out)
      ("</tbody></table>".data ++ rest)
    rw [mkSt] at hrs
    rw [hrs, tokSteps_append, mkSt, litTbodyTableC]
    rw [blockToks]
    simp [mkSt, hh]
  · rw [show ("<table><tbody>" ++
      (if headers.isEmpty then ""
       else "<tr>" ++ concatMap (fun h => "<th>" ++ escapeString h ++ "</th>") headers ++
         "</tr>") ++ concatMap rowXhtml rows ++ "</tbody></table>").data ++ rest =
      "<table><tbody>".data ++ ("<tr>".data ++
        ((concatMap (fun h => "<th>" ++ escapeString h ++ "</th>") headers).data ++
          ("</tr>".data ++ ((concatMap rowXhtml rows).data ++
            ("</tbody></table>".data ++ rest))))) from by
      simp [hh, String.data_append]]
    rw [tokSteps_append, mkSt, litTableTbody, tokSteps_append, litTr]
    have hth := tokSteps_concatMap (fun h => "<th>" ++ escapeString h ++ "</th>")
      thToks (fun h stk2 out2 rest2 => tokSteps_thCell h stk2 out2 rest2) headers
      ("tr" :: "tbody" :: "table" :: stk)
      (Tok.startEl "tr" [] :: Tok.startEl "tbody" [] :: Tok.startEl "table" [] :: out)
      ("</tr>".data ++ ((concatMap rowXhtml rows).data ++
        ("</tbody></table>".data ++ rest)))
    rw [mkSt] at hth
    rw [hth, tokSteps_append, mkSt, litTrC]
    have hrs := tokSteps_concatMap_of rowXhtml rowToks
      (fun r => ∀ c ∈ r.cells, GoodCell c) rows hg
      (fun r hr stk2 out2 rest2 => tokSteps_row r hr stk2 out2 rest2)
      ("tbody" :: "table" :: stk)
      (Tok.endEl "tr" :: ((headers.flatMap thToks).reverse ++
        (Tok.startEl "tr" [] :: Tok.startEl "tbody" [] :: Tok.startEl "table" [] :: out)))
      ("</tbody></table>".data ++ rest)
    rw [mkSt] at hrs
    rw [hrs, tokSteps_append, mkSt, litTbodyTableC]
    rw [blockToks]
    simp [mkSt, hh]

/-- Tokenizing one rendered list item. -/
theorem tokSteps_li (i : ListItem) (stk : List String) (out : List Tok)
    (rest : List Char) :
    tokSteps (("<li>" ++ escapeString i.text ++ "</li>").data ++ rest) (mkSt stk out) =
      tokSteps rest (mkSt stk ((liToks i).reverse ++ out)) := by
  rw [show ("<li>" ++ escapeString i.text ++ "</li>").data ++ rest =
    "<li>".data ++ ((escapeString i.text).data ++ '<' :: ("/li>".data ++ rest)) from by
    simp [String.data_append]]
  rw [tokSteps_append, mkSt, litLi, textRunLt, tokSteps_append, slashLi]
  rw [liToks]
  simp [mkSt]

/-- Opening heading tags. -/
theorem litH1 (stk : List String) (out : List Tok) :
    tokSteps "<h1>".data ⟨TkMode.text [], stk, out, none⟩ =
      ⟨TkMode.text [], "h1" :: stk, Tok.startEl "h1" [] :: out, none⟩ := rfl

/-- Opening heading tag level 2. -/
theorem litH2 (stk : List String) (out : List Tok) :
    tokSteps "<h2>".data ⟨TkMode.text [], stk, out, none⟩ =
      ⟨TkMode.text [], "h2" :: stk, Tok.startEl "h2" [] :: out, none⟩ := rfl

/-- Opening heading tag level 3. -/
theorem litH3 (stk : List String) (out : List Tok) :
    tokSteps "<h3>".data ⟨TkMode.text [], stk, out, none⟩ =
      ⟨TkMode.text [], "h3" :: stk, Tok.startEl "h3" [] :: out, none⟩ := rfl

/-- Opening heading tag level 4. -/
theorem litH4 (stk : List String) (out : List Tok) :
    tokSteps "<h4>".data ⟨TkMode.text [], stk, out, none⟩ =
      ⟨TkMode.text [], "h4" :: stk, Tok.startEl "h4" [] :: out, none⟩ := rfl

/-- Opening heading tag level 5. -/
theorem litH5 (stk : List String) (out : List Tok) :
    tokSteps "<h5>".data ⟨TkMode.text [], stk, out, none⟩ =
      ⟨TkMode.text [], "h5" :: stk, Tok.startEl "h5" [] :: out, none⟩ := rfl

/-- Opening heading tag level 6. -/
theorem litH6 (stk : List String) (out : List Tok) :
    tokSteps "<h6>".data ⟨TkMode.text [], stk, out, none⟩ =
      ⟨TkMode.text [], "h6" :: stk, Tok.startEl "h6" [] :: out, none⟩ := rfl

/-- Remainders of closing heading tags after their `<`. -/
theorem slashH1 (stk : List String) (out : List Tok) :
    tokSteps "/h1>".data ⟨TkMode.tagOpen, stk.cons "h1", out, none⟩ =
      mkSt stk (Tok.endEl "h1" :: out) := rfl

/-- Remainder of a closing h2 tag. -/
theorem slashH2 (stk : List String) (out : List Tok) :
    tokSteps "/h2>".data ⟨TkMode.tagOpen, stk.cons "h2", out, none⟩ =
      mkSt stk (Tok.endEl "h2" :: out) := rfl

/-- Remainder of a closing h3 tag. -/
theorem slashH3 (stk : List String) (out : List Tok) :
    tokSteps "/h3>".data ⟨TkMode.tagOpen, stk.cons "h3", out, none⟩ =
      mkSt stk (Tok.endEl "h3" :: out) := rfl

/-- Remainder of a closing h4 tag. -/
theorem slashH4 (stk : List String) (out : List Tok) :
    tokSteps "/h4>".data ⟨TkMode.tagOpen, stk.cons "h4", out, none⟩ =
      mkSt stk (Tok.endEl "h4" :: out) := rfl

/-- Remainder of a closing h5 tag. -/
theorem slashH5 (stk : List String) (out : List Tok) :
    tokSteps "/h5>".data ⟨TkMode.tagOpen, stk.cons "h5", out, none⟩ =
      mkSt stk (Tok.endEl "h5" :: out) := rfl

/-- Remainder of a closing h6 tag. -/
theorem slashH6 (stk : List String) (out : List Tok) :
    tokSteps "/h6>".data ⟨TkMode.tagOpen, stk.cons "h6", out, none⟩ =
      mkSt stk (Tok.endEl "h6" :: out) := rfl

/-- The literal code-macro start tag. -/
theorem litCodeOpen (stk : List String) (out : List Tok) :
    tokSteps "<ac:structured-macro ac:name=\"code\">".data
        ⟨TkMode.text [], stk, out, none⟩ =
      ⟨TkMode.text [], "ac:structured-macro" :: stk,
        Tok.startEl "structured-macro" [("name", "code")] :: out, none⟩ := rfl

/-- The literal language-parameter start tag. -/
theorem litLangOpen (stk : List String) (out : List Tok) :
    tokSteps "<ac:parameter ac:name=\"language\">".data
        ⟨TkMode.text [], stk, out, none⟩ =
      ⟨TkMode.text [], "ac:parameter" :: stk,
        Tok.startEl "parameter" [("name", "language")] :: out, none⟩ := rfl

/-- Tokenizing a rendered paragraph. -/
theorem tokSteps_paragraphB (t : String) (stk : List String) (out : List Tok)
    (rest : List Char) :
    tokSteps (("<p>" ++ escapeString t ++ "</p>").data ++ rest) (mkSt stk out) =
      tokSteps rest (mkSt stk ((blockToks (Block.paragraph t)).reverse ++ out)) := by
  rw [show ("<p>" ++ escapeString t ++ "</p>").data ++ rest =
    "<p>".data ++ ((escapeString t).data ++ '<' :: ("/p>".data ++ rest)) from by
    simp [String.data_append]]
  rw [tokSteps_append, mkSt, litP, textRunLt, tokSteps_append, slashP]
  rw [blockToks]
  simp [mkSt]

/-- Tokenizing a rendered heading of valid level. -/
theorem tokSteps_headingB (level : Int) (t : String) (h1 : 1 ≤ level) (h6 : level ≤ 6)
    (stk : List String) (out : List Tok) (rest : List Char) :
    tokSteps (("<h" ++ toString level ++ ">" ++ escapeString t ++
        "</h" ++ toString level ++ ">").data ++ rest) (mkSt stk out) =
      tokSteps rest (mkSt stk ((blockToks (Block.heading level t)).reverse ++ out)) := by
  interval_cases level
  · rw [show ("<h" ++ toString (1 : Int) ++ ">" ++ escapeString t ++
      "</h" ++ toString (1 : Int) ++ ">").data ++ rest =
      "<h1>".data ++ ((escapeString t).data ++ '<' :: ("/h1>".data ++ rest)) from by
      simp [String.data_append, show toString (1 : Int) = "1" from rfl]]
    rw [tokSteps_append, mkSt, litH1, textRunLt, tokSteps_append, slashH1]
    rw [blockToks]
    simp [mkSt, hTag, show toString (1 : Int) = "1" from rfl]
  · rw [show ("<h" ++ toString (2 : Int) ++ ">" ++ escapeString t ++
      "</h" ++ toString (2 : Int) ++ ">").data ++ rest =
      "<h2>".data ++ ((escapeString t).data ++ '<' :: ("/h2>".data ++ rest)) from by
      simp [String.data_append, show toString (2 : Int) = "2" from rfl]]
    rw [tokSteps_append, mkSt, litH2, textRunLt, tokSteps_append, slashH2]
    rw [blockToks]
    simp [mkSt, hTag, show toString (2 : Int) = "2" from rfl]
  · rw [show ("<h" ++ toString (3 : Int) ++ ">" ++ escapeString t ++
      "</h" ++ toString (3 : Int) ++ ">").data ++ rest =
      "<h3>".data ++ ((escapeString t).data ++ '<' :: ("/h3>".data ++ rest)) from by
      simp [String.data_append, show toString (3 : Int) = "3" from rfl]]
    rw [tokSteps_append, mkSt, litH3, textRunLt, tokSteps_append, slashH3]
    rw [blockToks]
    simp [mkSt, hTag, show toString (3 : Int) = "3" from rfl]
  · rw [show ("<h" ++ toString (4 : Int) ++ ">" ++ escapeString t ++
      "</h" ++ toString (4 : Int) ++ ">").data ++ rest =
      "<h4>".data ++ ((escapeString t).data ++ '<' :: ("/h4>".data ++ rest)) from by
      simp [String.data_append, show toString (4 : Int) = "4" from rfl]]
    rw [tokSteps_append, mkSt, litH4, textRunLt, tokSteps_append, slashH4]
    rw [blockToks]
    simp [mkSt, hTag, show toString (4 : Int) = "4" from rfl]
  · rw [show ("<h" ++ toString (5 : Int) ++ ">" ++ escapeString t ++
      "</h" ++ toString (5 : Int) ++ ">").data ++ rest =
      "<h5>".data ++ ((escapeString t).data ++ '<' :: ("/h5>".data ++ rest)) from by
      simp [String.data_append, show toString (5 : Int) = "5" from rfl]]
    rw [tokSteps_append, mkSt, litH5, textRunLt, tokSteps_append, slashH5]
    rw [blockToks]
    simp [mkSt, hTag, show toString (5 : Int) = "5" from rfl]
  · rw [show ("<h" ++ toString (6 : Int) ++ ">" ++ escapeString t ++
      "</h" ++ toString (6 : Int) ++ ">").data ++ rest =
      "<h6>".data ++ ((escapeString t).data ++ '<' :: ("/h6>".data ++ rest)) from by
      simp [String.data_append, show toString (6 : Int) = "6" from rfl]]
    rw [tokSteps_append, mkSt, litH6, textRunLt, tokSteps_append, slashH6]
    rw [blockToks]
    simp [mkSt, hTag, show toString (6 : Int) = "6" from rfl]

/-- Tokenizing a rendered code block. -/
theorem tokSteps_codeBlockB (language code : String)
    (hni : ¬ ([']', ']', '>'] <:+: code.data)) (hcr : '\r' ∉ code.data)
    (s : String) (hs : renderCodeBlock language code = Except.ok s)
    (stk : List String) (out : List Tok) (rest : List Char) :
    tokSteps (s.data ++ rest) (mkSt stk out) =
      tokSteps rest
        (mkSt stk ((blockToks (Block.codeBlock language code)).reverse ++ out)) := by
  rw [renderCodeBlock] at hs
  injection hs with hs
  subst hs
  by_cases hl : language = ""
  · rw [show ("<ac:structured-macro ac:name=\"code\">" ++
      (if language = "" then ""
       else "<ac:parameter ac:name=\"language\">" ++ escapeString language ++
         "</ac:parameter>") ++ "<ac:plain-text-body><![CDATA[" ++ code ++
      "]]></ac:plain-text-body></ac:structured-macro>").data ++ rest =
      "<ac:structured-macro ac:name=\"code\">".data ++
        ("<ac:plain-text-body><![CDATA[".data ++
          (code.data ++ ']' :: (']' :: ('>' ::
            ("</ac:plain-text-body></ac:structured-macro>".data ++ rest))))) from by
      simp [hl, String.data_append]]
    rw [tokSteps_append, mkSt, litCodeOpen, tokSteps_append, litPtbCdata]
    rw [(tokSteps_cdataRun code.data.length code.data (le_refl _) hcr
      ("ac:plain-text-body" :: "ac:structured-macro" :: stk)
      (Tok.startEl "plain-text-body" [] ::
        Tok.startEl "structured-macro" [("name", "code")] :: out)
      [] ("</ac:plain-text-body></ac:structured-macro>".data ++ rest)).1 hni]
    rw [show (⟨[] ++ code.data⟩ : String) = code from by rw [List.nil_append]]
    rw [tokSteps_append, litPtbC]
    rw [blockToks, if_pos hl]
    simp [mkSt]
  · rw [show ("<ac:structured-macro ac:name=\"code\">" ++
      (if language = "" then ""
       else "<ac:parameter ac:name=\"language\">" ++ escapeString language ++
         "</ac:parameter>") ++ "<ac:plain-text-body><![CDATA[" ++ code ++
      "]]></ac:plain-text-body></ac:structured-macro>").data ++ rest =
      "<ac:structured-macro ac:name=\"code\">".data ++
        ("<ac:parameter ac:name=\"language\">".data ++
          ((escapeString language).data ++ '<' :: ("/ac:parameter>".data ++
            ("<ac:plain-text-body><![CDATA[".data ++
              (code.data ++ ']' :: (']' :: ('>' ::
                ("</ac:plain-text-body></ac:structured-macro>".data ++ rest)))))))) from by
      simp [hl, String.data_append]]
    rw [tokSteps_append, mkSt, litCodeOpen, tokSteps_append, litLangOpen]
    rw [textRunLt, tokSteps_append, slashParam, mkSt, tokSteps_append, litPtbCdata]
    rw [(tokSteps_cdataRun code.data.length code.data (le_refl _) hcr
      ("ac:plain-text-body" :: "ac:structured-macro" :: stk)
      (Tok.startEl "plain-text-body" [] ::
        Tok.endEl "parameter" :: ((textToks language).reverse ++
          (Tok.startEl "parameter" [("name", "language")] ::
            Tok.startEl "structured-macro" [("name", "code")] :: out)))
      [] ("</ac:plain-text-body></ac:structured-macro>".data ++ rest)).1 hni]
    rw [show (⟨[] ++ code.data⟩ : String) = code from by rw [List.nil_append]]
    rw [tokSteps_append, litPtbC]
    rw [blockToks, if_neg hl]
    simp [mkSt]

/-- Tokenizing any successfully rendered good block. -/
theorem tokSteps_renderBlock (b : Block) (hg : GoodBlock b) (s : String)
    (hs : RenderBlock b = Except.ok s) :
    ∀ (stk : List String) (out : List Tok) (rest : List Char),
      tokSteps (s.data ++ rest) (mkSt stk out) =
        tokSteps rest (mkSt stk ((blockToks b).reverse ++ out)) := by
  intro stk out rest
  match b with
  | Block.table headers rows =>
    exact tokSteps_table headers rows hg s hs stk out rest
  | Block.paragraph t =>
    rw [RenderBlock, renderParagraph] at hs
    injection hs with hs
    subst hs
    exact tokSteps_paragraphB t stk out rest
  | Block.heading level t =>
    rw [RenderBlock, renderHeading] at hs
    split at hs
    · exact absurd hs (by simp)
    next hlv =>
      injection hs with hs
      subst hs
      have h1 : 1 ≤ level := by omega
      have h6 : level ≤ 6 := by omega
      exact tokSteps_headingB level t h1 h6 stk out rest
  | Block.bulletList items =>
    rw [RenderBlock, renderBulletList] at hs
    injection hs with hs
    subst hs
    rw [show ("<ul>" ++ concatMap (fun i => "<li>" ++ escapeString i.text ++ "</li>") items ++
      "</ul>").data ++ rest = "<ul>".data ++
        ((concatMap (fun i => "<li>" ++ escapeString i.text ++ "</li>") items).data ++
          ("</ul>".data ++ rest)) from by
      simp [String.data_append]]
    rw [tokSteps_append, mkSt, litUl]
    have his := tokSteps_concatMap (fun i => "<li>" ++ escapeString i.text ++ "</li>")
      liToks (fun i stk2 out2 rest2 => tokSteps_li i stk2 out2 rest2) items
      ("ul" :: stk) (Tok.startEl "ul" [] :: out) ("</ul>".data ++ rest)
    rw [mkSt] at his
    rw [his, tokSteps_append, mkSt, litUlC]
    rw [blockToks]
    simp [mkSt]
  | Block.numberedList items =>
    rw [RenderBlock, renderNumberedList] at hs
    injection hs with hs
    subst hs
    rw [show ("<ol>" ++ concatMap (fun i => "<li>" ++ escapeString i.text ++ "</li>") items ++
      "</ol>").data ++ rest = "<ol>".data ++
        ((concatMap (fun i => "<li>" ++ escapeString i.text ++ "</li>") items).data ++
          ("</ol>".data ++ rest)) from by
      simp [String.data_append]]
    rw [tokSteps_append, mkSt, litOl]
    have his := tokSteps_concatMap (fun i => "<li>" ++ escapeString i.text ++ "</li>")
      liToks (fun i stk2 out2 rest2 => tokSteps_li i stk2 out2 rest2) items
      ("ol" :: stk) (Tok.startEl "ol" [] :: out) ("</ol>".data ++ rest)
    rw [mkSt] at his
    rw [his, tokSteps_append, mkSt, litOlC]
    rw [blockToks]
    simp [mkSt]
  | Block.macroBlk m =>
    rw [RenderBlock, RenderMacro] at hs
    injection hs with hs
    subst hs
    rw [tokSteps_macroXhtml m hg stk out rest]
    rw [show blockToks (Block.macroBlk m) = macroToks m from rfl]
  | Block.codeBlock language code =>
    exact tokSteps_codeBlockB language code hg.1 hg.2 s hs stk out rest
  | Block.horizontalRule =>
    rw [RenderBlock] at hs
    injection hs with hs
    subst hs
    rw [show ("<hr/>" : String).data ++ rest = "<hr/>".data ++ rest from rfl]
    rw [tokSteps_append, mkSt, litHr]
    rw [blockToks]
    simp [mkSt]

/-- Tokenizing a successfully rendered list of good blocks. -/
theorem tokSteps_renderBlocks :
    ∀ (bs : List Block), (∀ b ∈ bs, GoodBlock b) → ∀ (s : String),
      renderBlocks bs = Except.ok s →
      ∀ (stk : List String) (out : List Tok) (rest : List Char),
        tokSteps (s.data ++ rest) (mkSt stk out) =
          tokSteps rest (mkSt stk ((bs.flatMap blockToks).reverse ++ out)) := by
  intro bs
  induction bs with
  | nil =>
    intro _ s hs stk out rest
    rw [renderBlocks] at hs
    injection hs with hs
    subst hs
    simp
  | cons b bs2 ih =>
    intro hg s hs stk out rest
    rw [renderBlocks] at hs
    match hb : RenderBlock b with
    | Except.error e => rw [hb] at hs; exact absurd hs (by simp)
    | Except.ok s1 =>
      rw [hb] at hs
      match hbs : renderBlocks bs2 with
      | Except.error e => rw [hbs] at hs; exact absurd hs (by simp)
      | Except.ok s2 =>
        rw [hbs] at hs
        injection hs with hs
        subst hs
        rw [show (s1 ++ s2).data ++ rest = s1.data ++ (s2.data ++ rest) from by
          simp [String.data_append]]
        rw [tokSteps_renderBlock b (hg b (by simp)) s1 hb stk out _]
        rw [ih (fun b2 hb2 => hg b2 (by simp [hb2])) s2 hbs]
        simp

/-- The token stream of a successfully rendered good page: the root
wrapper around the concatenated block tokens, with no tokenizer
error. -/
theorem xmlTokens_render (p : Page) (hg : ∀ b ∈ p.blocks, GoodBlock b)
    (s : String) (hs : Render p = Except.ok s) :
    xmlTokens s =
      (Tok.startEl "root" [("ac", "http://atlassian.com/confluence"),
        ("ri", "http://atlassian.com/confluence")] ::
        (p.blocks.flatMap blockToks ++ [Tok.endEl "root"]), none) := by
  rw [xmlTokens]
  rw [show (rootOpen ++ s ++ rootClose).data =
    rootOpen.data ++ (s.data ++ rootClose.data) from by simp [String.data_append]]
  rw [tokSteps_append, show initSt = ⟨TkMode.text [], [], [], none⟩ from rfl, litRoot]
  rw [tokSteps_append]
  have hbs := tokSteps_renderBlocks p.blocks hg s (by rw [Render] at hs; exact hs)
    ["root"]
    [Tok.startEl "root" [("ac", "http://atlassian.com/confluence"),
      ("ri", "http://atlassian.com/confluence")]]
    []
  rw [show s.data ++ [] = s.data from by simp] at hbs
  rw [mkSt] at hbs
  rw [hbs, tokSteps_nil, mkSt, litRootC, tokFinish]
  simp [flushText]

/-! ## The validator accepts rendered output -/

/-- A start tag that is neither forbidden by the default set nor a
table boundary leaves the validator state unchanged (a `tr` is allowed
when the flag is up). -/
theorem vstartPlain (n : String) (attrs : List (String × String)) (ts : List Tok)
    (e : Option String) (d : Int) (f : Bool)
    (h1 : ¬ n ∈ ForbiddenTags) (h2 : n ≠ "table") (h3 : n ≠ "tbody")
    (h4 : n = "tr" → f = true) :
    validateLoop DefaultValidatorOptions (Tok.startEl n attrs :: ts) e d f =
      validateLoop DefaultValidatorOptions ts e d f := by
  have hc1 : ¬ (DefaultValidatorOptions.forbiddenTags.contains n = true) := by
    intro hmem
    apply h1
    have he : DefaultValidatorOptions.forbiddenTags = ForbiddenTags := rfl
    rw [he] at hmem
    simpa using hmem
  have hc2 : ¬ (n = "structured-macro" ∧ DefaultValidatorOptions.allowedMacros ≠ [] ∧
      getMacroName attrs ≠ "" ∧
      ¬ DefaultValidatorOptions.allowedMacros.contains (getMacroName attrs) = true) :=
    fun h => h.2.1 rfl
  have hc4 : ¬ (n = "tbody" ∧ d > 0) := fun h => h3 h.1
  have hc5 : ¬ (n = "tr" ∧ d > 0 ∧ ¬ f = true ∧
      DefaultValidatorOptions.requireTableTbody = true) := by
    intro h
    rw [h4 h.1] at h
    exact h.2.2.1 rfl
  rw [validateLoop, if_neg hc1, if_neg hc2, if_neg h2, if_neg hc4, if_neg hc5]

/-- An end tag other than `table` leaves the validator state
unchanged. -/
theorem vendPlain (n : String) (ts : List Tok) (e : Option String) (d : Int) (f : Bool)
    (h : n ≠ "table") :
    validateLoop DefaultValidatorOptions (Tok.endEl n :: ts) e d f =
      validateLoop DefaultValidatorOptions ts e d f := by
  rw [validateLoop, if_neg h]

/-- Closing a table with the flag up does not fail. -/
theorem vendTable (ts : List Tok) (e : Option String) (d : Int) :
    validateLoop DefaultValidatorOptions (Tok.endEl "table" :: ts) e d true =
      validateLoop DefaultValidatorOptions ts e (d - 1) true := by
  have hc : ¬ (¬ (true : Bool) = true ∧
      DefaultValidatorOptions.requireTableTbody = true) :=
    fun h => h.1 rfl
  rw [validateLoop, if_pos rfl, if_neg hc]

/-- Character data is ignored by the validator. -/
theorem vchar (t : String) (ts : List Tok) (e : Option String) (d : Int) (f : Bool) :
    validateLoop DefaultValidatorOptions (Tok.charData t :: ts) e d f =
      validateLoop DefaultValidatorOptions ts e d f := by
  rw [validateLoop]

/-- A text-run token group is ignored by the validator. -/
theorem validate_textToks (t : String) (ts : List Tok) (e : Option String)
    (d : Int) (f : Bool) :
    validateLoop DefaultValidatorOptions (textToks t ++ ts) e d f =
      validateLoop DefaultValidatorOptions ts e d f := by
  rw [textToks]
  by_cases ht : t = ""
  · rw [if_pos ht, List.nil_append]
  · rw [if_neg ht, List.cons_append, List.nil_append, vchar]

/-- A parameter token group preserves the validator state. -/
theorem validate_paramToks (p : String × String) (ts : List Tok) (e : Option String)
    (d : Int) (f : Bool) :
    validateLoop DefaultValidatorOptions (paramToks p ++ ts) e d f =
      validateLoop DefaultValidatorOptions ts e d f := by
  rw [paramToks]
  simp only [List.cons_append, List.nil_append, List.append_assoc]
  rw [vstartPlain "parameter" _ _ _ _ _ (by decide) (by decide) (by decide)
      (fun h => absurd h (by decide)),
    validate_textToks, vendPlain "parameter" _ _ _ _ (by decide)]

/-- A parameter-list token group preserves the validator state. -/
theorem validate_paramsList (ps : List (String × String)) :
    ∀ (ts : List Tok) (e : Option String) (d : Int) (f : Bool),
      validateLoop DefaultValidatorOptions (ps.flatMap paramToks ++ ts) e d f =
        validateLoop DefaultValidatorOptions ts e d f := by
  induction ps with
  | nil => intro ts e d f; rw [List.flatMap_nil, List.nil_append]
  | cons p ps2 ih =>
    intro ts e d f
    rw [List.flatMap_cons, List.append_assoc, validate_paramToks, ih]

/-- A macro token group preserves the validator state (the default
options have an empty allowlist). -/
theorem validate_macroToks (m : Macro) (ts : List Tok) (e : Option String)
    (d : Int) (f : Bool) :
    validateLoop DefaultValidatorOptions (macroToks m ++ ts) e d f =
      validateLoop DefaultValidatorOptions ts e d f := by
  rw [macroToks]
  by_cases hb : m.body = ""
  · rw [if_pos hb]
    simp only [List.cons_append, List.nil_append, List.append_assoc]
    rw [vstartPlain "structured-macro" _ _ _ _ _ (by decide) (by decide) (by decide)
        (fun h => absurd h (by decide)),
      validate_paramsList, vendPlain "structured-macro" _ _ _ _ (by decide)]
  · rw [if_neg hb]
    simp only [List.cons_append, List.nil_append, List.append_assoc]
    rw [vstartPlain "structured-macro" _ _ _ _ _ (by decide) (by decide) (by decide)
        (fun h => absurd h (by decide)),
      validate_paramsList,
      vstartPlain "rich-text-body" _ _ _ _ _ (by decide) (by decide) (by decide)
        (fun h => absurd h (by decide)),
      vchar, vendPlain "rich-text-body" _ _ _ _ (by decide),
      vendPlain "structured-macro" _ _ _ _ (by decide)]

/-- A data-cell token group preserves the validator state. -/
theorem validate_cellToks (c : Cell) (ts : List Tok) (e : Option String)
    (d : Int) (f : Bool) :
    validateLoop DefaultValidatorOptions (cellToks c ++ ts) e d f =
      validateLoop DefaultValidatorOptions ts e d f := by
  rw [cellToks]
  simp only [List.cons_append, List.nil_append, List.append_assoc]
  rw [vstartPlain "td" _ _ _ _ _ (by decide) (by decide) (by decide)
      (fun h => absurd h (by decide))]
  match c.mac with
  | some m => rw [validate_macroToks, vendPlain "td" _ _ _ _ (by decide)]
  | none => rw [validate_textToks, vendPlain "td" _ _ _ _ (by decide)]

/-- A cell-list token group preserves the validator state. -/
theorem validate_cellsList (cs : List Cell) :
    ∀ (ts : List Tok) (e : Option String) (d : Int) (f : Bool),
      validateLoop DefaultValidatorOptions (cs.flatMap cellToks ++ ts) e d f =
        validateLoop DefaultValidatorOptions ts e d f := by
  induction cs with
  | nil => intro ts e d f; rw [List.flatMap_nil, List.nil_append]
  | cons c cs2 ih =>
    intro ts e d f
    rw [List.flatMap_cons, List.append_assoc, validate_cellToks, ih]

/-- A data-row token group preserves the validator state when the
tbody flag is up. -/
theorem validate_rowToks (r : Row) (ts : List Tok) (e : Option String) (d : Int) :
    validateLoop DefaultValidatorOptions (rowToks r ++ ts) e d true =
      validateLoop DefaultValidatorOptions ts e d true := by
  rw [rowToks]
  simp only [List.cons_append, List.nil_append, List.append_assoc]
  rw [vstartPlain "tr" _ _ _ _ _ (by decide) (by decide) (by decide) (fun _ => rfl),
    validate_cellsList, vendPlain "tr" _ _ _ _ (by decide)]

/-- A row-list token group preserves the validator state when the
tbody flag is up. -/
theorem validate_rowsList (rs : List Row) :
    ∀ (ts : List Tok) (e : Option String) (d : Int),
      validateLoop DefaultValidatorOptions (rs.flatMap rowToks ++ ts) e d true =
        validateLoop DefaultValidatorOptions ts e d true := by
  induction rs with
  | nil => intro ts e d; rw [List.flatMap_nil, List.nil_append]
  | cons r rs2 ih =>
    intro ts e d
    rw [List.flatMap_cons, List.append_assoc, validate_rowToks, ih]

/-- A header-cell token group preserves the validator state. -/
theorem validate_thToks (h : String) (ts : List Tok) (e : Option String)
    (d : Int) (f : Bool) :
    validateLoop DefaultValidatorOptions (thToks h ++ ts) e d f =
      validateLoop DefaultValidatorOptions ts e d f := by
  rw [thToks]
  simp only [List.cons_append, List.nil_append, List.append_assoc]
  rw [vstartPlain "th" _ _ _ _ _ (by decide) (by decide) (by decide)
      (fun hh => absurd hh (by decide)),
    validate_textToks, vendPlain "th" _ _ _ _ (by decide)]

/-- A header-list token group preserves the validator state. -/
theorem validate_headersList (hs : List String) :
    ∀ (ts : List Tok) (e : Option String) (d : Int) (f : Bool),
      validateLoop DefaultValidatorOptions (hs.flatMap thToks ++ ts) e d f =
        validateLoop DefaultValidatorOptions ts e d f := by
  induction hs with
  | nil => intro ts e d f; rw [List.flatMap_nil, List.nil_append]
  | cons h hs2 ih =>
    intro ts e d f
    rw [List.flatMap_cons, List.append_assoc, validate_thToks, ih]

/-- A list-item token group preserves the validator state. -/
theorem validate_liToks (i : ListItem) (ts : List Tok) (e : Option String)
    (d : Int) (f : Bool) :
    validateLoop DefaultValidatorOptions (liToks i ++ ts) e d f =
      validateLoop DefaultValidatorOptions ts e d f := by
  rw [liToks]
  simp only [List.cons_append, List.nil_append, List.append_assoc]
  rw [vstartPlain "li" _ _ _ _ _ (by decide) (by decide) (by decide)
      (fun h => absurd h (by decide)),
    validate_textToks, vendPlain "li" _ _ _ _ (by decide)]

/-- An item-list token group preserves the validator state. -/
theorem validate_itemsList (items : List ListItem) :
    ∀ (ts : List Tok) (e : Option String) (d : Int) (f : Bool),
      validateLoop DefaultValidatorOptions (items.flatMap liToks ++ ts) e d f =
        validateLoop DefaultValidatorOptions ts e d f := by
  induction items with
  | nil => intro ts e d f; rw [List.flatMap_nil, List.nil_append]
  | cons i items2 ih =>
    intro ts e d f
    rw [List.flatMap_cons, List.append_assoc, validate_liToks, ih]

/-- The flag state after a block's tokens: a table leaves the shared
flag set, every other block leaves it unchanged. -/
def flagAfter (b : Block) (f : Bool) : Bool :=
  match b with
  | Block.table _ _ => true
  | _ => f

/-- Opening a table resets the validator flag and bumps the depth. -/
theorem vstartTable (attrs : List (String × String)) (ts : List Tok)
    (e : Option String) (d : Int) (f : Bool) :
    validateLoop DefaultValidatorOptions (Tok.startEl "table" attrs :: ts) e d f =
      validateLoop DefaultValidatorOptions ts e (d + 1) false := by
  have hc1 : ¬ (DefaultValidatorOptions.forbiddenTags.contains "table" = true) := by
    decide
  have hc2 : ¬ (("table" : String) = "structured-macro" ∧
      DefaultValidatorOptions.allowedMacros ≠ [] ∧ getMacroName attrs ≠ "" ∧
      ¬ DefaultValidatorOptions.allowedMacros.contains (getMacroName attrs) = true) :=
    fun h => absurd h.1 (by decide)
  rw [validateLoop, if_neg hc1, if_neg hc2, if_pos rfl]

/-- Opening a tbody at positive depth raises the flag. -/
theorem vstartTbody (attrs : List (String × String)) (ts : List Tok)
    (e : Option String) (d : Int) (hd : 0 < d) (f : Bool) :
    validateLoop DefaultValidatorOptions (Tok.startEl "tbody" attrs :: ts) e d f =
      validateLoop DefaultValidatorOptions ts e d true := by
  have hc1 : ¬ (DefaultValidatorOptions.forbiddenTags.contains "tbody" = true) := by
    decide
  have hc2 : ¬ (("tbody" : String) = "structured-macro" ∧
      DefaultValidatorOptions.allowedMacros ≠ [] ∧ getMacroName attrs ≠ "" ∧
      ¬ DefaultValidatorOptions.allowedMacros.contains (getMacroName attrs) = true) :=
    fun h => absurd h.1 (by decide)
  have hc3 : ("tbody" : String) ≠ "table" := by decide
  rw [validateLoop, if_neg hc1, if_neg hc2, if_neg hc3, if_pos ⟨rfl, hd⟩]

/-- A rendered block's token group passes the default validator at
non-negative depth, updating only the shared flag. -/
theorem validate_blockToks (b : Block)
    (hlv : ∀ lv t, b = Block.heading lv t → 1 ≤ lv ∧ lv ≤ 6)
    (ts : List Tok) (e : Option String) (d : Int) (hd : 0 ≤ d) (f : Bool) :
    validateLoop DefaultValidatorOptions (blockToks b ++ ts) e d f =
      validateLoop DefaultValidatorOptions ts e d (flagAfter b f) := by
  match b with
  | Block.table headers rows =>
    rw [blockToks]
    by_cases hh : headers.isEmpty
    · rw [if_pos hh]
      simp only [List.cons_append, List.nil_append, List.append_assoc]
      rw [vstartTable, vstartTbody _ _ _ (d + 1) (by omega),
        validate_rowsList, vendPlain "tbody" _ _ _ _ (by decide), vendTable,
        show d + 1 - 1 = d from by omega]
      rfl
    · rw [if_neg hh]
      simp only [List.cons_append, List.nil_append, List.append_assoc]
      rw [vstartTable, vstartTbody _ _ _ (d + 1) (by omega),
        vstartPlain "tr" _ _ _ _ _ (by decide) (by decide) (by decide)
          (fun _ => rfl),
        validate_headersList, vendPlain "tr" _ _ _ _ (by decide),
        validate_rowsList, vendPlain "tbody" _ _ _ _ (by decide), vendTable,
        show d + 1 - 1 = d from by omega]
      rfl
  | Block.paragraph t =>
    rw [blockToks]
    simp only [List.cons_append, List.nil_append, List.append_assoc]
    rw [vstartPlain "p" _ _ _ _ _ (by decide) (by decide) (by decide)
        (fun h => absurd h (by decide)),
      validate_textToks, vendPlain "p" _ _ _ _ (by decide)]
    rfl
  | Block.heading lv t =>
    obtain ⟨hl1, hl6⟩ := hlv lv t rfl
    rw [blockToks]
    interval_cases lv
    · simp only [List.cons_append, List.nil_append, List.append_assoc]
      rw [vstartPlain (hTag 1) _ _ _ _ _ (by decide) (by decide) (by decide)
          (fun h => absurd h (by decide)),
        validate_textToks, vendPlain (hTag 1) _ _ _ _ (by decide)]
      rfl
    · simp only [List.cons_append, List.nil_append, List.append_assoc]
      rw [vstartPlain (hTag 2) _ _ _ _ _ (by decide) (by decide) (by decide)
          (fun h => absurd h (by decide)),
        validate_textToks, vendPlain (hTag 2) _ _ _ _ (by decide)]
      rfl
    · simp only [List.cons_append, List.nil_append, List.append_assoc]
      rw [vstartPlain (hTag 3) _ _ _ _ _ (by decide) (by decide) (by decide)
          (fun h => absurd h (by decide)),
        validate_textToks, vendPlain (hTag 3) _ _ _ _ (by decide)]
      rfl
    · simp only [List.cons_append, List.nil_append, List.append_assoc]
      rw [vstartPlain (hTag 4) _ _ _ _ _ (by decide) (by decide) (by decide)
          (fun h => absurd h (by decide)),
        validate_textToks, vendPlain (hTag 4) _ _ _ _ (by decide)]
      rfl
    · simp only [List.cons_append, List.nil_append, List.append_assoc]
      rw [vstartPlain (hTag 5) _ _ _ _ _ (by decide) (by decide) (by decide)
          (fun h => absurd h (by decide)),
        validate_textToks, vendPlain (hTag 5) _ _ _ _ (by decide)]
      rfl
    · simp only [List.cons_append, List.nil_append, List.append_assoc]
      rw [vstartPlain (hTag 6) _ _ _ _ _ (by decide) (by decide) (by decide)
          (fun h => absurd h (by decide)),
        validate_textToks, vendPlain (hTag 6) _ _ _ _ (by decide)]
      rfl
  | Block.bulletList items =>
    rw [blockToks]
    simp only [List.cons_append, List.nil_append, List.append_assoc]
    rw [vstartPlain "ul" _ _ _ _ _ (by decide) (by decide) (by decide)
        (fun h => absurd h (by decide)),
      validate_itemsList, vendPlain "ul" _ _ _ _ (by decide)]
    rfl
  | Block.numberedList items =>
    rw [blockToks]
    simp only [List.cons_append, List.nil_append, List.append_assoc]
    rw [vstartPlain "ol" _ _ _ _ _ (by decide) (by decide) (by decide)
        (fun h => absurd h (by decide)),
      validate_itemsList, vendPlain "ol" _ _ _ _ (by decide)]
    rfl
  | Block.macroBlk m =>
    rw [show blockToks (Block.macroBlk m) = macroToks m from rfl, validate_macroToks]
    rfl
  | Block.codeBlock language code =>
    rw [blockToks]
    by_cases hl : language = ""
    · rw [if_pos hl]
      simp only [List.cons_append, List.nil_append, List.append_assoc]
      rw [vstartPlain "structured-macro" _ _ _ _ _ (by decide) (by decide) (by decide)
          (fun h => absurd h (by decide)),
        vstartPlain "plain-text-body" _ _ _ _ _ (by decide) (by decide) (by decide)
          (fun h => absurd h (by decide)),
        vchar, vendPlain "plain-text-body" _ _ _ _ (by decide),
        vendPlain "structured-macro" _ _ _ _ (by decide)]
      rfl
    · rw [if_neg hl]
      simp only [List.cons_append, List.nil_append, List.append_assoc]
      rw [vstartPlain "structured-macro" _ _ _ _ _ (by decide) (by decide) (by decide)
          (fun h => absurd h (by decide)),
        vstartPlain "parameter" _ _ _ _ _ (by decide) (by decide) (by decide)
          (fun h => absurd h (by decide)),
        validate_textToks, vendPlain "parameter" _ _ _ _ (by decide),
        vstartPlain "plain-text-body" _ _ _ _ _ (by decide) (by decide) (by decide)
          (fun h => absurd h (by decide)),
        vchar, vendPlain "plain-text-body" _ _ _ _ (by decide),
        vendPlain "structured-macro" _ _ _ _ (by decide)]
      rfl
  | Block.horizontalRule =>
    rw [blockToks]
    simp only [List.cons_append, List.nil_append, List.append_assoc]
    rw [vstartPlain "hr" _ _ _ _ _ (by decide) (by decide) (by decide)
        (fun h => absurd h (by decide)),
      vendPlain "hr" _ _ _ _ (by decide)]
    rfl

/-- A rendered block list's token group passes the default validator
at non-negative depth. -/
theorem validate_blocksList (bs : List Block)
    (hlv : ∀ b ∈ bs, ∀ lv t, b = Block.heading lv t → 1 ≤ lv ∧ lv ≤ 6) :
    ∀ (ts : List Tok) (e : Option String) (d : Int), 0 ≤ d → ∀ (f : Bool),
      validateLoop DefaultValidatorOptions (bs.flatMap blockToks ++ ts) e d f =
        validateLoop DefaultValidatorOptions ts e d
          (bs.foldl (fun acc b => flagAfter b acc) f) := by
  induction bs with
  | nil => intro ts e d _ f; rw [List.flatMap_nil, List.nil_append, List.foldl_nil]
  | cons b bs2 ih =>
    intro ts e d hd f
    rw [List.flatMap_cons, List.append_assoc,
      validate_blockToks b (fun lv t hb => hlv b (by simp) lv t hb) _ e d hd f,
      ih (fun b2 hb2 => hlv b2 (by simp [hb2])) ts e d hd, List.foldl_cons]

/-- A successful block rendering of a heading forces its level into
`[1, 6]` (the renderer errors otherwise). -/
theorem renderBlock_ok_heading_bounds (lv : Int) (t : String) (s : String)
    (h : RenderBlock (Block.heading lv t) = Except.ok s) : 1 ≤ lv ∧ lv ≤ 6 := by
  rw [RenderBlock, renderHeading] at h
  by_cases hc : lv < 1 ∨ lv > 6
  · rw [if_pos hc] at h
    exact Except.noConfusion h
  · push_neg at hc
    omega

/-- A successful rendering of a block list forces every heading level
in it into `[1, 6]`. -/
theorem renderBlocks_heading_bounds (bs : List Block) :
    ∀ s, renderBlocks bs = Except.ok s →
      ∀ b ∈ bs, ∀ lv t, b = Block.heading lv t → 1 ≤ lv ∧ lv ≤ 6 := by
  induction bs with
  | nil =>
    intro s _ b hb
    exact absurd hb (List.not_mem_nil b)
  | cons b0 bs2 ih =>
    intro s hok b hb lv t hbeq
    rw [List.mem_cons] at hb
    rw [renderBlocks] at hok
    split at hok
    next he => exact Except.noConfusion hok
    next s0 hs0 =>
      split at hok
      next he2 => exact Except.noConfusion hok
      next r hr =>
        rcases hb with rfl | hb
        · rw [hbeq] at hs0
          exact renderBlock_ok_heading_bounds lv t s0 hs0
        · exact ih r hr b hb lv t hbeq

/-- Claim C1 (amended): under the plain-content side conditions
`GoodBlock` — macro bodies, wherever they occur, empty or free of
`<`, `&`, carriage returns and the sequence `]]>`; code blocks free of
the CDATA terminator `]]>` and of carriage returns — a successful `Render` of a
page always passes `Validate` with the default options.  (Without the
side conditions the gate fails: macro bodies and code are emitted
verbatim, see the counterexample.) -/
theorem render_validate_gate_amended (p : Page) (hg : ∀ b ∈ p.blocks, GoodBlock b)
    (s : String) (hs : Render p = Except.ok s) :
    Validate s = Except.ok () := by
  rw [Validate, ValidateWithOptions]
  by_cases hempty : s = ""
  · rw [if_pos hempty]
  · rw [if_neg hempty]
    show validateLoop DefaultValidatorOptions (xmlTokens s).1 (xmlTokens s).2 0 false =
      Except.ok ()
    rw [xmlTokens_render p hg s hs]
    show validateLoop DefaultValidatorOptions
        (Tok.startEl "root" [("ac", "http://atlassian.com/confluence"),
          ("ri", "http://atlassian.com/confluence")] ::
          (p.blocks.flatMap blockToks ++ [Tok.endEl "root"])) none 0 false =
      Except.ok ()
    rw [vstartPlain "root" _ _ _ _ _ (by decide) (by decide) (by decide)
        (fun h => absurd h (by decide)),
      validate_blocksList p.blocks
        (renderBlocks_heading_bounds p.blocks s (by rw [Render] at hs; exact hs))
        [Tok.endEl "root"] none 0 le_rfl false,
      vendPlain "root" _ _ _ _ (by decide)]
    rfl

/-- Witness for the amended C1 gate on a concrete page. -/
theorem render_validate_gate_amended_witness :
    (∀ b ∈ ([Block.paragraph "a < b", Block.heading 2 "T",
        Block.macroBlk ⟨"info", [("title", "x")], "note"⟩] : List Block),
      GoodBlock b) ∧
    Render ⟨[Block.paragraph "a < b", Block.heading 2 "T",
        Block.macroBlk ⟨"info", [("title", "x")], "note"⟩]⟩ =
      Except.ok ("<p>a &lt; b</p><h2>T</h2><ac:structured-macro ac:name=\"info\"><ac:parameter ac:name=\"title\">x</ac:parameter><ac:rich-text-body>note</ac:rich-text-body></ac:structured-macro>") ∧
    Validate "<p>a &lt; b</p><h2>T</h2><ac:structured-macro ac:name=\"info\"><ac:parameter ac:name=\"title\">x</ac:parameter><ac:rich-text-body>note</ac:rich-text-body></ac:structured-macro>" =
      Except.ok () := by
  refine ⟨?_, rfl, ?_⟩
  · intro b hb
    simp only [List.mem_cons, List.not_mem_nil, or_false] at hb
    rcases hb with rfl | rfl | rfl
    · exact trivial
    · exact trivial
    · intro hne
      refine ⟨by decide, by decide, by decide, by decide⟩
  · exact render_validate_gate_amended
      ⟨[Block.paragraph "a < b", Block.heading 2 "T",
        Block.macroBlk ⟨"info", [("title", "x")], "note"⟩]⟩
      (by
        intro b hb
        simp only [List.mem_cons, List.not_mem_nil, or_false] at hb
        rcases hb with rfl | rfl | rfl
        · exact trivial
        · exact trivial
        · intro hne
          exact ⟨by decide, by decide, by decide, by decide⟩)
      _ rfl

/-! ### Parser runs on token streams -/

/-- `parseTextContent` on a rendered text run followed by its end tag:
the run is collected and trimmed. -/
theorem run_ptc_text (t : String) (et : String) :
    ∀ (fuel : Nat) (rest : List Tok) (e : Option String),
      (textToks t ++ Tok.endEl et :: rest).length < fuel →
      parseTextContent fuel et [] (textToks t ++ Tok.endEl et :: rest) e =
        Except.ok (goTrimSpace (crNorm t), rest) := by
  intro fuel rest e hf
  rw [textToks] at hf ⊢
  by_cases ht : t = ""
  · rw [if_pos ht] at hf ⊢
    rw [List.nil_append] at hf ⊢
    obtain ⟨k, rfl⟩ : ∃ k, fuel = k + 1 := ⟨fuel - 1, by omega⟩
    rw [parseTextContent, if_pos rfl, ht]
    rfl
  · rw [if_neg ht] at hf ⊢
    obtain ⟨k, rfl⟩ : ∃ k, fuel = k + 2 := ⟨fuel - 2, by simp at hf; omega⟩
    rw [List.cons_append, List.nil_append]
    rw [show k + 2 = (k + 1) + 1 from rfl, parseTextContent]
    rw [parseTextContent, if_pos rfl]
    rfl

/-- Claim C6 family: a nested element inside a macro body container is
skipped whole — its character data `c` never reaches the parsed body,
which is the trimmed concatenation of the top-level runs only. -/
theorem macroBody_top_level_only (ats x : List (String × String))
    (ca c cb n : String) :
    ∀ (fuel : Nat) (rest : List Tok) (e : Option String), 8 ≤ fuel →
      parseMacro fuel ats
        (Tok.startEl "rich-text-body" [] :: Tok.charData ca ::
          Tok.startEl n x :: Tok.charData c :: Tok.endEl n ::
          Tok.charData cb :: Tok.endEl "rich-text-body" ::
          Tok.endEl "structured-macro" :: rest) e =
        Except.ok (⟨lastNameAttr ats, [], goTrimSpace ⟨ca.data ++ cb.data⟩⟩,
          rest) := by
  intro fuel rest e hf
  obtain ⟨k, rfl⟩ : ∃ k, fuel = k + 8 := ⟨fuel - 8, by omega⟩
  rfl

/-- Claim C5 family: `parseTableCell` keeps independently accumulated
character data and a parsed macro child in the same cell. -/
theorem cell_keeps_text_and_macro (t : String) (a : List (String × String)) :
    ∀ (fuel : Nat) (rest : List Tok) (e : Option String), 3 ≤ fuel →
      parseTableCell fuel "td" [] none
        (Tok.charData t :: Tok.startEl "structured-macro" a ::
          Tok.endEl "structured-macro" :: Tok.endEl "td" :: rest) e =
        Except.ok (⟨goTrimSpace t, some ⟨lastNameAttr a, [], ""⟩⟩, rest) := by
  intro fuel rest e hf
  obtain ⟨k, rfl⟩ : ∃ k, fuel = k + 3 := ⟨fuel - 3, by omega⟩
  rfl

/-- Witness for the C6 family theorem at a concrete body. -/
theorem macroBody_top_level_only_witness :
    (8 : Nat) ≤ 8 ∧
    parseMacro 8 [("name", "info")]
      [Tok.startEl "rich-text-body" [], Tok.charData "A", Tok.startEl "b" [],
        Tok.charData "zap", Tok.endEl "b", Tok.charData "B",
        Tok.endEl "rich-text-body", Tok.endEl "structured-macro"] none =
      Except.ok (⟨"info", [], "AB"⟩, []) :=
  ⟨by decide,
    macroBody_top_level_only [("name", "info")] [] "A" "zap" "B" "b" 8 [] none
      (by decide)⟩

/-- Witness for the C5 family theorem at a concrete cell. -/
theorem cell_keeps_text_and_macro_witness :
    (3 : Nat) ≤ 3 ∧
    parseTableCell 3 "td" [] none
      [Tok.charData " hi ", Tok.startEl "structured-macro" [("name", "status")],
        Tok.endEl "structured-macro", Tok.endEl "td"] none =
      Except.ok (⟨"hi", some ⟨"status", [], ""⟩⟩, []) :=
  ⟨by decide,
    cell_keeps_text_and_macro " hi " [("name", "status")] 3 [] none (by decide)⟩

/-! ### Table rows: the header-append machinery (claim C3) -/

/-- Tokens of one plain table cell. -/
def cellTok (tag : String) (t : String) : List Tok :=
  [Tok.startEl tag [], Tok.charData t, Tok.endEl tag]

/-- Tokens of one table row of plain cells: `th` cells when the flag
is set, `td` cells otherwise. -/
def rowTok : Bool → List String → List Tok
  | true, ts =>
    Tok.startEl "tr" [] :: (ts.flatMap (cellTok "th") ++ [Tok.endEl "tr"])
  | false, ts =>
    Tok.startEl "tr" [] :: (ts.flatMap (cellTok "td") ++ [Tok.endEl "tr"])

/-- `addRow` folded over parsed row descriptions. -/
def rstep (p : List String × List Row) (r : Bool × List String) :
    List String × List Row :=
  addRow p.1 p.2 ⟨r.2.map (fun t => (⟨goTrimSpace t, none⟩ : Cell))⟩ r.1

/-- `parseTableCell` on a single text run up to the cell's end tag. -/
theorem run_cellText (tag t : String) :
    ∀ (fuel : Nat) (rest : List Tok) (e : Option String), 2 ≤ fuel →
      parseTableCell fuel tag [] none
          (Tok.charData t :: Tok.endEl tag :: rest) e =
        Except.ok (⟨goTrimSpace t, none⟩, rest) := by
  intro fuel rest e hf
  obtain ⟨k, rfl⟩ : ∃ k, fuel = k + 2 := ⟨fuel - 2, by omega⟩
  rw [show k + 2 = (k + 1) + 1 from rfl, parseTableCell]
  rw [parseTableCell, if_pos rfl]
  rfl

/-- One `th` cell step of `parseTableRow`: appends the trimmed cell
and raises the header flag. -/
theorem ptr_step_th (t : String) (k : Nat) (hk : 2 ≤ k) (cells : List Cell)
    (hdr : Bool) (rest2 : List Tok) (e : Option String) :
    parseTableRow (k + 1) cells hdr
        (Tok.startEl "th" [] :: Tok.charData t :: Tok.endEl "th" :: rest2) e =
      parseTableRow k (cells ++ [⟨goTrimSpace t, none⟩]) true rest2 e := by
  rw [parseTableRow, if_pos rfl, run_cellText "th" t k rest2 e hk]

/-- One `td` cell step of `parseTableRow`: appends the trimmed cell
and leaves the header flag alone. -/
theorem ptr_step_td (t : String) (k : Nat) (hk : 2 ≤ k) (cells : List Cell)
    (hdr : Bool) (rest2 : List Tok) (e : Option String) :
    parseTableRow (k + 1) cells hdr
        (Tok.startEl "td" [] :: Tok.charData t :: Tok.endEl "td" :: rest2) e =
      parseTableRow k (cells ++ [⟨goTrimSpace t, none⟩]) hdr rest2 e := by
  rw [parseTableRow, if_neg (by decide), if_pos rfl,
    run_cellText "td" t k rest2 e hk]

/-- A full `th` row run of `parseTableRow`. -/
theorem run_rowTh (texts : List String) :
    ∀ (fuel : Nat) (cells : List Cell) (hdr : Bool) (rest : List Tok)
      (e : Option String),
      (texts.flatMap (cellTok "th") ++ Tok.endEl "tr" :: rest).length < fuel →
      parseTableRow fuel cells hdr
          (texts.flatMap (cellTok "th") ++ Tok.endEl "tr" :: rest) e =
        Except.ok (⟨cells ++ texts.map (fun t => ⟨goTrimSpace t, none⟩)⟩,
          (if texts.isEmpty then hdr else true), rest) := by
  induction texts with
  | nil =>
    intro fuel cells hdr rest e hf
    rw [List.flatMap_nil, List.nil_append] at hf ⊢
    obtain ⟨k, rfl⟩ : ∃ k, fuel = k + 1 := ⟨fuel - 1, by omega⟩
    rw [parseTableRow, if_pos rfl]
    simp
  | cons t ts ih =>
    intro fuel cells hdr rest e hf
    simp only [List.flatMap_cons, cellTok, List.cons_append, List.nil_append,
      List.append_assoc] at hf ⊢
    simp only [List.length_cons] at hf
    obtain ⟨k, rfl⟩ : ∃ k, fuel = k + 1 := ⟨fuel - 1, by omega⟩
    rw [ptr_step_th t k (by omega) cells hdr _ e]
    rw [ih k (cells ++ [(⟨goTrimSpace t, none⟩ : Cell)]) true rest e (by omega)]
    simp [List.append_assoc]

/-- A full `td` row run of `parseTableRow`. -/
theorem run_rowTd (texts : List String) :
    ∀ (fuel : Nat) (cells : List Cell) (hdr : Bool) (rest : List Tok)
      (e : Option String),
      (texts.flatMap (cellTok "td") ++ Tok.endEl "tr" :: rest).length < fuel →
      parseTableRow fuel cells hdr
          (texts.flatMap (cellTok "td") ++ Tok.endEl "tr" :: rest) e =
        Except.ok (⟨cells ++ texts.map (fun t => ⟨goTrimSpace t, none⟩)⟩,
          hdr, rest) := by
  induction texts with
  | nil =>
    intro fuel cells hdr rest e hf
    rw [List.flatMap_nil, List.nil_append] at hf ⊢
    obtain ⟨k, rfl⟩ : ∃ k, fuel = k + 1 := ⟨fuel - 1, by omega⟩
    rw [parseTableRow, if_pos rfl]
    simp
  | cons t ts ih =>
    intro fuel cells hdr rest e hf
    simp only [List.flatMap_cons, cellTok, List.cons_append, List.nil_append,
      List.append_assoc] at hf ⊢
    simp only [List.length_cons] at hf
    obtain ⟨k, rfl⟩ : ∃ k, fuel = k + 1 := ⟨fuel - 1, by omega⟩
    rw [ptr_step_td t k (by omega) cells hdr _ e]
    rw [ih k (cells ++ [(⟨goTrimSpace t, none⟩ : Cell)]) hdr rest e (by omega)]
    simp [List.append_assoc]

/-- One `tr` step of `parseTbody`, given the row's run. -/
theorem ptb_step_tr (k : Nat) (headers : List String) (rows : List Row)
    (X rest2 : List Tok) (e : Option String) (r : Row) (hd : Bool)
    (hrun : parseTableRow k [] false X e = Except.ok (r, hd, rest2)) :
    parseTbody (k + 1) headers rows (Tok.startEl "tr" [] :: X) e =
      parseTbody k (addRow headers rows r hd).1 (addRow headers rows r hd).2
        rest2 e := by
  rw [parseTbody, if_pos rfl, hrun]

/-- A full `parseTbody` run over described rows: every header-flagged
row appends its cell texts to the headers, every other row appends to
the rows, in encounter order. -/
theorem run_parseTbody (rs : List (Bool × List String))
    (hne : ∀ r ∈ rs, r.1 = true → r.2 ≠ []) :
    ∀ (fuel : Nat) (headers : List String) (rows : List Row) (rest : List Tok)
      (e : Option String),
      (rs.flatMap (fun r => rowTok r.1 r.2) ++ Tok.endEl "tbody" :: rest).length <
        fuel →
      parseTbody fuel headers rows
          (rs.flatMap (fun r => rowTok r.1 r.2) ++ Tok.endEl "tbody" :: rest) e =
        Except.ok ((rs.foldl rstep (headers, rows)).1,
          (rs.foldl rstep (headers, rows)).2, rest) := by
  induction rs with
  | nil =>
    intro fuel headers rows rest e hf
    rw [List.flatMap_nil, List.nil_append] at hf ⊢
    obtain ⟨k, rfl⟩ : ∃ k, fuel = k + 1 := ⟨fuel - 1, by omega⟩
    rw [parseTbody, if_pos rfl]
    rfl
  | cons r rs2 ih =>
    intro fuel headers rows rest e hf
    obtain ⟨b, ts⟩ := r
    cases b with
    | true =>
      have hsplit : ((true, ts) :: rs2).flatMap (fun r => rowTok r.1 r.2) =
          (Tok.startEl "tr" [] :: (ts.flatMap (cellTok "th") ++ [Tok.endEl "tr"])) ++
            rs2.flatMap (fun r => rowTok r.1 r.2) := by
        rw [List.flatMap_cons]
        rfl
      rw [hsplit] at hf ⊢
      simp only [List.cons_append, List.append_assoc, List.nil_append] at hf ⊢
      simp only [List.length_cons, List.length_append] at hf
      obtain ⟨k, rfl⟩ : ∃ k, fuel = k + 1 := ⟨fuel - 1, by omega⟩
      have hts : ts.isEmpty = false := by
        cases hts2 : ts with
        | nil => exact absurd (hts2 ▸ rfl) (hne (true, ts) (by simp) rfl)
        | cons a l => rfl
      have hrow := run_rowTh ts k [] false
        (rs2.flatMap (fun r => rowTok r.1 r.2) ++ Tok.endEl "tbody" :: rest) e
        (by simp only [List.length_append, List.length_cons]; omega)
      rw [List.nil_append, hts] at hrow
      rw [show (if false = true then false else true) = true from rfl] at hrow
      rw [ptb_step_tr k headers rows _ _ e _ true hrow]
      rw [ih (fun r2 hr2 => hne r2 (List.mem_cons_of_mem _ hr2)) k _ _ rest e
        (by simp only [List.length_append, List.length_cons]; omega)]
      rfl
    | false =>
      have hsplit : ((false, ts) :: rs2).flatMap (fun r => rowTok r.1 r.2) =
          (Tok.startEl "tr" [] :: (ts.flatMap (cellTok "td") ++ [Tok.endEl "tr"])) ++
            rs2.flatMap (fun r => rowTok r.1 r.2) := by
        rw [List.flatMap_cons]
        rfl
      rw [hsplit] at hf ⊢
      simp only [List.cons_append, List.append_assoc, List.nil_append] at hf ⊢
      simp only [List.length_cons, List.length_append] at hf
      obtain ⟨k, rfl⟩ : ∃ k, fuel = k + 1 := ⟨fuel - 1, by omega⟩
      have hrow := run_rowTd ts k [] false
        (rs2.flatMap (fun r => rowTok r.1 r.2) ++ Tok.endEl "tbody" :: rest) e
        (by simp only [List.length_append, List.length_cons]; omega)
      rw [List.nil_append] at hrow
      rw [ptb_step_tr k headers rows _ _ e _ false hrow]
      rw [ih (fun r2 hr2 => hne r2 (List.mem_cons_of_mem _ hr2)) k _ _ rest e
        (by simp only [List.length_append, List.length_cons]; omega)]
      rfl

/-- Claim C3 (amended): when a table body holds two header rows (rows
whose cells are `th`) and then a data row, `parseTbody` APPENDS the
second header row's cell texts after the first — headers accumulate
across header rows rather than the last row overwriting earlier ones —
while the data row is appended to the rows in encounter order. -/
theorem table_headers_append_amended (H1 H2 D : List String)
    (h1 : H1 ≠ []) (h2 : H2 ≠ []) :
    ∀ (fuel : Nat) (rest : List Tok) (e : Option String),
      (((true, H1) :: (true, H2) :: (false, D) :: []).flatMap
          (fun r => rowTok r.1 r.2) ++ Tok.endEl "tbody" :: rest).length < fuel →
      parseTbody fuel [] []
          (((true, H1) :: (true, H2) :: (false, D) :: []).flatMap
            (fun r => rowTok r.1 r.2) ++ Tok.endEl "tbody" :: rest) e =
        Except.ok (H1.map goTrimSpace ++ H2.map goTrimSpace,
          [⟨D.map (fun t => (⟨goTrimSpace t, none⟩ : Cell))⟩], rest) := by
  intro fuel rest e hf
  rw [run_parseTbody ((true, H1) :: (true, H2) :: (false, D) :: [])
    (by
      intro r hr hb
      simp only [List.mem_cons, List.not_mem_nil, or_false] at hr
      rcases hr with rfl | rfl | rfl
      · exact h1
      · exact h2
      · exact Bool.noConfusion hb)
    fuel [] [] rest e hf]
  simp [rstep, addRow, List.map_map, Function.comp]
  rfl

/-- Witness for the amended C3 header-append behaviour. -/
theorem table_headers_append_amended_witness :
    (["A"] : List String) ≠ [] ∧ (["B"] : List String) ≠ [] ∧
    parseTbody 30 [] []
      [Tok.startEl "tr" [], Tok.startEl "th" [], Tok.charData "A",
        Tok.endEl "th", Tok.endEl "tr",
        Tok.startEl "tr" [], Tok.startEl "th" [], Tok.charData "B",
        Tok.endEl "th", Tok.endEl "tr",
        Tok.startEl "tr" [], Tok.startEl "td" [], Tok.charData "x",
        Tok.endEl "td", Tok.endEl "tr", Tok.endEl "tbody"] none =
      Except.ok (["A", "B"], [⟨[⟨"x", none⟩]⟩], []) :=
  ⟨by decide, by decide,
    table_headers_append_amended ["A"] ["B"] ["x"] (by decide) (by decide)
      30 [] none (by decide)⟩

/-! ### Round-trip machinery (claim C2) -/

/-- A string the parser's trim and the decoder's CR-normalization both
leave alone. -/
def TrimNorm (s : String) : Prop := goTrimSpace (crNorm s) = s

/-- The representable subset for a macro: name and parameter keys
normalization-free, keys non-empty and pairwise distinct, values and
body trim-stable. -/
def SubsetMacro (m : Macro) : Prop :=
  crNorm m.name = m.name ∧
  m.params.Pairwise (fun a b => a.1 ≠ b.1) ∧
  (∀ q ∈ m.params, q.1 ≠ "" ∧ crNorm q.1 = q.1 ∧ TrimNorm q.2) ∧
  TrimNorm m.body

/-- The representable subset, per block. -/
def SubsetBlock : Block → Prop
  | Block.table headers rows =>
    (∀ h ∈ headers, TrimNorm h) ∧
    ∀ r ∈ rows, ∀ c ∈ r.cells,
      match c.mac with
      | none => TrimNorm c.text
      | some m => c.text = "" ∧ SubsetMacro m
  | Block.paragraph t => TrimNorm t
  | Block.heading _ t => TrimNorm t
  | Block.bulletList items => ∀ i ∈ items, TrimNorm i.text
  | Block.numberedList items => ∀ i ∈ items, TrimNorm i.text
  | Block.macroBlk m => SubsetMacro m
  | Block.codeBlock _ _ => False
  | Block.horizontalRule => True

/-- `parseParagraph` on a rendered text run up to `</p>`. -/
theorem run_parseParagraph (t : String) :
    ∀ (fuel : Nat) (rest : List Tok) (e : Option String),
      (textToks t ++ Tok.endEl "p" :: rest).length < fuel →
      parseParagraph fuel [] (textToks t ++ Tok.endEl "p" :: rest) e =
        Except.ok (goTrimSpace (crNorm t), rest) := by
  intro fuel rest e hf
  rw [textToks] at hf ⊢
  by_cases ht : t = ""
  · rw [if_pos ht] at hf ⊢
    rw [List.nil_append] at hf ⊢
    obtain ⟨k, rfl⟩ : ∃ k, fuel = k + 1 := ⟨fuel - 1, by omega⟩
    rw [parseParagraph, if_pos rfl, ht]
    rfl
  · rw [if_neg ht] at hf ⊢
    obtain ⟨k, rfl⟩ : ∃ k, fuel = k + 2 := ⟨fuel - 2, by simp at hf; omega⟩
    rw [List.cons_append, List.nil_append]
    rw [show k + 2 = (k + 1) + 1 from rfl, parseParagraph]
    rw [parseParagraph, if_pos rfl]
    rfl

/-- `parseHeadingLoop` on a rendered text run up to an end tag whose
name starts with `h`. -/
theorem run_parseHeadingLoop (t : String) (et : String)
    (het : startsH et = true) :
    ∀ (fuel : Nat) (rest : List Tok) (e : Option String),
      (textToks t ++ Tok.endEl et :: rest).length < fuel →
      parseHeadingLoop fuel [] (textToks t ++ Tok.endEl et :: rest) e =
        Except.ok (goTrimSpace (crNorm t), rest) := by
  intro fuel rest e hf
  rw [textToks] at hf ⊢
  by_cases ht : t = ""
  · rw [if_pos ht] at hf ⊢
    rw [List.nil_append] at hf ⊢
    obtain ⟨k, rfl⟩ : ∃ k, fuel = k + 1 := ⟨fuel - 1, by omega⟩
    rw [parseHeadingLoop, if_pos het, ht]
    rfl
  · rw [if_neg ht] at hf ⊢
    obtain ⟨k, rfl⟩ : ∃ k, fuel = k + 2 := ⟨fuel - 2, by simp at hf; omega⟩
    rw [List.cons_append, List.nil_append]
    rw [show k + 2 = (k + 1) + 1 from rfl, parseHeadingLoop]
    rw [parseHeadingLoop, if_pos het]
    rfl

/-- `parseListItem` on a rendered text run up to `</li>`. -/
theorem run_parseListItem (t : String) :
    ∀ (fuel : Nat) (rest : List Tok) (e : Option String),
      (textToks t ++ Tok.endEl "li" :: rest).length < fuel →
      parseListItem fuel [] (textToks t ++ Tok.endEl "li" :: rest) e =
        Except.ok (⟨goTrimSpace (crNorm t)⟩, rest) := by
  intro fuel rest e hf
  rw [textToks] at hf ⊢
  by_cases ht : t = ""
  · rw [if_pos ht] at hf ⊢
    rw [List.nil_append] at hf ⊢
    obtain ⟨k, rfl⟩ : ∃ k, fuel = k + 1 := ⟨fuel - 1, by omega⟩
    rw [parseListItem, if_pos rfl, ht]
    rfl
  · rw [if_neg ht] at hf ⊢
    obtain ⟨k, rfl⟩ : ∃ k, fuel = k + 2 := ⟨fuel - 2, by simp at hf; omega⟩
    rw [List.cons_append, List.nil_append]
    rw [show k + 2 = (k + 1) + 1 from rfl, parseListItem]
    rw [parseListItem, if_pos rfl]
    rfl

/-- One `parameter` element step of `parseMacroLoop`. -/
theorem pml_step_param (q : String × String) (hq0 : q.1 ≠ "")
    (hq1 : crNorm q.1 = q.1) (hq2 : goTrimSpace (crNorm q.2) = q.2)
    (m0 : Macro) (k : Nat) (rest2 : List Tok) (e : Option String)
    (hk : (textToks q.2 ++ Tok.endEl "parameter" :: rest2).length < k) :
    parseMacroLoop (k + 1) m0
        (Tok.startEl "parameter" [("name", crNorm q.1)] ::
          (textToks q.2 ++ Tok.endEl "parameter" :: rest2)) e =
      parseMacroLoop k ⟨m0.name, mapPut m0.params q.1 q.2, m0.body⟩ rest2 e := by
  rw [parseMacroLoop, if_pos rfl, run_ptc_text q.2 "parameter" k rest2 e hk]
  rw [hq1, hq2]
  show (if q.1 = "" then parseMacroLoop k m0 rest2 e
    else parseMacroLoop k ⟨m0.name, mapPut m0.params q.1 q.2, m0.body⟩ rest2 e) = _
  rw [if_neg hq0]

/-- The `rich-text-body` step of `parseMacroLoop` (non-empty body). -/
theorem pml_step_body (body : String) (hb : body ≠ "")
    (m0 : Macro) (k : Nat) (rest2 : List Tok) (e : Option String)
    (hk : rest2.length + 2 < k) :
    parseMacroLoop (k + 1) m0
        (Tok.startEl "rich-text-body" [] :: Tok.charData (crNorm body) ::
          Tok.endEl "rich-text-body" :: rest2) e =
      parseMacroLoop k ⟨m0.name, m0.params, goTrimSpace (crNorm body)⟩ rest2 e := by
  have hrun := run_ptc_text body "rich-text-body" k rest2 e
  rw [textToks, if_neg hb, List.cons_append, List.nil_append] at hrun
  rw [parseMacroLoop, if_neg (by decide), if_pos (Or.inl rfl),
    hrun (by simp only [List.length_cons]; omega)]

/-- The closing step of `parseMacroLoop`. -/
theorem pml_end (m0 : Macro) (k : Nat) (rest : List Tok) (e : Option String) :
    parseMacroLoop (k + 1) m0 (Tok.endEl "structured-macro" :: rest) e =
      Except.ok (m0, rest) := by
  rw [parseMacroLoop, if_pos rfl]

/-- `mapPut` folded over a parameter list. -/
def putAll (l ps : List (String × String)) : List (String × String) :=
  ps.foldl (fun acc q => mapPut acc q.1 q.2) l

/-- `mapPut` with a fresh key appends. -/
theorem mapPut_fresh (l : List (String × String)) (k v : String)
    (h : ∀ a ∈ l, a.1 ≠ k) : mapPut l k v = l ++ [(k, v)] := by
  have h2 : l.any (fun p => p.1 == k) = false := by
    rw [List.any_eq_false]
    intro x hx
    simpa using h x hx
  rw [mapPut, h2]
  rfl

/-- Folding `mapPut` over pairwise-distinct keys all fresh for the
accumulator appends the whole list. -/
theorem putAll_append (ps : List (String × String))
    (hpw : ps.Pairwise (fun a b => a.1 ≠ b.1)) :
    ∀ l, (∀ q ∈ ps, ∀ a ∈ l, a.1 ≠ q.1) → putAll l ps = l ++ ps := by
  induction ps with
  | nil =>
    intro l _
    rw [putAll, List.foldl_nil, List.append_nil]
  | cons q ps2 ih =>
    intro l hfresh
    rw [List.pairwise_cons] at hpw
    rw [putAll, List.foldl_cons,
      mapPut_fresh l q.1 q.2 (fun a ha => hfresh q (by simp) a ha)]
    rw [show List.foldl (fun acc r => mapPut acc r.1 r.2) (l ++ [(q.1, q.2)]) ps2 =
        putAll (l ++ [(q.1, q.2)]) ps2 from rfl]
    rw [ih hpw.2 (l ++ [(q.1, q.2)]) (by
      intro q2 hq2 a ha
      rcases List.mem_append.mp ha with ha2 | ha2
      · exact hfresh q2 (List.mem_cons_of_mem _ hq2) a ha2
      · have : a = (q.1, q.2) := by simpa using ha2
        rw [this]
        exact hpw.1 q2 hq2)]
    simp

/-- `parseMacroLoop` over a rendered parameter group, continuation
style: the group folds `mapPut` over the accumulator and the loop goes
on with whatever fuel is left. -/
theorem run_pml_params (ps : List (String × String))
    (hps : ∀ q ∈ ps, q.1 ≠ "" ∧ crNorm q.1 = q.1 ∧ TrimNorm q.2) :
    ∀ (m0 : Macro) (tail : List Tok) (e : Option String) (res : Macro × List Tok),
      (∀ f : Nat, tail.length < f →
        parseMacroLoop f ⟨m0.name, putAll m0.params ps, m0.body⟩ tail e =
          Except.ok res) →
      ∀ (fuel : Nat), (ps.flatMap paramToks ++ tail).length < fuel →
      parseMacroLoop fuel m0 (ps.flatMap paramToks ++ tail) e = Except.ok res := by
  induction ps with
  | nil =>
    intro m0 tail e res hcont fuel hf
    rw [List.flatMap_nil, List.nil_append] at hf ⊢
    exact hcont fuel hf
  | cons q ps2 ih =>
    intro m0 tail e res hcont fuel hf
    obtain ⟨hq0, hq1, hq2⟩ := hps q (by simp)
    simp only [List.flatMap_cons, paramToks, List.cons_append, List.nil_append,
      List.append_assoc] at hf ⊢
    simp only [List.length_cons, List.length_append] at hf
    obtain ⟨k, rfl⟩ : ∃ k, fuel = k + 1 := ⟨fuel - 1, by omega⟩
    rw [pml_step_param q hq0 hq1 hq2 m0 k _ e
      (by simp only [List.length_cons, List.length_append]; omega)]
    exact ih (fun q2 hq2 => hps q2 (List.mem_cons_of_mem _ hq2))
      ⟨m0.name, mapPut m0.params q.1 q.2, m0.body⟩ tail e res hcont k
      (by simp only [List.length_cons, List.length_append]; omega)

/-- `parseMacro` inverts a rendered macro on the representable
subset. -/
theorem run_parseMacro (m : Macro) (hsm : SubsetMacro m) :
    ∀ (fuel : Nat) (rest : List Tok) (e : Option String),
      (m.params.flatMap paramToks ++
        ((if m.body = "" then []
          else Tok.startEl "rich-text-body" [] :: Tok.charData (crNorm m.body) ::
            [Tok.endEl "rich-text-body"]) ++
          Tok.endEl "structured-macro" :: rest)).length < fuel →
      parseMacro fuel [("name", crNorm m.name)]
          (m.params.flatMap paramToks ++
            ((if m.body = "" then []
              else Tok.startEl "rich-text-body" [] :: Tok.charData (crNorm m.body) ::
                [Tok.endEl "rich-text-body"]) ++
              Tok.endEl "structured-macro" :: rest)) e =
        Except.ok (m, rest) := by
  intro fuel rest e hf
  obtain ⟨hname, hpw, hq, hbody⟩ := hsm
  rw [parseMacro]
  have hn : (⟨lastNameAttr [("name", crNorm m.name)], [], ""⟩ : Macro) =
      ⟨m.name, [], ""⟩ := by
    rw [show lastNameAttr [("name", crNorm m.name)] = crNorm m.name from rfl, hname]
  rw [hn]
  refine run_pml_params m.params hq ⟨m.name, [], ""⟩ _ e (m, rest) ?_ fuel hf
  intro f hfl
  rw [show putAll (Macro.params ⟨m.name, [], ""⟩) m.params = m.params from by
    rw [show Macro.params ⟨m.name, [], ""⟩ = ([] : List (String × String)) from rfl]
    rw [putAll_append m.params hpw [] (by intro q2 hq2 a ha; exact absurd ha (List.not_mem_nil a))]
    rw [List.nil_append]]
  by_cases hb : m.body = ""
  · rw [if_pos hb] at hfl ⊢
    rw [List.nil_append] at hfl ⊢
    obtain ⟨k, rfl⟩ : ∃ k, f = k + 1 := ⟨f - 1, by omega⟩
    rw [pml_end]
    rw [show (⟨m.name, m.params, ""⟩ : Macro) = m from by rw [← hb]]
  · rw [if_neg hb] at hfl ⊢
    simp only [List.cons_append, List.nil_append, List.length_cons] at hfl ⊢
    obtain ⟨k, rfl⟩ : ∃ k, f = k + 2 := ⟨f - 2, by omega⟩
    rw [show k + 2 = (k + 1) + 1 from rfl]
    rw [pml_step_body m.body hb ⟨m.name, m.params, ""⟩ (k + 1) _ e
      (by simp only [List.length_cons]; omega)]
    rw [show goTrimSpace (crNorm m.body) = m.body from hbody]
    rw [pml_end]

/-- The closing step of `parseTableCell`. -/
theorem tc_end (tag : String) (acc : List Char) (mac : Option Macro) (k : Nat)
    (rest : List Tok) (e : Option String) :
    parseTableCell (k + 1) tag acc mac (Tok.endEl tag :: rest) e =
      Except.ok (⟨goTrimSpace ⟨acc⟩, mac⟩, rest) := by
  rw [parseTableCell, if_pos rfl]

/-- `parseTableCell` on a rendered text run up to the cell's end tag. -/
theorem run_cellTextToks (tag t : String) :
    ∀ (fuel : Nat) (rest : List Tok) (e : Option String),
      (textToks t ++ Tok.endEl tag :: rest).length < fuel →
      parseTableCell fuel tag [] none (textToks t ++ Tok.endEl tag :: rest) e =
        Except.ok (⟨goTrimSpace (crNorm t), none⟩, rest) := by
  intro fuel rest e hf
  rw [textToks] at hf ⊢
  by_cases ht : t = ""
  · rw [if_pos ht] at hf ⊢
    rw [List.nil_append] at hf ⊢
    obtain ⟨k, rfl⟩ : ∃ k, fuel = k + 1 := ⟨fuel - 1, by omega⟩
    rw [tc_end, ht]
    rfl
  · rw [if_neg ht] at hf ⊢
    obtain ⟨k, rfl⟩ : ∃ k, fuel = k + 2 := ⟨fuel - 2, by simp at hf; omega⟩
    rw [List.cons_append, List.nil_append]
    rw [show k + 2 = (k + 1) + 1 from rfl, parseTableCell]
    rw [tc_end]
    rfl

/-- The macro-child step of `parseTableCell`, given the macro's run. -/
theorem tcc_step_mac (attrs : List (String × String)) (X rest2 : List Tok)
    (m : Macro) (k : Nat) (e : Option String)
    (hrun : parseMacro k attrs X e = Except.ok (m, rest2)) :
    parseTableCell (k + 1) "td" [] none
        (Tok.startEl "structured-macro" attrs :: X) e =
      parseTableCell k "td" [] (some m) rest2 e := by
  rw [parseTableCell, if_pos rfl, hrun]

/-- `parseTableCell` inverts a rendered cell on the representable
subset. -/
theorem run_cellP (c : Cell)
    (hc : match c.mac with
      | none => TrimNorm c.text
      | some m => c.text = "" ∧ SubsetMacro m) :
    ∀ (fuel : Nat) (rest : List Tok) (e : Option String),
      ((match c.mac with
        | some m => macroToks m
        | none => textToks c.text) ++ Tok.endEl "td" :: rest).length < fuel →
      parseTableCell fuel "td" [] none
          ((match c.mac with
            | some m => macroToks m
            | none => textToks c.text) ++ Tok.endEl "td" :: rest) e =
        Except.ok (c, rest) := by
  obtain ⟨ctext, cmac⟩ := c
  match cmac with
  | none =>
    intro fuel rest e hf
    rw [show (match (none : Option Macro) with
      | some m => macroToks m
      | none => textToks ctext) = textToks ctext from rfl] at hf ⊢
    rw [run_cellTextToks "td" ctext fuel rest e hf]
    rw [show goTrimSpace (crNorm ctext) = ctext from hc]
  | some m =>
    intro fuel rest e hf
    obtain ⟨hct, hsm⟩ := (hc : ctext = "" ∧ SubsetMacro m)
    rw [show (match (some m : Option Macro) with
      | some m => macroToks m
      | none => textToks ctext) = macroToks m from rfl] at hf ⊢
    simp only [macroToks, List.cons_append, List.append_assoc,
      List.nil_append] at hf ⊢
    simp only [List.length_cons, List.length_append] at hf
    obtain ⟨k, rfl⟩ : ∃ k, fuel = k + 1 := ⟨fuel - 1, by omega⟩
    rw [tcc_step_mac [("name", crNorm m.name)] _ _ m k e
      (run_parseMacro m hsm k _ e
        (by simp only [List.length_cons, List.length_append]; omega))]
    obtain ⟨k2, rfl⟩ : ∃ k2, k = k2 + 1 := ⟨k - 1, by omega⟩
    rw [tc_end, show ctext = "" from hct]
    rfl

/-- The `th` cell step of `parseTableRow` on rendered tokens. -/
theorem ptr_step_thToks (h : String) (k : Nat) (rest2 : List Tok)
    (e : Option String) (cells : List Cell) (hdr : Bool)
    (hk : (textToks h ++ Tok.endEl "th" :: rest2).length < k) :
    parseTableRow (k + 1) cells hdr
        (Tok.startEl "th" [] :: (textToks h ++ Tok.endEl "th" :: rest2)) e =
      parseTableRow k (cells ++ [⟨goTrimSpace (crNorm h), none⟩]) true rest2 e := by
  have hrun := run_cellTextToks "th" h k rest2 e hk
  rw [parseTableRow, if_pos rfl, hrun]

/-- The `td` cell step of `parseTableRow`, given the cell's run. -/
theorem ptr_step_tdP (X rest2 : List Tok) (c : Cell) (k : Nat)
    (e : Option String) (cells : List Cell) (hdr : Bool)
    (hrun : parseTableCell k "td" [] none X e = Except.ok (c, rest2)) :
    parseTableRow (k + 1) cells hdr (Tok.startEl "td" [] :: X) e =
      parseTableRow k (cells ++ [c]) hdr rest2 e := by
  rw [parseTableRow, if_neg (by decide), if_pos rfl, hrun]

/-- The closing step of `parseTableRow`. -/
theorem ptr_end (cells : List Cell) (hdr : Bool) (k : Nat) (rest : List Tok)
    (e : Option String) :
    parseTableRow (k + 1) cells hdr (Tok.endEl "tr" :: rest) e =
      Except.ok (⟨cells⟩, hdr, rest) := by
  rw [parseTableRow, if_pos rfl]

/-- `parseTableRow` inverts a rendered header row. -/
theorem run_thRowP (hs : List String) (hh : ∀ h ∈ hs, TrimNorm h) :
    ∀ (fuel : Nat) (cells : List Cell) (hdr : Bool) (rest : List Tok)
      (e : Option String),
      (hs.flatMap thToks ++ Tok.endEl "tr" :: rest).length < fuel →
      parseTableRow fuel cells hdr (hs.flatMap thToks ++ Tok.endEl "tr" :: rest) e =
        Except.ok (⟨cells ++ hs.map (fun h => ⟨h, none⟩)⟩,
          (if hs.isEmpty then hdr else true), rest) := by
  induction hs with
  | nil =>
    intro fuel cells hdr rest e hf
    rw [List.flatMap_nil, List.nil_append] at hf ⊢
    obtain ⟨k, rfl⟩ : ∃ k, fuel = k + 1 := ⟨fuel - 1, by omega⟩
    rw [ptr_end]
    simp
  | cons h hs2 ih =>
    intro fuel cells hdr rest e hf
    simp only [List.flatMap_cons, thToks, List.cons_append, List.nil_append,
      List.append_assoc] at hf ⊢
    simp only [List.length_cons, List.length_append] at hf
    obtain ⟨k, rfl⟩ : ∃ k, fuel = k + 1 := ⟨fuel - 1, by omega⟩
    rw [ptr_step_thToks h k _ e cells hdr
      (by simp only [List.length_cons, List.length_append]; omega)]
    rw [show goTrimSpace (crNorm h) = h from hh h (by simp)]
    rw [ih (fun h2 hh2 => hh h2 (List.mem_cons_of_mem _ hh2)) k
      (cells ++ [(⟨h, none⟩ : Cell)]) true rest e
      (by simp only [List.length_cons, List.length_append]; omega)]
    simp [List.append_assoc]

/-- `parseTableRow` inverts a rendered data row. -/
theorem run_dataRowP (cs : List Cell)
    (hcs : ∀ c ∈ cs, match c.mac with
      | none => TrimNorm c.text
      | some m => c.text = "" ∧ SubsetMacro m) :
    ∀ (fuel : Nat) (cells : List Cell) (hdr : Bool) (rest : List Tok)
      (e : Option String),
      (cs.flatMap cellToks ++ Tok.endEl "tr" :: rest).length < fuel →
      parseTableRow fuel cells hdr (cs.flatMap cellToks ++ Tok.endEl "tr" :: rest) e =
        Except.ok (⟨cells ++ cs⟩, hdr, rest) := by
  induction cs with
  | nil =>
    intro fuel cells hdr rest e hf
    rw [List.flatMap_nil, List.nil_append] at hf ⊢
    obtain ⟨k, rfl⟩ : ∃ k, fuel = k + 1 := ⟨fuel - 1, by omega⟩
    rw [ptr_end]
    simp
  | cons c cs2 ih =>
    intro fuel cells hdr rest e hf
    simp only [List.flatMap_cons, cellToks, List.cons_append, List.nil_append,
      List.append_assoc] at hf ⊢
    simp only [List.length_cons, List.length_append] at hf
    obtain ⟨k, rfl⟩ : ∃ k, fuel = k + 1 := ⟨fuel - 1, by omega⟩
    rw [ptr_step_tdP _ _ c k e cells hdr
      (run_cellP c (hcs c (by simp)) k _ e
        (by simp only [List.length_cons, List.length_append]; omega))]
    rw [ih (fun c2 hc2 => hcs c2 (List.mem_cons_of_mem _ hc2)) k
      (cells ++ [c]) hdr rest e
      (by simp only [List.length_cons, List.length_append]; omega)]
    simp [List.append_assoc]

/-- The closing step of `parseTbody`. -/
theorem ptb_end (headers : List String) (rows : List Row) (k : Nat)
    (rest : List Tok) (e : Option String) :
    parseTbody (k + 1) headers rows (Tok.endEl "tbody" :: rest) e =
      Except.ok (headers, rows, rest) := by
  rw [parseTbody, if_pos rfl]

/-- `parseTbody` inverts a rendered data-row list. -/
theorem run_tbodyRowsP (rs : List Row)
    (hrs : ∀ r ∈ rs, ∀ c ∈ r.cells, match c.mac with
      | none => TrimNorm c.text
      | some m => c.text = "" ∧ SubsetMacro m) :
    ∀ (fuel : Nat) (headers : List String) (rcur : List Row) (rest : List Tok)
      (e : Option String),
      (rs.flatMap rowToks ++ Tok.endEl "tbody" :: rest).length < fuel →
      parseTbody fuel headers rcur (rs.flatMap rowToks ++ Tok.endEl "tbody" :: rest) e =
        Except.ok (headers, rcur ++ rs, rest) := by
  induction rs with
  | nil =>
    intro fuel headers rcur rest e hf
    rw [List.flatMap_nil, List.nil_append] at hf ⊢
    obtain ⟨k, rfl⟩ : ∃ k, fuel = k + 1 := ⟨fuel - 1, by omega⟩
    rw [ptb_end]
    simp
  | cons r rs2 ih =>
    intro fuel headers rcur rest e hf
    simp only [List.flatMap_cons, rowToks, List.cons_append, List.nil_append,
      List.append_assoc] at hf ⊢
    simp only [List.length_cons, List.length_append] at hf
    obtain ⟨k, rfl⟩ : ∃ k, fuel = k + 1 := ⟨fuel - 1, by omega⟩
    rw [ptb_step_tr k headers rcur _ _ e (⟨[] ++ r.cells⟩ : Row) false
      (run_dataRowP r.cells (hrs r (by simp)) k [] false _ e
        (by simp only [List.length_cons, List.length_append]; omega))]
    rw [show (⟨[] ++ r.cells⟩ : Row) = r from by rw [List.nil_append]]
    rw [show addRow headers rcur r false = (headers, rcur ++ [r]) from rfl]
    rw [ih (fun r2 hr2 => hrs r2 (List.mem_cons_of_mem _ hr2)) k
      headers (rcur ++ [r]) rest e
      (by simp only [List.length_cons, List.length_append]; omega)]
    simp [List.append_assoc]

/-- The `tbody` step of `parseTableLoop`, given the body's run. -/
theorem ptl_step_tbody (headers : List String) (rws : List Row)
    (X rest2 : List Tok) (h2 : List String) (r2 : List Row) (k : Nat)
    (e : Option String)
    (hrun : parseTbody k headers rws X e = Except.ok (h2, r2, rest2)) :
    parseTableLoop (k + 1) headers rws (Tok.startEl "tbody" [] :: X) e =
      parseTableLoop k h2 r2 rest2 e := by
  rw [parseTableLoop, if_pos rfl, hrun]

/-- The closing step of `parseTableLoop`. -/
theorem ptl_end (headers : List String) (rows : List Row) (k : Nat)
    (rest : List Tok) (e : Option String) :
    parseTableLoop (k + 1) headers rows (Tok.endEl "table" :: rest) e =
      Except.ok (headers, rows, rest) := by
  rw [parseTableLoop, if_pos rfl]

/-- `parseTable` inverts a rendered table on the representable
subset. -/
theorem run_parseTableP (headers : List String) (rows : List Row)
    (hh : ∀ h ∈ headers, TrimNorm h)
    (hrs : ∀ r ∈ rows, ∀ c ∈ r.cells, match c.mac with
      | none => TrimNorm c.text
      | some m => c.text = "" ∧ SubsetMacro m) :
    ∀ (fuel : Nat) (rest : List Tok) (e : Option String),
      (Tok.startEl "tbody" [] ::
        ((if headers.isEmpty then []
          else Tok.startEl "tr" [] :: (headers.flatMap thToks ++ [Tok.endEl "tr"])) ++
          (rows.flatMap rowToks ++
            Tok.endEl "tbody" :: Tok.endEl "table" :: rest))).length < fuel →
      parseTable fuel
          (Tok.startEl "tbody" [] ::
            ((if headers.isEmpty then []
              else Tok.startEl "tr" [] :: (headers.flatMap thToks ++ [Tok.endEl "tr"])) ++
              (rows.flatMap rowToks ++
                Tok.endEl "tbody" :: Tok.endEl "table" :: rest))) e =
        Except.ok (headers, rows, rest) := by
  intro fuel rest e hf
  rw [parseTable]
  by_cases hhe : headers.isEmpty
  · have hempty : headers = [] := by simpa using hhe
    rw [if_pos hhe] at hf ⊢
    rw [List.nil_append] at hf ⊢
    simp only [List.length_cons, List.length_append] at hf
    obtain ⟨k, rfl⟩ : ∃ k, fuel = k + 1 := ⟨fuel - 1, by omega⟩
    rw [ptl_step_tbody [] [] _ _ headers rows k e
      (by
        have h2 := run_tbodyRowsP rows hrs k [] [] (Tok.endEl "table" :: rest) e
          (by simp only [List.length_cons, List.length_append]; omega)
        rw [List.nil_append] at h2
        rw [h2, hempty])]
    obtain ⟨k2, rfl⟩ : ∃ k2, k = k2 + 1 := ⟨k - 1, by omega⟩
    rw [ptl_end]
  · have hbe : headers.isEmpty = false := by
      revert hhe
      cases headers.isEmpty <;> simp
    rw [if_neg hhe] at hf ⊢
    simp only [List.cons_append, List.append_assoc, List.nil_append] at hf ⊢
    simp only [List.length_cons, List.length_append] at hf
    obtain ⟨k, rfl⟩ : ∃ k, fuel = k + 1 := ⟨fuel - 1, by omega⟩
    obtain ⟨k2, rfl⟩ : ∃ k2, k = k2 + 1 := ⟨k - 1, by omega⟩
    rw [ptl_step_tbody [] [] _ _ headers rows (k2 + 1) e
      (by
        have hrow := run_thRowP headers hh k2 [] false
          (rows.flatMap rowToks ++ Tok.endEl "tbody" :: Tok.endEl "table" :: rest) e
          (by simp only [List.length_cons, List.length_append]; omega)
        rw [List.nil_append, hbe] at hrow
        rw [show (if false = true then false else true) = true from rfl] at hrow
        rw [ptb_step_tr k2 [] [] _ _ e _ true hrow,
          show addRow [] [] (⟨headers.map (fun h => (⟨h, none⟩ : Cell))⟩ : Row) true =
            (headers, ([] : List Row)) from by
              simp [addRow, List.map_map]
              exact List.map_id' headers]
        show parseTbody k2 headers []
            (rows.flatMap rowToks ++ Tok.endEl "tbody" :: Tok.endEl "table" :: rest) e =
          Except.ok (headers, rows, Tok.endEl "table" :: rest)
        rw [run_tbodyRowsP rows hrs k2 headers [] (Tok.endEl "table" :: rest) e
          (by simp only [List.length_cons, List.length_append]; omega)]
        rw [List.nil_append])]
    rw [ptl_end]

/-- One `li` step of `parseListLoop`. -/
theorem pll_step_li (et : String) (t : String) (k : Nat) (items : List ListItem)
    (rest2 : List Tok) (e : Option String)
    (hk : (textToks t ++ Tok.endEl "li" :: rest2).length < k) :
    parseListLoop (k + 1) et items
        (Tok.startEl "li" [] :: (textToks t ++ Tok.endEl "li" :: rest2)) e =
      parseListLoop k et (items ++ [⟨goTrimSpace (crNorm t)⟩]) rest2 e := by
  rw [parseListLoop, if_pos rfl, run_parseListItem t k rest2 e hk]

/-- The closing step of `parseListLoop`. -/
theorem pll_end (et : String) (items : List ListItem) (k : Nat)
    (rest : List Tok) (e : Option String) :
    parseListLoop (k + 1) et items (Tok.endEl et :: rest) e =
      Except.ok (items, rest) := by
  rw [parseListLoop, if_pos rfl]

/-- `parseListLoop` inverts a rendered item list on the representable
subset. -/
theorem run_listLoopP (items : List ListItem)
    (hits : ∀ i ∈ items, TrimNorm i.text) :
    ∀ (et : String) (fuel : Nat) (acc : List ListItem) (rest : List Tok)
      (e : Option String),
      (items.flatMap liToks ++ Tok.endEl et :: rest).length < fuel →
      parseListLoop fuel et acc (items.flatMap liToks ++ Tok.endEl et :: rest) e =
        Except.ok (acc ++ items, rest) := by
  induction items with
  | nil =>
    intro et fuel acc rest e hf
    rw [List.flatMap_nil, List.nil_append] at hf ⊢
    obtain ⟨k, rfl⟩ : ∃ k, fuel = k + 1 := ⟨fuel - 1, by omega⟩
    rw [pll_end]
    simp
  | cons it items2 ih =>
    intro et fuel acc rest e hf
    simp only [List.flatMap_cons, liToks, List.cons_append, List.nil_append,
      List.append_assoc] at hf ⊢
    simp only [List.length_cons, List.length_append] at hf
    obtain ⟨k, rfl⟩ : ∃ k, fuel = k + 1 := ⟨fuel - 1, by omega⟩
    rw [pll_step_li et it.text k acc _ e
      (by simp only [List.length_cons, List.length_append]; omega)]
    rw [show (⟨goTrimSpace (crNorm it.text)⟩ : ListItem) = it from by
      rw [hits it (by simp)]]
    rw [ih (fun i2 hi2 => hits i2 (List.mem_cons_of_mem _ hi2)) et k
      (acc ++ [it]) rest e
      (by simp only [List.length_cons, List.length_append]; omega)]
    simp [List.append_assoc]

/-- One dispatched-block step of `parsePage`, given the element's run. -/
theorem pp_step (n : String) (attrs : List (String × String)) (X rest2 : List Tok)
    (b : Block) (k : Nat) (blocks : List Block) (e : Option String)
    (hrun : parseElement k n attrs X e = Except.ok (some b, rest2)) :
    parsePage (k + 1) blocks (Tok.startEl n attrs :: X) e =
      parsePage k (blocks ++ [b]) rest2 e := by
  rw [parsePage, hrun]

/-- One blockless-element step of `parsePage`. -/
theorem pp_step_none (n : String) (attrs : List (String × String))
    (X rest2 : List Tok) (k : Nat) (blocks : List Block) (e : Option String)
    (hrun : parseElement k n attrs X e = Except.ok (none, rest2)) :
    parsePage (k + 1) blocks (Tok.startEl n attrs :: X) e =
      parsePage k blocks rest2 e := by
  rw [parsePage, hrun]

/-- `parsePage` skips end tags. -/
theorem pp_skip_end (n : String) (k : Nat) (blocks : List Block)
    (rest : List Tok) (e : Option String) :
    parsePage (k + 1) blocks (Tok.endEl n :: rest) e =
      parsePage k blocks rest e := by
  rw [parsePage]

/-- `parsePage` at a clean end of input. -/
theorem pp_done (k : Nat) (blocks : List Block) :
    parsePage (k + 1) blocks [] none = Except.ok blocks := by
  rw [parsePage]

/-- A string with a character is not empty. -/
theorem ne_empty_of_data (s : String) (h : s.data ≠ []) : s ≠ "" :=
  fun he => h (by rw [he])

/-- Appending on the right keeps character data non-empty. -/
theorem appL_ne (a b : String) (ha : a.data ≠ []) : (a ++ b).data ≠ [] := by
  rw [String.data_append]
  intro h2
  exact ha (List.append_eq_nil.mp h2).1

/-- Every successfully rendered block is a non-empty string. -/
theorem renderBlock_ne_empty (b : Block) (s1 : String)
    (h : RenderBlock b = Except.ok s1) : s1 ≠ "" := by
  match b with
  | Block.table headers rows =>
    rw [RenderBlock, renderTable] at h
    obtain rfl := Except.ok.inj h
    refine ne_empty_of_data _ ?_
    repeat apply appL_ne
    decide
  | Block.paragraph t =>
    rw [RenderBlock, renderParagraph] at h
    obtain rfl := Except.ok.inj h
    refine ne_empty_of_data _ ?_
    repeat apply appL_ne
    decide
  | Block.heading lv t =>
    rw [RenderBlock, renderHeading] at h
    split at h
    next => exact Except.noConfusion h
    next =>
      obtain rfl := Except.ok.inj h
      refine ne_empty_of_data _ ?_
      repeat apply appL_ne
      decide
  | Block.bulletList items =>
    rw [RenderBlock, renderBulletList] at h
    obtain rfl := Except.ok.inj h
    refine ne_empty_of_data _ ?_
    repeat apply appL_ne
    decide
  | Block.numberedList items =>
    rw [RenderBlock, renderNumberedList] at h
    obtain rfl := Except.ok.inj h
    refine ne_empty_of_data _ ?_
    repeat apply appL_ne
    decide
  | Block.macroBlk m =>
    rw [RenderBlock, RenderMacro, macroXhtml] at h
    obtain rfl := Except.ok.inj h
    refine ne_empty_of_data _ ?_
    repeat apply appL_ne
    decide
  | Block.codeBlock language code =>
    rw [RenderBlock, renderCodeBlock] at h
    obtain rfl := Except.ok.inj h
    refine ne_empty_of_data _ ?_
    repeat apply appL_ne
    decide
  | Block.horizontalRule =>
    rw [RenderBlock] at h
    obtain rfl := Except.ok.inj h
    exact ne_empty_of_data _ (by decide)

/-- A non-empty block list renders to a non-empty string. -/
theorem renderBlocks_ne_empty (bs : List Block) (hbs : bs ≠ []) (s : String)
    (h : renderBlocks bs = Except.ok s) : s ≠ "" := by
  match bs, hbs with
  | b :: bs2, _ =>
    rw [renderBlocks] at h
    split at h
    next => exact Except.noConfusion h
    next s1 hs1 =>
      split at h
      next => exact Except.noConfusion h
      next r hrr =>
        obtain rfl := Except.ok.inj h
        intro hempty
        apply renderBlock_ne_empty b s1 hs1
        have h3 : (s1 ++ r).data = [] := by rw [hempty]
        rw [String.data_append] at h3
        have h4 := (List.append_eq_nil.mp h3).1
        exact congrArg String.mk h4

/-- One rendered block's tokens step `parsePage` forward, continuation
style. -/
theorem run_blockP (b : Block) (hsb : SubsetBlock b)
    (hlv : ∀ lv t, b = Block.heading lv t → 1 ≤ lv ∧ lv ≤ 6) :
    ∀ (blocks : List Block) (tail : List Tok) (e : Option String)
      (res : Except String (List Block)),
      (∀ f, tail.length < f → parsePage f (blocks ++ [b]) tail e = res) →
      ∀ fuel, (blockToks b ++ tail).length < fuel →
      parsePage fuel blocks (blockToks b ++ tail) e = res := by
  match b with
  | Block.paragraph t =>
    intro blocks tail e res hcont fuel hf
    simp only [blockToks, List.cons_append, List.append_assoc,
      List.nil_append] at hf ⊢
    simp only [List.length_cons, List.length_append] at hf
    obtain ⟨k, rfl⟩ : ∃ k, fuel = k + 1 := ⟨fuel - 1, by omega⟩
    rw [pp_step "p" [] _ _ (Block.paragraph t) k blocks e
      (by
        rw [parseElement, run_parseParagraph t k tail e
          (by simp only [List.length_cons, List.length_append]; omega)]
        rw [show goTrimSpace (crNorm t) = t from hsb])]
    exact hcont k (by omega)
  | Block.heading lv t =>
    intro blocks tail e res hcont fuel hf
    obtain ⟨h1, h6⟩ := hlv lv t rfl
    rw [blockToks] at hf ⊢
    interval_cases lv
    · rw [show hTag 1 = "h1" from rfl] at hf ⊢
      simp only [List.cons_append, List.append_assoc, List.nil_append] at hf ⊢
      simp only [List.length_cons, List.length_append] at hf
      obtain ⟨k, rfl⟩ : ∃ k, fuel = k + 1 := ⟨fuel - 1, by omega⟩
      rw [pp_step "h1" [] _ _ (Block.heading 1 t) k blocks e
        (by
          rw [parseElement, run_parseHeadingLoop t "h1" (by decide) k tail e
            (by simp only [List.length_cons, List.length_append]; omega)]
          rw [show goTrimSpace (crNorm t) = t from hsb])]
      exact hcont k (by omega)
    · rw [show hTag 2 = "h2" from rfl] at hf ⊢
      simp only [List.cons_append, List.append_assoc, List.nil_append] at hf ⊢
      simp only [List.length_cons, List.length_append] at hf
      obtain ⟨k, rfl⟩ : ∃ k, fuel = k + 1 := ⟨fuel - 1, by omega⟩
      rw [pp_step "h2" [] _ _ (Block.heading 2 t) k blocks e
        (by
          rw [parseElement, run_parseHeadingLoop t "h2" (by decide) k tail e
            (by simp only [List.length_cons, List.length_append]; omega)]
          rw [show goTrimSpace (crNorm t) = t from hsb])]
      exact hcont k (by omega)
    · rw [show hTag 3 = "h3" from rfl] at hf ⊢
      simp only [List.cons_append, List.append_assoc, List.nil_append] at hf ⊢
      simp only [List.length_cons, List.length_append] at hf
      obtain ⟨k, rfl⟩ : ∃ k, fuel = k + 1 := ⟨fuel - 1, by omega⟩
      rw [pp_step "h3" [] _ _ (Block.heading 3 t) k blocks e
        (by
          rw [parseElement, run_parseHeadingLoop t "h3" (by decide) k tail e
            (by simp only [List.length_cons, List.length_append]; omega)]
          rw [show goTrimSpace (crNorm t) = t from hsb])]
      exact hcont k (by omega)
    · rw [show hTag 4 = "h4" from rfl] at hf ⊢
      simp only [List.cons_append, List.append_assoc, List.nil_append] at hf ⊢
      simp only [List.length_cons, List.length_append] at hf
      obtain ⟨k, rfl⟩ : ∃ k, fuel = k + 1 := ⟨fuel - 1, by omega⟩
      rw [pp_step "h4" [] _ _ (Block.heading 4 t) k blocks e
        (by
          rw [parseElement, run_parseHeadingLoop t "h4" (by decide) k tail e
            (by simp only [List.length_cons, List.length_append]; omega)]
          rw [show goTrimSpace (crNorm t) = t from hsb])]
      exact hcont k (by omega)
    · rw [show hTag 5 = "h5" from rfl] at hf ⊢
      simp only [List.cons_append, List.append_assoc, List.nil_append] at hf ⊢
      simp only [List.length_cons, List.length_append] at hf
      obtain ⟨k, rfl⟩ : ∃ k, fuel = k + 1 := ⟨fuel - 1, by omega⟩
      rw [pp_step "h5" [] _ _ (Block.heading 5 t) k blocks e
        (by
          rw [parseElement, run_parseHeadingLoop t "h5" (by decide) k tail e
            (by simp only [List.length_cons, List.length_append]; omega)]
          rw [show goTrimSpace (crNorm t) = t from hsb])]
      exact hcont k (by omega)
    · rw [show hTag 6 = "h6" from rfl] at hf ⊢
      simp only [List.cons_append, List.append_assoc, List.nil_append] at hf ⊢
      simp only [List.length_cons, List.length_append] at hf
      obtain ⟨k, rfl⟩ : ∃ k, fuel = k + 1 := ⟨fuel - 1, by omega⟩
      rw [pp_step "h6" [] _ _ (Block.heading 6 t) k blocks e
        (by
          rw [parseElement, run_parseHeadingLoop t "h6" (by decide) k tail e
            (by simp only [List.length_cons, List.length_append]; omega)]
          rw [show goTrimSpace (crNorm t) = t from hsb])]
      exact hcont k (by omega)
  | Block.bulletList items =>
    intro blocks tail e res hcont fuel hf
    simp only [blockToks, List.cons_append, List.append_assoc,
      List.nil_append] at hf ⊢
    simp only [List.length_cons, List.length_append] at hf
    obtain ⟨k, rfl⟩ : ∃ k, fuel = k + 1 := ⟨fuel - 1, by omega⟩
    rw [pp_step "ul" [] _ _ (Block.bulletList items) k blocks e
      (by
        rw [parseElement, run_listLoopP items hsb "ul" k [] tail e
          (by simp only [List.length_cons, List.length_append]; omega)]
        rw [List.nil_append])]
    exact hcont k (by omega)
  | Block.numberedList items =>
    intro blocks tail e res hcont fuel hf
    simp only [blockToks, List.cons_append, List.append_assoc,
      List.nil_append] at hf ⊢
    simp only [List.length_cons, List.length_append] at hf
    obtain ⟨k, rfl⟩ : ∃ k, fuel = k + 1 := ⟨fuel - 1, by omega⟩
    rw [pp_step "ol" [] _ _ (Block.numberedList items) k blocks e
      (by
        rw [parseElement, run_listLoopP items hsb "ol" k [] tail e
          (by simp only [List.length_cons, List.length_append]; omega)]
        rw [List.nil_append])]
    exact hcont k (by omega)
  | Block.macroBlk m =>
    intro blocks tail e res hcont fuel hf
    rw [show blockToks (Block.macroBlk m) = macroToks m from rfl] at hf ⊢
    simp only [macroToks, List.cons_append, List.append_assoc,
      List.nil_append] at hf ⊢
    simp only [List.length_cons, List.length_append] at hf
    obtain ⟨k, rfl⟩ : ∃ k, fuel = k + 1 := ⟨fuel - 1, by omega⟩
    rw [pp_step "structured-macro" [("name", crNorm m.name)] _ _
      (Block.macroBlk m) k blocks e
      (by
        rw [parseElement, run_parseMacro m hsb k tail e
          (by simp only [List.length_cons, List.length_append]; omega)])]
    exact hcont k (by omega)
  | Block.horizontalRule =>
    intro blocks tail e res hcont fuel hf
    simp only [blockToks, List.cons_append, List.nil_append] at hf ⊢
    simp only [List.length_cons] at hf
    obtain ⟨k, rfl⟩ : ∃ k, fuel = k + 1 := ⟨fuel - 1, by omega⟩
    obtain ⟨k2, rfl⟩ : ∃ k2, k = k2 + 1 := ⟨k - 1, by omega⟩
    rw [pp_step "hr" [] _ _ Block.horizontalRule (k2 + 1) blocks e rfl]
    rw [pp_skip_end]
    exact hcont k2 (by omega)
  | Block.table headers rows =>
    intro blocks tail e res hcont fuel hf
    obtain ⟨hh, hrs⟩ := hsb
    simp only [blockToks, List.cons_append, List.append_assoc,
      List.nil_append] at hf ⊢
    simp only [List.length_cons, List.length_append] at hf
    obtain ⟨k, rfl⟩ : ∃ k, fuel = k + 1 := ⟨fuel - 1, by omega⟩
    rw [pp_step "table" [] _ _ (Block.table headers rows) k blocks e
      (by
        rw [parseElement, run_parseTableP headers rows hh hrs k tail e
          (by simp only [List.length_cons, List.length_append]; omega)])]
    exact hcont k (by omega)
  | Block.codeBlock language code =>
    intro blocks tail e res hcont fuel hf
    exact False.elim hsb

/-- `parsePage` inverts a rendered block list on the representable
subset (clean token stream, `root` end tag closing the wrapper). -/
theorem run_parsePage (bs : List Block) (hsb : ∀ b ∈ bs, SubsetBlock b)
    (hlv : ∀ b ∈ bs, ∀ lv t, b = Block.heading lv t → 1 ≤ lv ∧ lv ≤ 6) :
    ∀ (blocks : List Block) (fuel : Nat),
      (bs.flatMap blockToks ++ [Tok.endEl "root"]).length < fuel →
      parsePage fuel blocks (bs.flatMap blockToks ++ [Tok.endEl "root"]) none =
        Except.ok (blocks ++ bs) := by
  induction bs with
  | nil =>
    intro blocks fuel hf
    rw [List.flatMap_nil, List.nil_append] at hf ⊢
    simp only [List.length_cons, List.length_nil] at hf
    obtain ⟨k, rfl⟩ : ∃ k, fuel = k + 1 := ⟨fuel - 1, by omega⟩
    obtain ⟨k2, rfl⟩ : ∃ k2, k = k2 + 1 := ⟨k - 1, by omega⟩
    rw [pp_skip_end, pp_done]
    simp
  | cons b bs2 ih =>
    intro blocks fuel hf
    rw [List.flatMap_cons, List.append_assoc] at hf ⊢
    refine run_blockP b (hsb b (by simp))
      (fun lv t hb => hlv b (by simp) lv t hb)
      blocks _ none (Except.ok (blocks ++ b :: bs2)) ?_ fuel hf
    intro f hfl
    rw [ih (fun b2 hb2 => hsb b2 (List.mem_cons_of_mem _ hb2))
      (fun b2 hb2 => hlv b2 (List.mem_cons_of_mem _ hb2)) (blocks ++ [b]) f hfl]
    simp

/-- Claim C2 (amended): on the representable subset — texts, cell
texts, item texts and header texts trim- and CR-normalization-stable;
macro names and parameter keys normalization-free, keys non-empty and
pairwise distinct, values and bodies trim-stable; macro bodies free of
markup characters; macro-carrying cells with empty text; no code
blocks — a successful rendering parses back to the very same page, so
re-rendering it reproduces the first rendering byte for byte. -/
theorem round_trip_amended (p : Page) (hg : ∀ b ∈ p.blocks, GoodBlock b)
    (hsb : ∀ b ∈ p.blocks, SubsetBlock b) (s : String)
    (hr : Render p = Except.ok s) :
    Parse s = Except.ok p := by
  by_cases hbs : p.blocks = []
  · have hs : s = "" := by
      rw [Render, hbs] at hr
      have h2 : Except.ok "" = Except.ok s := hr
      exact (Except.ok.inj h2).symm
    rw [hs, Parse, if_pos rfl]
    rw [show (⟨[]⟩ : Page) = p from by rw [← hbs]]
  · have hsne : s ≠ "" :=
      renderBlocks_ne_empty p.blocks hbs s (by rw [Render] at hr; exact hr)
    rw [Parse, if_neg hsne]
    show (match parsePage ((xmlTokens s).1.length + 1) [] (xmlTokens s).1
        (xmlTokens s).2 with
      | Except.error msg => Except.error msg
      | Except.ok blocks => Except.ok ⟨blocks⟩) = Except.ok p
    rw [xmlTokens_render p hg s hr]
    show (match parsePage
        ((Tok.startEl "root" [("ac", "http://atlassian.com/confluence"),
            ("ri", "http://atlassian.com/confluence")] ::
          (p.blocks.flatMap blockToks ++ [Tok.endEl "root"])).length + 1) []
        (Tok.startEl "root" [("ac", "http://atlassian.com/confluence"),
            ("ri", "http://atlassian.com/confluence")] ::
          (p.blocks.flatMap blockToks ++ [Tok.endEl "root"])) none with
      | Except.error msg => Except.error msg
      | Except.ok blocks => Except.ok ⟨blocks⟩) = Except.ok p
    rw [show (Tok.startEl "root" [("ac", "http://atlassian.com/confluence"),
            ("ri", "http://atlassian.com/confluence")] ::
          (p.blocks.flatMap blockToks ++ [Tok.endEl "root"])).length + 1 =
        ((p.blocks.flatMap blockToks ++ [Tok.endEl "root"]).length + 1) + 1 from by
      simp]
    rw [pp_step_none "root" _ _ _ _ [] none rfl]
    rw [run_parsePage p.blocks hsb
      (renderBlocks_heading_bounds p.blocks s (by rw [Render] at hr; exact hr))
      [] ((p.blocks.flatMap blockToks ++ [Tok.endEl "root"]).length + 1)
      (Nat.lt_succ_self _)]
    rw [List.nil_append]

/-- Witness for the amended C2 round trip on a concrete page. -/
theorem round_trip_amended_witness :
    Render ⟨[Block.heading 2 "Title",
        Block.table ["H"] [⟨[⟨"a", none⟩]⟩],
        Block.macroBlk ⟨"info", [("k", "v")], "note"⟩]⟩ =
      Except.ok "<h2>Title</h2><table><tbody><tr><th>H</th></tr><tr><td>a</td></tr></tbody></table><ac:structured-macro ac:name=\"info\"><ac:parameter ac:name=\"k\">v</ac:parameter><ac:rich-text-body>note</ac:rich-text-body></ac:structured-macro>" ∧
    Parse "<h2>Title</h2><table><tbody><tr><th>H</th></tr><tr><td>a</td></tr></tbody></table><ac:structured-macro ac:name=\"info\"><ac:parameter ac:name=\"k\">v</ac:parameter><ac:rich-text-body>note</ac:rich-text-body></ac:structured-macro>" =
      Except.ok ⟨[Block.heading 2 "Title",
        Block.table ["H"] [⟨[⟨"a", none⟩]⟩],
        Block.macroBlk ⟨"info", [("k", "v")], "note"⟩]⟩ := by
  refine ⟨rfl, ?_⟩
  refine round_trip_amended _ ?_ ?_ _ rfl
  · intro b hb
    simp only [List.mem_cons, List.not_mem_nil, or_false] at hb
    rcases hb with rfl | rfl | rfl
    · exact trivial
    · intro r hr c hc
      simp only [List.mem_cons, List.not_mem_nil, or_false] at hr
      subst hr
      simp only [List.mem_cons, List.not_mem_nil, or_false] at hc
      subst hc
      exact trivial
    · intro hne
      exact ⟨by decide, by decide, by decide, by decide⟩
  · intro b hb
    simp only [List.mem_cons, List.not_mem_nil, or_false] at hb
    rcases hb with rfl | rfl | rfl
    · exact rfl
    · refine ⟨?_, ?_⟩
      · intro h hh
        simp only [List.mem_cons, List.not_mem_nil, or_false] at hh
        subst hh
        exact rfl
      · intro r hr c hc
        simp only [List.mem_cons, List.not_mem_nil, or_false] at hr
        subst hr
        simp only [List.mem_cons, List.not_mem_nil, or_false] at hc
        subst hc
        exact rfl
    · refine ⟨rfl, ?_, ?_, rfl⟩
      · exact List.pairwise_singleton _ _
      · intro q hq
        simp only [List.mem_cons, List.not_mem_nil, or_false] at hq
        subst hq
        exact ⟨by decide, rfl, rfl⟩

/-! ### Balance of the token stream (claim C9) -/

/-- Run a token list against a stack of open (local) element names:
start tags push, end tags must match the top and pop. -/
def stkRun : List Tok → List String → Option (List String)
  | [], stk => some stk
  | Tok.startEl n _ :: ts, stk => stkRun ts (n :: stk)
  | Tok.endEl n :: ts, stk =>
    match stk with
    | [] => none
    | top :: stk2 => if n = top then stkRun ts stk2 else none
  | Tok.charData _ :: ts, stk => stkRun ts stk

/-- `stkRun` over an append composes. -/
theorem stkRun_append (ts1 : List Tok) :
    ∀ (ts2 : List Tok) (S : List String),
      stkRun (ts1 ++ ts2) S =
        (match stkRun ts1 S with
         | some S2 => stkRun ts2 S2
         | none => none) := by
  induction ts1 with
  | nil => intro ts2 S; rfl
  | cons t ts ih =>
    intro ts2 S
    match t with
    | Tok.startEl n a =>
      rw [List.cons_append]
      rw [show stkRun (Tok.startEl n a :: (ts ++ ts2)) S =
        stkRun (ts ++ ts2) (n :: S) from rfl]
      rw [show stkRun (Tok.startEl n a :: ts) S = stkRun ts (n :: S) from rfl]
      exact ih ts2 (n :: S)
    | Tok.charData x =>
      rw [List.cons_append]
      rw [show stkRun (Tok.charData x :: (ts ++ ts2)) S =
        stkRun (ts ++ ts2) S from rfl]
      rw [show stkRun (Tok.charData x :: ts) S = stkRun ts S from rfl]
      exact ih ts2 S
    | Tok.endEl n =>
      rw [List.cons_append]
      match S with
      | [] => rfl
      | top :: S2 =>
        by_cases hn : n = top
        · rw [show stkRun (Tok.endEl n :: (ts ++ ts2)) (top :: S2) =
            (if n = top then stkRun (ts ++ ts2) S2 else none) from rfl, if_pos hn]
          rw [show stkRun (Tok.endEl n :: ts) (top :: S2) =
            (if n = top then stkRun ts S2 else none) from rfl, if_pos hn]
          exact ih ts2 S2
        · rw [show stkRun (Tok.endEl n :: (ts ++ ts2)) (top :: S2) =
            (if n = top then stkRun (ts ++ ts2) S2 else none) from rfl, if_neg hn]
          rw [show stkRun (Tok.endEl n :: ts) (top :: S2) =
            (if n = top then stkRun ts S2 else none) from rfl, if_neg hn]

/-- Appending a start token to a run pushes its name. -/
theorem stkRun_snoc_start (out : List Tok) (n : String)
    (a : List (String × String)) (S S2 : List String)
    (h : stkRun out S = some S2) :
    stkRun (out ++ [Tok.startEl n a]) S = some (n :: S2) := by
  rw [stkRun_append, h]
  rfl

/-- Appending a matching end token pops the top name. -/
theorem stkRun_snoc_end (out : List Tok) (n : String) (S S2 : List String)
    (h : stkRun out S = some (n :: S2)) :
    stkRun (out ++ [Tok.endEl n]) S = some S2 := by
  rw [stkRun_append, h]
  show (if n = n then some S2 else none) = some S2
  rw [if_pos rfl]

/-- Appending character data leaves the run alone. -/
theorem stkRun_snoc_char (out : List Tok) (x : String) (S S2 : List String)
    (h : stkRun out S = some S2) :
    stkRun (out ++ [Tok.charData x]) S = some S2 := by
  rw [stkRun_append, h]
  rfl

/-- The balance invariant of one tokenizer state. -/
def TkBal (st : TkSt) : Prop :=
  st.err = none → stkRun st.out.reverse [] = some (st.stk.map localName)

/-- `flushText` does not disturb the run. -/
theorem stkRun_flushText (acc : List Char) (out : List Tok) (S : List String) :
    stkRun (flushText acc out).reverse S = stkRun out.reverse S := by
  rw [flushText]
  by_cases ha : acc = []
  · rw [if_pos ha]
  · rw [if_neg ha, List.reverse_cons, stkRun_append]
    cases h2 : stkRun out.reverse S with
    | none => rfl
    | some S2 => rfl

/-- `pushStart` keeps the invariant. -/
theorem pushStart_inv (stk : List String) (out : List Tok) (nm : List Char)
    (attrs : List (String × String))
    (hrun : stkRun out.reverse [] = some (stk.map localName)) :
    TkBal (pushStart stk out nm attrs) := by
  intro _
  rw [pushStart]
  show stkRun (Tok.startEl (localName ⟨nm⟩) attrs :: out).reverse [] =
    some (((⟨nm⟩ : String) :: stk).map localName)
  rw [List.reverse_cons, List.map_cons]
  exact stkRun_snoc_start out.reverse _ attrs [] _ hrun

/-- `closeAct` keeps the invariant. -/
theorem closeAct_inv (stk : List String) (out : List Tok) (nm : List Char)
    (hrun : stkRun out.reverse [] = some (stk.map localName)) :
    TkBal (closeAct stk out nm) := by
  match stk with
  | [] =>
    intro h2
    exact absurd h2 (by intro h3; exact Option.noConfusion h3)
  | top :: rest =>
    rw [show closeAct (top :: rest) out nm =
      (if (⟨nm⟩ : String) = top then
        (⟨TkMode.text [], rest, Tok.endEl (localName top) :: out, none⟩ : TkSt)
      else tkFail (top :: rest) out "mismatched end element") from rfl]
    by_cases hn : (⟨nm⟩ : String) = top
    · rw [if_pos hn]
      intro _
      show stkRun (Tok.endEl (localName top) :: out).reverse [] =
        some (rest.map localName)
      rw [List.reverse_cons]
      refine stkRun_snoc_end out.reverse _ [] _ ?_
      rw [hrun, List.map_cons]
    · rw [if_neg hn]
      intro h2
      exact absurd h2 (by rw [tkFail]; intro h3; exact Option.noConfusion h3)

/-- A `tkFail` state satisfies the invariant vacuously. -/
theorem tkFail_inv (stk : List String) (out : List Tok) (msg : String) :
    TkBal (tkFail stk out msg) := by
  intro h2
  exact absurd h2 (by rw [tkFail]; intro h3; exact Option.noConfusion h3)

/-- States that only change the mode keep the invariant. -/
theorem same_inv (m2 : TkMode) (stk : List String) (out : List Tok)
    (hrun : stkRun out.reverse [] = some (stk.map localName)) :
    TkBal ⟨m2, stk, out, none⟩ :=
  fun _ => hrun

/-- Flushing text keeps the invariant. -/
theorem flushText_inv (m2 : TkMode) (stk : List String) (out : List Tok)
    (acc : List Char)
    (hrun : stkRun out.reverse [] = some (stk.map localName)) :
    TkBal ⟨m2, stk, flushText acc out, none⟩ := by
  intro _
  show stkRun (flushText acc out).reverse [] = some (stk.map localName)
  rw [stkRun_flushText]
  exact hrun

/-- A self-closing tag emits a balanced start/end pair. -/
theorem selfclose_inv (stk : List String) (out : List Tok) (nm : List Char)
    (attrs : List (String × String))
    (hrun : stkRun out.reverse [] = some (stk.map localName)) :
    TkBal ⟨TkMode.text [], stk,
      Tok.endEl (localName ⟨nm⟩) :: Tok.startEl (localName ⟨nm⟩) attrs :: out,
      none⟩ := by
  intro _
  show stkRun (Tok.endEl (localName ⟨nm⟩) ::
    Tok.startEl (localName ⟨nm⟩) attrs :: out).reverse [] =
    some (stk.map localName)
  rw [List.reverse_cons, List.reverse_cons]
  refine stkRun_snoc_end _ _ [] _ ?_
  exact stkRun_snoc_start out.reverse _ _ [] _ hrun

/-- Emitting a CDATA text token keeps the invariant. -/
theorem chardata_inv (stk : List String) (out : List Tok) (x : String)
    (hrun : stkRun out.reverse [] = some (stk.map localName)) :
    TkBal ⟨TkMode.text [], stk, Tok.charData x :: out, none⟩ := by
  intro _
  show stkRun (Tok.charData x :: out).reverse [] = some (stk.map localName)
  rw [List.reverse_cons]
  exact stkRun_snoc_char out.reverse x [] _ hrun

/-- One tokenizer step preserves the balance invariant. -/
theorem tokStep_inv (st : TkSt) (c : Char) (h : TkBal st) :
    TkBal (tokStep st c) := by
  obtain ⟨mode, stk, out, err⟩ := st
  match err with
  | some e => exact h
  | none =>
    have hrun : stkRun out.reverse [] = some (stk.map localName) := h rfl
    clear h
    cases mode <;>
      simp only [tokStep, stepText, stepAttrVal, stepCData] <;>
      (repeat' split) <;>
      first
        | exact tkFail_inv _ _ _
        | exact pushStart_inv _ _ _ _ hrun
        | exact closeAct_inv _ _ _ hrun
        | exact selfclose_inv _ _ _ _ hrun
        | exact chardata_inv _ _ _ hrun
        | exact flushText_inv _ _ _ _ hrun
        | exact same_inv _ _ _ hrun

/-- The balance invariant survives any input fold. -/
theorem tokSteps_inv (l : List Char) :
    ∀ (st : TkSt), TkBal st → TkBal (tokSteps l st) := by
  induction l with
  | nil => intro st h; exact h
  | cons c l ih =>
    intro st h
    exact ih (tokStep st c) (tokStep_inv st c h)

/-- A clean tokenization yields a balanced token stream. -/
theorem xmlTokens_balanced (s : String) (toks : List Tok)
    (h : xmlTokens s = (toks, none)) : stkRun toks [] = some [] := by
  rw [xmlTokens] at h
  have hb : TkBal (tokSteps (rootOpen ++ s ++ rootClose).data initSt) :=
    tokSteps_inv _ initSt (fun _ => rfl)
  revert h hb
  generalize tokSteps (rootOpen ++ s ++ rootClose).data initSt = st
  obtain ⟨mode, stk, out, err⟩ := st
  intro h hb
  match err with
  | some e =>
    have h2 : ((out.reverse : List Tok), some e) = (toks, none) := h
    exact absurd (congrArg Prod.snd h2) (by simp)
  | none =>
    have hrun : stkRun out.reverse [] = some (stk.map localName) := hb rfl
    cases mode
    case text acc =>
      have h2 : (if stk.isEmpty = true
          then ((flushText acc out).reverse, (none : Option String))
          else ((flushText acc out).reverse, some "unexpected EOF")) =
          (toks, none) := h
      by_cases hstk : stk.isEmpty
      · rw [if_pos hstk] at h2
        have htoks : (flushText acc out).reverse = toks := congrArg Prod.fst h2
        have hstk2 : stk = [] := by simpa using hstk
        rw [← htoks, stkRun_flushText, hrun, hstk2]
        rfl
      · rw [if_neg hstk] at h2
        exact absurd (congrArg Prod.snd h2) (by simp)
    all_goals
      exact absurd (congrArg Prod.snd
        (show ((out.reverse : List Tok), (some "unexpected EOF" : Option String)) =
          (toks, none) from h)) (by simp)

/-- `dropWhile` is idempotent. -/
theorem dropWhile_dropWhile {α : Type} (p : α → Bool) (l : List α) :
    (l.dropWhile p).dropWhile p = l.dropWhile p := by
  induction l with
  | nil => rfl
  | cons a l ih =>
    by_cases h : p a
    · rw [List.dropWhile_cons_of_pos h, ih]
    · rw [List.dropWhile_cons_of_neg h, List.dropWhile_cons_of_neg h]

/-- The head surviving a `dropWhile` fails the predicate. -/
theorem head_dropWhile_false {α : Type} (p : α → Bool) (l : List α) :
    ∀ (x : α) (xs : List α), l.dropWhile p = x :: xs → p x = false := by
  induction l with
  | nil => intro x xs h; exact absurd h (by simp)
  | cons a l ih =>
    intro x xs h
    by_cases ha : p a
    · rw [List.dropWhile_cons_of_pos ha] at h
      exact ih x xs h
    · rw [List.dropWhile_cons_of_neg ha] at h
      obtain ⟨h1, _⟩ := List.cons.inj h
      rw [← h1]
      exact Bool.eq_false_iff.mpr ha

/-- The first character of a trim result is not whitespace. -/
theorem trim_head_false (l : List Char) (x : Char) (xs : List Char)
    (h : goTrimChars l = x :: xs) : goIsSpace x = false := by
  rw [goTrimChars] at h
  have hsplit := List.takeWhile_append_dropWhile
    (p := goIsSpace) (l := (l.dropWhile goIsSpace).reverse)
  have hrev := congrArg List.reverse hsplit
  rw [List.reverse_append, List.reverse_reverse, h] at hrev
  exact head_dropWhile_false goIsSpace l x _ (by rw [← hrev]; rfl)

/-- `goTrimChars` is idempotent. -/
theorem goTrimChars_idem (l : List Char) :
    goTrimChars (goTrimChars l) = goTrimChars l := by
  have h1 : (goTrimChars l).dropWhile goIsSpace = goTrimChars l := by
    cases hc : goTrimChars l with
    | nil => rfl
    | cons x xs =>
      rw [List.dropWhile_cons_of_neg (by simp [trim_head_false l x xs hc])]
  have h2 : (goTrimChars l).reverse.dropWhile goIsSpace = (goTrimChars l).reverse := by
    rw [goTrimChars, List.reverse_reverse]
    exact dropWhile_dropWhile _ _
  rw [show goTrimChars (goTrimChars l) =
    (((goTrimChars l).dropWhile goIsSpace).reverse.dropWhile goIsSpace).reverse
    from rfl]
  rw [h1, h2, List.reverse_reverse]

/-- `goTrimSpace` is idempotent. -/
theorem goTrimSpace_idem (s : String) :
    goTrimSpace (goTrimSpace s) = goTrimSpace s := by
  show (⟨goTrimChars (goTrimChars s.data)⟩ : String) = ⟨goTrimChars s.data⟩
  rw [goTrimChars_idem]

/-- `skipElement` on a balanced stream lands after the matching end
tag. -/
theorem skip_inv :
    ∀ (fuel : Nat) (depth : Nat) (ts : List Tok) (e : Option String)
      (S1 S2 : List String), S1.length = depth →
      stkRun ts (S1 ++ S2) = some [] →
      ∀ rest2, skipElement fuel depth ts e = Except.ok rest2 →
      stkRun rest2 S2 = some [] := by
  intro fuel
  induction fuel with
  | zero =>
    intro depth ts e S1 S2 _ _ rest2 hok
    exact Except.noConfusion hok
  | succ fuel ih =>
    intro depth ts e S1 S2 hlen hS rest2 hok
    match ts, hS, hok with
    | [], hS, hok =>
      match e, hok with
      | some m, hok =>
        rw [skipElement] at hok
        by_cases hd : depth = 0
        · rw [if_pos hd] at hok
          obtain rfl := Except.ok.inj hok
          have h1 : S1 = [] := List.length_eq_zero.mp (by rw [hlen, hd])
          rw [h1, List.nil_append] at hS
          exact hS
        · rw [if_neg hd] at hok
          exact Except.noConfusion hok
      | none, hok =>
        rw [skipElement] at hok
        by_cases hd : depth = 0
        · rw [if_pos hd] at hok
          obtain rfl := Except.ok.inj hok
          have h1 : S1 = [] := List.length_eq_zero.mp (by rw [hlen, hd])
          rw [h1, List.nil_append] at hS
          exact hS
        · have h2 : S1 ++ S2 = [] := Option.some.inj hS
          obtain ⟨hS1, _⟩ := List.append_eq_nil.mp h2
          exact absurd (by rw [← hlen, hS1]; rfl) hd
    | Tok.startEl n a :: rest, hS, hok =>
      rw [skipElement] at hok
      by_cases hd : depth = 0
      · rw [if_pos hd] at hok
        obtain rfl := Except.ok.inj hok
        have h1 : S1 = [] := List.length_eq_zero.mp (by rw [hlen, hd])
        rwa [h1, List.nil_append] at hS
      · rw [if_neg hd] at hok
        exact ih (depth + 1) rest e (n :: S1) S2 (by simp [hlen]) hS rest2 hok
    | Tok.endEl n :: rest, hS, hok =>
      rw [skipElement] at hok
      by_cases hd : depth = 0
      · rw [if_pos hd] at hok
        obtain rfl := Except.ok.inj hok
        have h1 : S1 = [] := List.length_eq_zero.mp (by rw [hlen, hd])
        rwa [h1, List.nil_append] at hS
      · rw [if_neg hd] at hok
        match S1, hlen with
        | [], hlen => exact absurd hlen.symm hd
        | s1 :: S1t, hlen =>
          have hS2 : (if n = s1 then stkRun rest (S1t ++ S2) else none) = some [] := hS
          by_cases hn : n = s1
          · rw [if_pos hn] at hS2
            exact ih (depth - 1) rest e S1t S2
              (by simp only [List.length_cons] at hlen; omega) hS2 rest2 hok
          · rw [if_neg hn] at hS2
            exact Option.noConfusion hS2
    | Tok.charData x :: rest, hS, hok =>
      rw [skipElement] at hok
      by_cases hd : depth = 0
      · rw [if_pos hd] at hok
        obtain rfl := Except.ok.inj hok
        have h1 : S1 = [] := List.length_eq_zero.mp (by rw [hlen, hd])
        rwa [h1, List.nil_append] at hS
      · rw [if_neg hd] at hok
        exact ih depth rest e S1 S2 hlen hS rest2 hok

/-- `extractNestedText` on a balanced stream lands after the matching
end tag. -/
theorem ent_inv :
    ∀ (fuel : Nat) (depth : Nat) (acc : List Char) (ts : List Tok)
      (e : Option String) (S1 S2 : List String), S1.length = depth →
      stkRun ts (S1 ++ S2) = some [] →
      ∀ v rest2, extractNestedText fuel depth acc ts e = Except.ok (v, rest2) →
      stkRun rest2 S2 = some [] := by
  intro fuel
  induction fuel with
  | zero =>
    intro depth acc ts e S1 S2 _ _ v rest2 hok
    exact Except.noConfusion hok
  | succ fuel ih =>
    intro depth acc ts e S1 S2 hlen hS v rest2 hok
    match ts, hS, hok with
    | [], hS, hok =>
      match e, hok with
      | some m, hok =>
        rw [extractNestedText] at hok
        by_cases hd : depth = 0
        · rw [if_pos hd] at hok
          obtain ⟨_, hr⟩ := Prod.mk.inj (Except.ok.inj hok)
          have h1 : S1 = [] := List.length_eq_zero.mp (by rw [hlen, hd])
          rw [h1, List.nil_append] at hS
          rw [← hr]
          exact hS
        · rw [if_neg hd] at hok
          exact Except.noConfusion hok
      | none, hok =>
        rw [extractNestedText] at hok
        by_cases hd : depth = 0
        · rw [if_pos hd] at hok
          obtain ⟨_, hr⟩ := Prod.mk.inj (Except.ok.inj hok)
          have h1 : S1 = [] := List.length_eq_zero.mp (by rw [hlen, hd])
          rw [h1, List.nil_append] at hS
          rw [← hr]
          exact hS
        · have h2 : S1 ++ S2 = [] := Option.some.inj hS
          obtain ⟨hS1, _⟩ := List.append_eq_nil.mp h2
          exact absurd (by rw [← hlen, hS1]; rfl) hd
    | Tok.charData x :: rest, hS, hok =>
      rw [extractNestedText] at hok
      by_cases hd : depth = 0
      · rw [if_pos hd] at hok
        obtain ⟨_, hr⟩ := Prod.mk.inj (Except.ok.inj hok)
        have h1 : S1 = [] := List.length_eq_zero.mp (by rw [hlen, hd])
        rw [← hr]
        rwa [h1, List.nil_append] at hS
      · rw [if_neg hd] at hok
        exact ih depth _ rest e S1 S2 hlen hS v rest2 hok
    | Tok.startEl n a :: rest, hS, hok =>
      rw [extractNestedText] at hok
      by_cases hd : depth = 0
      · rw [if_pos hd] at hok
        obtain ⟨_, hr⟩ := Prod.mk.inj (Except.ok.inj hok)
        have h1 : S1 = [] := List.length_eq_zero.mp (by rw [hlen, hd])
        rw [← hr]
        rwa [h1, List.nil_append] at hS
      · rw [if_neg hd] at hok
        exact ih (depth + 1) acc rest e (n :: S1) S2 (by simp [hlen]) hS v rest2 hok
    | Tok.endEl n :: rest, hS, hok =>
      rw [extractNestedText] at hok
      by_cases hd : depth = 0
      · rw [if_pos hd] at hok
        obtain ⟨_, hr⟩ := Prod.mk.inj (Except.ok.inj hok)
        have h1 : S1 = [] := List.length_eq_zero.mp (by rw [hlen, hd])
        rw [← hr]
        rwa [h1, List.nil_append] at hS
      · rw [if_neg hd] at hok
        match S1, hlen with
        | [], hlen => exact absurd hlen.symm hd
        | s1 :: S1t, hlen =>
          have hS2 : (if n = s1 then stkRun rest (S1t ++ S2) else none) = some [] := hS
          by_cases hn : n = s1
          · rw [if_pos hn] at hS2
            exact ih (depth - 1) acc rest e S1t S2
              (by simp only [List.length_cons] at hlen; omega) hS2 v rest2 hok
          · rw [if_neg hn] at hS2
            exact Option.noConfusion hS2

/-- `parseTextContent` on a balanced stream lands after the matching
end tag. -/
theorem ptc_inv :
    ∀ (fuel : Nat) (endTag : String) (acc : List Char) (ts : List Tok)
      (e : Option String) (S : List String),
      stkRun ts (endTag :: S) = some [] →
      ∀ v rest2, parseTextContent fuel endTag acc ts e = Except.ok (v, rest2) →
      stkRun rest2 S = some [] := by
  intro fuel
  induction fuel with
  | zero =>
    intro _ _ _ _ _ _ _ _ hok
    exact Except.noConfusion hok
  | succ fuel ih =>
    intro endTag acc ts e S hS v rest2 hok
    match ts, hS, hok with
    | [], hS, hok =>
      exact absurd (Option.some.inj hS) (by simp)
    | Tok.charData x :: rest, hS, hok =>
      rw [parseTextContent] at hok
      exact ih endTag _ rest e S hS v rest2 hok
    | Tok.endEl n :: rest, hS, hok =>
      rw [parseTextContent] at hok
      have hS2 : (if n = endTag then stkRun rest S else none) = some [] := hS
      by_cases hn : n = endTag
      · rw [if_pos hn] at hok hS2
        obtain ⟨_, hr⟩ := Prod.mk.inj (Except.ok.inj hok)
        rw [← hr]
        exact hS2
      · rw [if_neg hn] at hS2
        exact Option.noConfusion hS2
    | Tok.startEl n a :: rest, hS, hok =>
      rw [parseTextContent] at hok
      cases hskip : skipElement fuel 1 rest e with
      | error m =>
        rw [hskip] at hok
        exact Except.noConfusion hok
      | ok rest3 =>
        rw [hskip] at hok
        have hS3 : stkRun rest3 (endTag :: S) = some [] :=
          skip_inv fuel 1 rest e [n] (endTag :: S) rfl hS rest3 hskip
        exact ih endTag acc rest3 e S hS3 v rest2 hok

/-- `parseMacroLoop` on a balanced stream lands after the macro's end
tag. -/
theorem pml_inv :
    ∀ (fuel : Nat) (m : Macro) (ts : List Tok) (e : Option String)
      (S : List String),
      stkRun ts ("structured-macro" :: S) = some [] →
      ∀ m2 rest2, parseMacroLoop fuel m ts e = Except.ok (m2, rest2) →
      stkRun rest2 S = some [] := by
  intro fuel
  induction fuel with
  | zero =>
    intro _ _ _ _ _ _ _ hok
    exact Except.noConfusion hok
  | succ fuel ih =>
    intro m ts e S hS m2 rest2 hok
    match ts, hS, hok with
    | [], hS, hok =>
      exact absurd (Option.some.inj hS) (by simp)
    | Tok.charData x :: rest, hS, hok =>
      rw [parseMacroLoop] at hok
      exact ih m rest e S hS m2 rest2 hok
    | Tok.endEl n :: rest, hS, hok =>
      rw [parseMacroLoop] at hok
      have hS2 : (if n = "structured-macro" then stkRun rest S else none) =
        some [] := hS
      by_cases hn : n = "structured-macro"
      · rw [if_pos hn] at hok hS2
        obtain ⟨_, hr⟩ := Prod.mk.inj (Except.ok.inj hok)
        rw [← hr]
        exact hS2
      · rw [if_neg hn] at hS2
        exact Option.noConfusion hS2
    | Tok.startEl n a :: rest, hS, hok =>
      rw [parseMacroLoop] at hok
      by_cases h1 : n = "parameter"
      · rw [if_pos h1] at hok
        cases hptc : parseTextContent fuel "parameter" [] rest e with
        | error m3 =>
          rw [hptc] at hok
          exact Except.noConfusion hok
        | ok pr =>
          obtain ⟨value, rest3⟩ := pr
          rw [hptc] at hok
          have hS3 : stkRun rest3 ("structured-macro" :: S) = some [] :=
            ptc_inv fuel "parameter" [] rest e _ (by rw [← h1]; exact hS)
              value rest3 hptc
          have hok2 : (if lastNameAttr a = "" then parseMacroLoop fuel m rest3 e
              else parseMacroLoop fuel
                ⟨m.name, mapPut m.params (lastNameAttr a) value, m.body⟩ rest3 e) =
              Except.ok (m2, rest2) := hok
          by_cases h2 : lastNameAttr a = ""
          · rw [if_pos h2] at hok2
            exact ih m rest3 e S hS3 m2 rest2 hok2
          · rw [if_neg h2] at hok2
            exact ih _ rest3 e S hS3 m2 rest2 hok2
      · rw [if_neg h1] at hok
        by_cases h2 : n = "rich-text-body" ∨ n = "plain-text-body"
        · rw [if_pos h2] at hok
          cases hptc : parseTextContent fuel n [] rest e with
          | error m3 =>
            rw [hptc] at hok
            exact Except.noConfusion hok
          | ok pr =>
            obtain ⟨body, rest3⟩ := pr
            rw [hptc] at hok
            have hS3 : stkRun rest3 ("structured-macro" :: S) = some [] :=
              ptc_inv fuel n [] rest e _ hS body rest3 hptc
            exact ih _ rest3 e S hS3 m2 rest2 hok
        · rw [if_neg h2] at hok
          cases hskip : skipElement fuel 1 rest e with
          | error m3 =>
            rw [hskip] at hok
            exact Except.noConfusion hok
          | ok rest3 =>
            rw [hskip] at hok
            have hS3 : stkRun rest3 ("structured-macro" :: S) = some [] :=
              skip_inv fuel 1 rest e [n] _ rfl hS rest3 hskip
            exact ih m rest3 e S hS3 m2 rest2 hok

/-- `parseMacro` on a balanced stream lands after the macro's end
tag. -/
theorem pm_inv (fuel : Nat) (attrs : List (String × String)) (ts : List Tok)
    (e : Option String) (S : List String)
    (hS : stkRun ts ("structured-macro" :: S) = some [])
    (m2 : Macro) (rest2 : List Tok)
    (hok : parseMacro fuel attrs ts e = Except.ok (m2, rest2)) :
    stkRun rest2 S = some [] :=
  pml_inv fuel ⟨lastNameAttr attrs, [], ""⟩ ts e S hS m2 rest2 hok

/-- `parseTableCell` on a balanced stream returns a trimmed cell and
lands after the cell's end tag. -/
theorem ptcell_inv :
    ∀ (fuel : Nat) (tag : String) (acc : List Char) (mac : Option Macro)
      (ts : List Tok) (e : Option String) (S : List String),
      stkRun ts (tag :: S) = some [] →
      ∀ (c : Cell) (rest2 : List Tok),
      parseTableCell fuel tag acc mac ts e = Except.ok (c, rest2) →
      goTrimSpace c.text = c.text ∧ stkRun rest2 S = some [] := by
  intro fuel
  induction fuel with
  | zero =>
    intro _ _ _ _ _ _ _ _ _ hok
    exact Except.noConfusion hok
  | succ fuel ih =>
    intro tag acc mac ts e S hS c rest2 hok
    match ts, hS, hok with
    | [], hS, hok =>
      exact absurd (Option.some.inj hS) (by simp)
    | Tok.charData x :: rest, hS, hok =>
      rw [parseTableCell] at hok
      exact ih tag _ mac rest e S hS c rest2 hok
    | Tok.endEl n :: rest, hS, hok =>
      rw [parseTableCell] at hok
      have hS2 : (if n = tag then stkRun rest S else none) = some [] := hS
      by_cases hn : n = tag
      · rw [if_pos hn] at hok hS2
        obtain ⟨hc, hr⟩ := Prod.mk.inj (Except.ok.inj hok)
        constructor
        · rw [← hc]
          exact goTrimSpace_idem _
        · rw [← hr]
          exact hS2
      · rw [if_neg hn] at hS2
        exact Option.noConfusion hS2
    | Tok.startEl n a :: rest, hS, hok =>
      rw [parseTableCell] at hok
      by_cases h1 : n = "structured-macro"
      · rw [if_pos h1] at hok
        cases hpm : parseMacro fuel a rest e with
        | error m3 =>
          rw [hpm] at hok
          exact Except.noConfusion hok
        | ok pr =>
          obtain ⟨m, rest3⟩ := pr
          rw [hpm] at hok
          have hS3 : stkRun rest3 (tag :: S) = some [] :=
            pm_inv fuel a rest e _ (by rw [← h1]; exact hS) m rest3 hpm
          exact ih tag acc (some m) rest3 e S hS3 c rest2 hok
      · rw [if_neg h1] at hok
        cases hext : extractNestedText fuel 1 [] rest e with
        | error m3 =>
          rw [hext] at hok
          exact Except.noConfusion hok
        | ok pr =>
          obtain ⟨nested, rest3⟩ := pr
          rw [hext] at hok
          have hS3 : stkRun rest3 (tag :: S) = some [] :=
            ent_inv fuel 1 [] rest e [n] _ rfl hS nested rest3 hext
          exact ih tag _ mac rest3 e S hS3 c rest2 hok

/-- `parseTableRow` on a balanced stream returns trimmed cells and
lands after the row's end tag. -/
theorem ptrow_inv :
    ∀ (fuel : Nat) (cells : List Cell) (hdr : Bool) (ts : List Tok)
      (e : Option String) (S : List String),
      stkRun ts ("tr" :: S) = some [] →
      (∀ c ∈ cells, goTrimSpace c.text = c.text) →
      ∀ (r : Row) (hd2 : Bool) (rest2 : List Tok),
      parseTableRow fuel cells hdr ts e = Except.ok (r, hd2, rest2) →
      (∀ c ∈ r.cells, goTrimSpace c.text = c.text) ∧ stkRun rest2 S = some [] := by
  intro fuel
  induction fuel with
  | zero =>
    intro _ _ _ _ _ _ _ _ _ _ hok
    exact Except.noConfusion hok
  | succ fuel ih =>
    intro cells hdr ts e S hS hcells r hd2 rest2 hok
    match ts, hS, hok with
    | [], hS, hok =>
      exact absurd (Option.some.inj hS) (by simp)
    | Tok.charData x :: rest, hS, hok =>
      rw [parseTableRow] at hok
      exact ih cells hdr rest e S hS hcells r hd2 rest2 hok
    | Tok.endEl n :: rest, hS, hok =>
      rw [parseTableRow] at hok
      have hS2 : (if n = "tr" then stkRun rest S else none) = some [] := hS
      by_cases hn : n = "tr"
      · rw [if_pos hn] at hok hS2
        obtain ⟨h1, h2⟩ := Prod.mk.inj (Except.ok.inj hok)
        obtain ⟨_, hr⟩ := Prod.mk.inj h2
        constructor
        · rw [← h1]
          exact hcells
        · rw [← hr]
          exact hS2
      · rw [if_neg hn] at hS2
        exact Option.noConfusion hS2
    | Tok.startEl n a :: rest, hS, hok =>
      rw [parseTableRow] at hok
      by_cases h1 : n = "th"
      · rw [if_pos h1] at hok
        cases hcell : parseTableCell fuel "th" [] none rest e with
        | error m3 =>
          rw [hcell] at hok
          exact Except.noConfusion hok
        | ok pr =>
          obtain ⟨c1, rest3⟩ := pr
          rw [hcell] at hok
          obtain ⟨hc1, hS3⟩ := ptcell_inv fuel "th" [] none rest e _
            (by rw [← h1]; exact hS) c1 rest3 hcell
          refine ih (cells ++ [c1]) true rest3 e S hS3 ?_ r hd2 rest2 hok
          intro c hc
          rcases List.mem_append.mp hc with hc | hc
          · exact hcells c hc
          · rw [List.mem_singleton.mp hc]
            exact hc1
      · rw [if_neg h1] at hok
        by_cases h2 : n = "td"
        · rw [if_pos h2] at hok
          cases hcell : parseTableCell fuel "td" [] none rest e with
          | error m3 =>
            rw [hcell] at hok
            exact Except.noConfusion hok
          | ok pr =>
            obtain ⟨c1, rest3⟩ := pr
            rw [hcell] at hok
            obtain ⟨hc1, hS3⟩ := ptcell_inv fuel "td" [] none rest e _
              (by rw [← h2]; exact hS) c1 rest3 hcell
            refine ih (cells ++ [c1]) hdr rest3 e S hS3 ?_ r hd2 rest2 hok
            intro c hc
            rcases List.mem_append.mp hc with hc | hc
            · exact hcells c hc
            · rw [List.mem_singleton.mp hc]
              exact hc1
        · rw [if_neg h2] at hok
          cases hskip : skipElement fuel 1 rest e with
          | error m3 =>
            rw [hskip] at hok
            exact Except.noConfusion hok
          | ok rest3 =>
            rw [hskip] at hok
            have hS3 : stkRun rest3 ("tr" :: S) = some [] :=
              skip_inv fuel 1 rest e [n] _ rfl hS rest3 hskip
            exact ih cells hdr rest3 e S hS3 hcells r hd2 rest2 hok

/-- `parseTbody` on a balanced stream returns trimmed rows and lands
after the body's end tag. -/
theorem ptbody_inv :
    ∀ (fuel : Nat) (headers : List String) (rows : List Row) (ts : List Tok)
      (e : Option String) (S : List String),
      stkRun ts ("tbody" :: S) = some [] →
      (∀ r ∈ rows, ∀ c ∈ r.cells, goTrimSpace c.text = c.text) →
      ∀ (h2 : List String) (r2 : List Row) (rest2 : List Tok),
      parseTbody fuel headers rows ts e = Except.ok (h2, r2, rest2) →
      (∀ r ∈ r2, ∀ c ∈ r.cells, goTrimSpace c.text = c.text) ∧
        stkRun rest2 S = some [] := by
  intro fuel
  induction fuel with
  | zero =>
    intro _ _ _ _ _ _ _ _ _ _ hok
    exact Except.noConfusion hok
  | succ fuel ih =>
    intro headers rows ts e S hS hrows h2 r2 rest2 hok
    match ts, hS, hok with
    | [], hS, hok =>
      exact absurd (Option.some.inj hS) (by simp)
    | Tok.charData x :: rest, hS, hok =>
      rw [parseTbody] at hok
      exact ih headers rows rest e S hS hrows h2 r2 rest2 hok
    | Tok.endEl n :: rest, hS, hok =>
      rw [parseTbody] at hok
      have hS2 : (if n = "tbody" then stkRun rest S else none) = some [] := hS
      by_cases hn : n = "tbody"
      · rw [if_pos hn] at hok hS2
        obtain ⟨_, h3⟩ := Prod.mk.inj (Except.ok.inj hok)
        obtain ⟨hrw, hr⟩ := Prod.mk.inj h3
        constructor
        · rw [← hrw]
          exact hrows
        · rw [← hr]
          exact hS2
      · rw [if_neg hn] at hS2
        exact Option.noConfusion hS2
    | Tok.startEl n a :: rest, hS, hok =>
      rw [parseTbody] at hok
      by_cases h1 : n = "tr"
      · rw [if_pos h1] at hok
        cases hrow : parseTableRow fuel [] false rest e with
        | error m3 =>
          rw [hrow] at hok
          exact Except.noConfusion hok
        | ok pr =>
          obtain ⟨r1, hd1, rest3⟩ := pr
          rw [hrow] at hok
          obtain ⟨hr1, hS3⟩ := ptrow_inv fuel [] false rest e _
            (by rw [← h1]; exact hS) (by intro c hc; exact absurd hc (List.not_mem_nil c))
            r1 hd1 rest3 hrow
          have hok2 : parseTbody fuel (addRow headers rows r1 hd1).1
              (addRow headers rows r1 hd1).2 rest3 e = Except.ok (h2, r2, rest2) := hok
          refine ih (addRow headers rows r1 hd1).1 (addRow headers rows r1 hd1).2
            rest3 e S hS3 ?_ h2 r2 rest2 hok2
          intro rr hrr c hc
          cases hd1 with
          | true => exact hrows rr hrr c hc
          | false =>
            have hrr2 : rr ∈ rows ++ [r1] := hrr
            rcases List.mem_append.mp hrr2 with h3 | h3
            · exact hrows rr h3 c hc
            · rw [List.mem_singleton.mp h3] at hc
              exact hr1 c hc
      · rw [if_neg h1] at hok
        cases hskip : skipElement fuel 1 rest e with
        | error m3 =>
          rw [hskip] at hok
          exact Except.noConfusion hok
        | ok rest3 =>
          rw [hskip] at hok
          have hS3 : stkRun rest3 ("tbody" :: S) = some [] :=
            skip_inv fuel 1 rest e [n] _ rfl hS rest3 hskip
          exact ih headers rows rest3 e S hS3 hrows h2 r2 rest2 hok

/-- `parseTableLoop` on a balanced stream returns trimmed rows and
lands after the table's end tag. -/
theorem ptloop_inv :
    ∀ (fuel : Nat) (headers : List String) (rows : List Row) (ts : List Tok)
      (e : Option String) (S : List String),
      stkRun ts ("table" :: S) = some [] →
      (∀ r ∈ rows, ∀ c ∈ r.cells, goTrimSpace c.text = c.text) →
      ∀ (h2 : List String) (r2 : List Row) (rest2 : List Tok),
      parseTableLoop fuel headers rows ts e = Except.ok (h2, r2, rest2) →
      (∀ r ∈ r2, ∀ c ∈ r.cells, goTrimSpace c.text = c.text) ∧
        stkRun rest2 S = some [] := by
  intro fuel
  induction fuel with
  | zero =>
    intro _ _ _ _ _ _ _ _ _ _ hok
    exact Except.noConfusion hok
  | succ fuel ih =>
    intro headers rows ts e S hS hrows h2 r2 rest2 hok
    match ts, hS, hok with
    | [], hS, hok =>
      exact absurd (Option.some.inj hS) (by simp)
    | Tok.charData x :: rest, hS, hok =>
      rw [parseTableLoop] at hok
      exact ih headers rows rest e S hS hrows h2 r2 rest2 hok
    | Tok.endEl n :: rest, hS, hok =>
      rw [parseTableLoop] at hok
      have hS2 : (if n = "table" then stkRun rest S else none) = some [] := hS
      by_cases hn : n = "table"
      · rw [if_pos hn] at hok hS2
        obtain ⟨_, h3⟩ := Prod.mk.inj (Except.ok.inj hok)
        obtain ⟨hrw, hr⟩ := Prod.mk.inj h3
        constructor
        · rw [← hrw]
          exact hrows
        · rw [← hr]
          exact hS2
      · rw [if_neg hn] at hS2
        exact Option.noConfusion hS2
    | Tok.startEl n a :: rest, hS, hok =>
      rw [parseTableLoop] at hok
      by_cases h1 : n = "tbody"
      · rw [if_pos h1] at hok
        cases hbody : parseTbody fuel headers rows rest e with
        | error m3 =>
          rw [hbody] at hok
          exact Except.noConfusion hok
        | ok pr =>
          obtain ⟨hx, rx, rest3⟩ := pr
          rw [hbody] at hok
          obtain ⟨hrx, hS3⟩ := ptbody_inv fuel headers rows rest e _
            (by rw [← h1]; exact hS) hrows hx rx rest3 hbody
          exact ih hx rx rest3 e S hS3 hrx h2 r2 rest2 hok
      · rw [if_neg h1] at hok
        by_cases h4 : n = "tr"
        · rw [if_pos h4] at hok
          cases hrow : parseTableRow fuel [] false rest e with
          | error m3 =>
            rw [hrow] at hok
            exact Except.noConfusion hok
          | ok pr =>
            obtain ⟨r1, hd1, rest3⟩ := pr
            rw [hrow] at hok
            obtain ⟨hr1, hS3⟩ := ptrow_inv fuel [] false rest e _
              (by rw [← h4]; exact hS)
              (by intro c hc; exact absurd hc (List.not_mem_nil c))
              r1 hd1 rest3 hrow
            have hok2 : parseTableLoop fuel (addRow headers rows r1 hd1).1
                (addRow headers rows r1 hd1).2 rest3 e =
                Except.ok (h2, r2, rest2) := hok
            refine ih (addRow headers rows r1 hd1).1 (addRow headers rows r1 hd1).2
              rest3 e S hS3 ?_ h2 r2 rest2 hok2
            intro rr hrr c hc
            cases hd1 with
            | true => exact hrows rr hrr c hc
            | false =>
              have hrr2 : rr ∈ rows ++ [r1] := hrr
              rcases List.mem_append.mp hrr2 with h3 | h3
              · exact hrows rr h3 c hc
              · rw [List.mem_singleton.mp h3] at hc
                exact hr1 c hc
        · rw [if_neg h4] at hok
          cases hskip : skipElement fuel 1 rest e with
          | error m3 =>
            rw [hskip] at hok
            exact Except.noConfusion hok
          | ok rest3 =>
            rw [hskip] at hok
            have hS3 : stkRun rest3 ("table" :: S) = some [] :=
              skip_inv fuel 1 rest e [n] _ rfl hS rest3 hskip
            exact ih headers rows rest3 e S hS3 hrows h2 r2 rest2 hok

/-- `parseParagraph` on a balanced stream returns trimmed text and
lands after `</p>`. -/
theorem ppar_inv :
    ∀ (fuel : Nat) (acc : List Char) (ts : List Tok) (e : Option String)
      (S : List String),
      stkRun ts ("p" :: S) = some [] →
      ∀ (v : String) (rest2 : List Tok),
      parseParagraph fuel acc ts e = Except.ok (v, rest2) →
      goTrimSpace v = v ∧ stkRun rest2 S = some [] := by
  intro fuel
  induction fuel with
  | zero =>
    intro _ _ _ _ _ _ _ hok
    exact Except.noConfusion hok
  | succ fuel ih =>
    intro acc ts e S hS v rest2 hok
    match ts, hS, hok with
    | [], hS, hok =>
      exact absurd (Option.some.inj hS) (by simp)
    | Tok.charData x :: rest, hS, hok =>
      rw [parseParagraph] at hok
      exact ih _ rest e S hS v rest2 hok
    | Tok.endEl n :: rest, hS, hok =>
      rw [parseParagraph] at hok
      have hS2 : (if n = "p" then stkRun rest S else none) = some [] := hS
      by_cases hn : n = "p"
      · rw [if_pos hn] at hok hS2
        obtain ⟨hv, hr⟩ := Prod.mk.inj (Except.ok.inj hok)
        constructor
        · rw [← hv]
          exact goTrimSpace_idem _
        · rw [← hr]
          exact hS2
      · rw [if_neg hn] at hS2
        exact Option.noConfusion hS2
    | Tok.startEl n a :: rest, hS, hok =>
      rw [parseParagraph] at hok
      cases hext : extractNestedText fuel 1 [] rest e with
      | error m3 =>
        rw [hext] at hok
        exact Except.noConfusion hok
      | ok pr =>
        obtain ⟨nested, rest3⟩ := pr
        rw [hext] at hok
        have hS3 : stkRun rest3 ("p" :: S) = some [] :=
          ent_inv fuel 1 [] rest e [n] _ rfl hS nested rest3 hext
        exact ih _ rest3 e S hS3 v rest2 hok

/-- `parseHeadingLoop` on a balanced stream returns trimmed text and
lands after the heading's end tag. -/
theorem phl_inv :
    ∀ (fuel : Nat) (acc : List Char) (ts : List Tok) (e : Option String)
      (et : String) (S : List String), startsH et = true →
      stkRun ts (et :: S) = some [] →
      ∀ (v : String) (rest2 : List Tok),
      parseHeadingLoop fuel acc ts e = Except.ok (v, rest2) →
      goTrimSpace v = v ∧ stkRun rest2 S = some [] := by
  intro fuel
  induction fuel with
  | zero =>
    intro _ _ _ _ _ _ _ _ _ hok
    exact Except.noConfusion hok
  | succ fuel ih =>
    intro acc ts e et S het hS v rest2 hok
    match ts, hS, hok with
    | [], hS, hok =>
      exact absurd (Option.some.inj hS) (by simp)
    | Tok.charData x :: rest, hS, hok =>
      rw [parseHeadingLoop] at hok
      exact ih _ rest e et S het hS v rest2 hok
    | Tok.endEl n :: rest, hS, hok =>
      rw [parseHeadingLoop] at hok
      have hS2 : (if n = et then stkRun rest S else none) = some [] := hS
      by_cases hn : n = et
      · rw [hn, if_pos het] at hok
        rw [if_pos hn] at hS2
        obtain ⟨hv, hr⟩ := Prod.mk.inj (Except.ok.inj hok)
        constructor
        · rw [← hv]
          exact goTrimSpace_idem _
        · rw [← hr]
          exact hS2
      · rw [if_neg hn] at hS2
        exact Option.noConfusion hS2
    | Tok.startEl n a :: rest, hS, hok =>
      rw [parseHeadingLoop] at hok
      cases hext : extractNestedText fuel 1 [] rest e with
      | error m3 =>
        rw [hext] at hok
        exact Except.noConfusion hok
      | ok pr =>
        obtain ⟨nested, rest3⟩ := pr
        rw [hext] at hok
        have hS3 : stkRun rest3 (et :: S) = some [] :=
          ent_inv fuel 1 [] rest e [n] _ rfl hS nested rest3 hext
        exact ih _ rest3 e et S het hS3 v rest2 hok

/-- `parseListItem` on a balanced stream returns a trimmed item and
lands after `</li>`. -/
theorem pli_inv :
    ∀ (fuel : Nat) (acc : List Char) (ts : List Tok) (e : Option String)
      (S : List String),
      stkRun ts ("li" :: S) = some [] →
      ∀ (it : ListItem) (rest2 : List Tok),
      parseListItem fuel acc ts e = Except.ok (it, rest2) →
      goTrimSpace it.text = it.text ∧ stkRun rest2 S = some [] := by
  intro fuel
  induction fuel with
  | zero =>
    intro _ _ _ _ _ _ _ hok
    exact Except.noConfusion hok
  | succ fuel ih =>
    intro acc ts e S hS it rest2 hok
    match ts, hS, hok with
    | [], hS, hok =>
      exact absurd (Option.some.inj hS) (by simp)
    | Tok.charData x :: rest, hS, hok =>
      rw [parseListItem] at hok
      exact ih _ rest e S hS it rest2 hok
    | Tok.endEl n :: rest, hS, hok =>
      rw [parseListItem] at hok
      have hS2 : (if n = "li" then stkRun rest S else none) = some [] := hS
      by_cases hn : n = "li"
      · rw [if_pos hn] at hok hS2
        obtain ⟨hv, hr⟩ := Prod.mk.inj (Except.ok.inj hok)
        constructor
        · rw [← hv]
          exact goTrimSpace_idem _
        · rw [← hr]
          exact hS2
      · rw [if_neg hn] at hS2
        exact Option.noConfusion hS2
    | Tok.startEl n a :: rest, hS, hok =>
      rw [parseListItem] at hok
      cases hext : extractNestedText fuel 1 [] rest e with
      | error m3 =>
        rw [hext] at hok
        exact Except.noConfusion hok
      | ok pr =>
        obtain ⟨nested, rest3⟩ := pr
        rw [hext] at hok
        have hS3 : stkRun rest3 ("li" :: S) = some [] :=
          ent_inv fuel 1 [] rest e [n] _ rfl hS nested rest3 hext
        exact ih _ rest3 e S hS3 it rest2 hok

/-- `parseListLoop` on a balanced stream returns trimmed items and
lands after the list's end tag. -/
theorem pll_inv :
    ∀ (fuel : Nat) (endTag : String) (items : List ListItem) (ts : List Tok)
      (e : Option String) (S : List String),
      stkRun ts (endTag :: S) = some [] →
      (∀ i ∈ items, goTrimSpace i.text = i.text) →
      ∀ (its : List ListItem) (rest2 : List Tok),
      parseListLoop fuel endTag items ts e = Except.ok (its, rest2) →
      (∀ i ∈ its, goTrimSpace i.text = i.text) ∧ stkRun rest2 S = some [] := by
  intro fuel
  induction fuel with
  | zero =>
    intro _ _ _ _ _ _ _ _ _ hok
    exact Except.noConfusion hok
  | succ fuel ih =>
    intro endTag items ts e S hS hitems its rest2 hok
    match ts, hS, hok with
    | [], hS, hok =>
      exact absurd (Option.some.inj hS) (by simp)
    | Tok.charData x :: rest, hS, hok =>
      rw [parseListLoop] at hok
      exact ih endTag items rest e S hS hitems its rest2 hok
    | Tok.endEl n :: rest, hS, hok =>
      rw [parseListLoop] at hok
      have hS2 : (if n = endTag then stkRun rest S else none) = some [] := hS
      by_cases hn : n = endTag
      · rw [if_pos hn] at hok hS2
        obtain ⟨hv, hr⟩ := Prod.mk.inj (Except.ok.inj hok)
        constructor
        · rw [← hv]
          exact hitems
        · rw [← hr]
          exact hS2
      · rw [if_neg hn] at hS2
        exact Option.noConfusion hS2
    | Tok.startEl n a :: rest, hS, hok =>
      rw [parseListLoop] at hok
      by_cases h1 : n = "li"
      · rw [if_pos h1] at hok
        cases hitem : parseListItem fuel [] rest e with
        | error m3 =>
          rw [hitem] at hok
          exact Except.noConfusion hok
        | ok pr =>
          obtain ⟨it1, rest3⟩ := pr
          rw [hitem] at hok
          obtain ⟨hi1, hS3⟩ := pli_inv fuel [] rest e _
            (by rw [← h1]; exact hS) it1 rest3 hitem
          refine ih endTag (items ++ [it1]) rest3 e S hS3 ?_ its rest2 hok
          intro i hi
          rcases List.mem_append.mp hi with hi | hi
          · exact hitems i hi
          · rw [List.mem_singleton.mp hi]
            exact hi1
      · rw [if_neg h1] at hok
        cases hskip : skipElement fuel 1 rest e with
        | error m3 =>
          rw [hskip] at hok
          exact Except.noConfusion hok
        | ok rest3 =>
          rw [hskip] at hok
          have hS3 : stkRun rest3 (endTag :: S) = some [] :=
            skip_inv fuel 1 rest e [n] _ rfl hS rest3 hskip
          exact ih endTag items rest3 e S hS3 hitems its rest2 hok

/-- The claim-C9 trimming property of one parsed block. -/
def TrimmedBlock : Block → Prop
  | Block.paragraph t => goTrimSpace t = t
  | Block.heading _ t => goTrimSpace t = t
  | Block.bulletList items => ∀ i ∈ items, goTrimSpace i.text = i.text
  | Block.numberedList items => ∀ i ∈ items, goTrimSpace i.text = i.text
  | Block.table _ rows => ∀ r ∈ rows, ∀ c ∈ r.cells, goTrimSpace c.text = c.text
  | Block.macroBlk _ => True
  | Block.codeBlock _ _ => True
  | Block.horizontalRule => True

/-- `parseElement` on a balanced stream yields a trimmed block and a
still-balanced remainder. -/
theorem pel_inv :
    ∀ (fuel : Nat) (n : String) (attrs : List (String × String)) (ts : List Tok)
      (e : Option String) (S : List String),
      stkRun ts (n :: S) = some [] →
      ∀ (ob : Option Block) (rest2 : List Tok),
      parseElement fuel n attrs ts e = Except.ok (ob, rest2) →
      (∀ b, ob = some b → TrimmedBlock b) ∧
        ∃ S2, stkRun rest2 S2 = some [] := by
  intro fuel n attrs ts e S hS ob rest2 hok
  rw [parseElement.eq_def] at hok
  split at hok
  · obtain ⟨ho, hr⟩ := Prod.mk.inj (Except.ok.inj hok)
    refine ⟨?_, ⟨_, by rw [← hr]; exact hS⟩⟩
    intro b hb
    rw [← ho] at hb
    exact Option.noConfusion hb
  · cases htb : parseTable fuel ts e with
    | error m3 =>
      rw [htb] at hok
      exact Except.noConfusion hok
    | ok pr =>
      obtain ⟨hs2, rs2, rest3⟩ := pr
      rw [htb] at hok
      obtain ⟨ho, hr⟩ := Prod.mk.inj (Except.ok.inj hok)
      obtain ⟨htr, hS3⟩ := ptloop_inv fuel [] [] ts e S hS
        (by intro r hr2; exact absurd hr2 (List.not_mem_nil r)) hs2 rs2 rest3 htb
      refine ⟨?_, ⟨S, by rw [← hr]; exact hS3⟩⟩
      intro b hb
      rw [← ho] at hb
      obtain rfl := Option.some.inj hb
      exact htr
  · cases hp : parseParagraph fuel [] ts e with
    | error m3 =>
      rw [hp] at hok
      exact Except.noConfusion hok
    | ok pr =>
      obtain ⟨text, rest3⟩ := pr
      rw [hp] at hok
      obtain ⟨ho, hr⟩ := Prod.mk.inj (Except.ok.inj hok)
      obtain ⟨htr, hS3⟩ := ppar_inv fuel [] ts e S hS text rest3 hp
      refine ⟨?_, ⟨S, by rw [← hr]; exact hS3⟩⟩
      intro b hb
      rw [← ho] at hb
      obtain rfl := Option.some.inj hb
      exact htr
  · cases hp : parseHeadingLoop fuel [] ts e with
    | error m3 =>
      rw [hp] at hok
      exact Except.noConfusion hok
    | ok pr =>
      obtain ⟨text, rest3⟩ := pr
      rw [hp] at hok
      obtain ⟨ho, hr⟩ := Prod.mk.inj (Except.ok.inj hok)
      obtain ⟨htr, hS3⟩ := phl_inv fuel [] ts e "h1" S (by decide) hS text rest3 hp
      refine ⟨?_, ⟨S, by rw [← hr]; exact hS3⟩⟩
      intro b hb
      rw [← ho] at hb
      obtain rfl := Option.some.inj hb
      exact htr
  · cases hp : parseHeadingLoop fuel [] ts e with
    | error m3 =>
      rw [hp] at hok
      exact Except.noConfusion hok
    | ok pr =>
      obtain ⟨text, rest3⟩ := pr
      rw [hp] at hok
      obtain ⟨ho, hr⟩ := Prod.mk.inj (Except.ok.inj hok)
      obtain ⟨htr, hS3⟩ := phl_inv fuel [] ts e "h2" S (by decide) hS text rest3 hp
      refine ⟨?_, ⟨S, by rw [← hr]; exact hS3⟩⟩
      intro b hb
      rw [← ho] at hb
      obtain rfl := Option.some.inj hb
      exact htr
  · cases hp : parseHeadingLoop fuel [] ts e with
    | error m3 =>
      rw [hp] at hok
      exact Except.noConfusion hok
    | ok pr =>
      obtain ⟨text, rest3⟩ := pr
      rw [hp] at hok
      obtain ⟨ho, hr⟩ := Prod.mk.inj (Except.ok.inj hok)
      obtain ⟨htr, hS3⟩ := phl_inv fuel [] ts e "h3" S (by decide) hS text rest3 hp
      refine ⟨?_, ⟨S, by rw [← hr]; exact hS3⟩⟩
      intro b hb
      rw [← ho] at hb
      obtain rfl := Option.some.inj hb
      exact htr
  · cases hp : parseHeadingLoop fuel [] ts e with
    | error m3 =>
      rw [hp] at hok
      exact Except.noConfusion hok
    | ok pr =>
      obtain ⟨text, rest3⟩ := pr
      rw [hp] at hok
      obtain ⟨ho, hr⟩ := Prod.mk.inj (Except.ok.inj hok)
      obtain ⟨htr, hS3⟩ := phl_inv fuel [] ts e "h4" S (by decide) hS text rest3 hp
      refine ⟨?_, ⟨S, by rw [← hr]; exact hS3⟩⟩
      intro b hb
      rw [← ho] at hb
      obtain rfl := Option.some.inj hb
      exact htr
  · cases hp : parseHeadingLoop fuel [] ts e with
    | error m3 =>
      rw [hp] at hok
      exact Except.noConfusion hok
    | ok pr =>
      obtain ⟨text, rest3⟩ := pr
      rw [hp] at hok
      obtain ⟨ho, hr⟩ := Prod.mk.inj (Except.ok.inj hok)
      obtain ⟨htr, hS3⟩ := phl_inv fuel [] ts e "h5" S (by decide) hS text rest3 hp
      refine ⟨?_, ⟨S, by rw [← hr]; exact hS3⟩⟩
      intro b hb
      rw [← ho] at hb
      obtain rfl := Option.some.inj hb
      exact htr
  · cases hp : parseHeadingLoop fuel [] ts e with
    | error m3 =>
      rw [hp] at hok
      exact Except.noConfusion hok
    | ok pr =>
      obtain ⟨text, rest3⟩ := pr
      rw [hp] at hok
      obtain ⟨ho, hr⟩ := Prod.mk.inj (Except.ok.inj hok)
      obtain ⟨htr, hS3⟩ := phl_inv fuel [] ts e "h6" S (by decide) hS text rest3 hp
      refine ⟨?_, ⟨S, by rw [← hr]; exact hS3⟩⟩
      intro b hb
      rw [← ho] at hb
      obtain rfl := Option.some.inj hb
      exact htr
  · cases hl : parseListLoop fuel "ul" [] ts e with
    | error m3 =>
      rw [hl] at hok
      exact Except.noConfusion hok
    | ok pr =>
      obtain ⟨its, rest3⟩ := pr
      rw [hl] at hok
      obtain ⟨ho, hr⟩ := Prod.mk.inj (Except.ok.inj hok)
      obtain ⟨htr, hS3⟩ := pll_inv fuel "ul" [] ts e S hS
        (by intro it hit; exact absurd hit (List.not_mem_nil it)) its rest3 hl
      refine ⟨?_, ⟨S, by rw [← hr]; exact hS3⟩⟩
      intro b hb
      rw [← ho] at hb
      obtain rfl := Option.some.inj hb
      exact htr
  · cases hl : parseListLoop fuel "ol" [] ts e with
    | error m3 =>
      rw [hl] at hok
      exact Except.noConfusion hok
    | ok pr =>
      obtain ⟨its, rest3⟩ := pr
      rw [hl] at hok
      obtain ⟨ho, hr⟩ := Prod.mk.inj (Except.ok.inj hok)
      obtain ⟨htr, hS3⟩ := pll_inv fuel "ol" [] ts e S hS
        (by intro it hit; exact absurd hit (List.not_mem_nil it)) its rest3 hl
      refine ⟨?_, ⟨S, by rw [← hr]; exact hS3⟩⟩
      intro b hb
      rw [← ho] at hb
      obtain rfl := Option.some.inj hb
      exact htr
  · obtain ⟨ho, hr⟩ := Prod.mk.inj (Except.ok.inj hok)
    refine ⟨?_, ⟨_, by rw [← hr]; exact hS⟩⟩
    intro b hb
    rw [← ho] at hb
    obtain rfl := Option.some.inj hb
    exact trivial
  · cases hm : parseMacro fuel attrs ts e with
    | error m3 =>
      rw [hm] at hok
      exact Except.noConfusion hok
    | ok pr =>
      obtain ⟨m, rest3⟩ := pr
      rw [hm] at hok
      obtain ⟨ho, hr⟩ := Prod.mk.inj (Except.ok.inj hok)
      have hS3 : stkRun rest3 S = some [] :=
        pm_inv fuel attrs ts e S hS m rest3 hm
      refine ⟨?_, ⟨S, by rw [← hr]; exact hS3⟩⟩
      intro b hb
      rw [← ho] at hb
      obtain rfl := Option.some.inj hb
      exact trivial
  · cases hskip : skipElement fuel 1 ts e with
    | error m3 =>
      rw [hskip] at hok
      exact Except.noConfusion hok
    | ok rest3 =>
      rw [hskip] at hok
      obtain ⟨ho, hr⟩ := Prod.mk.inj (Except.ok.inj hok)
      have hS3 : stkRun rest3 S = some [] :=
        skip_inv fuel 1 ts e [n] S rfl hS rest3 hskip
      refine ⟨?_, ⟨S, by rw [← hr]; exact hS3⟩⟩
      intro b hb
      rw [← ho] at hb
      exact Option.noConfusion hb

/-- `parsePage` on a balanced stream only ever appends trimmed
blocks. -/
theorem ppage_inv :
    ∀ (fuel : Nat) (blocks : List Block) (ts : List Tok) (e : Option String)
      (S : List String),
      stkRun ts S = some [] →
      (∀ b ∈ blocks, TrimmedBlock b) →
      ∀ bl2, parsePage fuel blocks ts e = Except.ok bl2 →
      ∀ b ∈ bl2, TrimmedBlock b := by
  intro fuel
  induction fuel with
  | zero =>
    intro _ _ _ _ _ _ _ hok
    exact Except.noConfusion hok
  | succ fuel ih =>
    intro blocks ts e S hS hblocks bl2 hok
    match ts, hS, hok with
    | [], hS, hok =>
      match e, hok with
      | some m, hok => exact Except.noConfusion hok
      | none, hok =>
        obtain rfl := Except.ok.inj hok
        exact hblocks
    | Tok.charData x :: rest, hS, hok =>
      rw [parsePage] at hok
      exact ih blocks rest e S hS hblocks bl2 hok
    | Tok.endEl nn :: rest, hS, hok =>
      rw [parsePage] at hok
      match S, hS with
      | [], hS => exact absurd hS (by simp [stkRun])
      | top :: S2, hS =>
        have hS3 : (if nn = top then stkRun rest S2 else none) = some [] := hS
        by_cases hn : nn = top
        · rw [if_pos hn] at hS3
          exact ih blocks rest e S2 hS3 hblocks bl2 hok
        · rw [if_neg hn] at hS3
          exact Option.noConfusion hS3
    | Tok.startEl nn a :: rest, hS, hok =>
      rw [parsePage] at hok
      cases hel : parseElement fuel nn a rest e with
      | error m3 =>
        rw [hel] at hok
        exact Except.noConfusion hok
      | ok pr =>
        obtain ⟨ob, rest3⟩ := pr
        rw [hel] at hok
        obtain ⟨htr, S2, hS2⟩ := pel_inv fuel nn a rest e S hS ob rest3 hel
        match ob, hok with
        | some b, hok =>
          refine ih (blocks ++ [b]) rest3 e S2 hS2 ?_ bl2 hok
          intro b2 hb2
          rcases List.mem_append.mp hb2 with h3 | h3
          · exact hblocks b2 h3
          · rw [List.mem_singleton.mp h3]
            exact htr b rfl
        | none, hok =>
          exact ih blocks rest3 e S2 hS2 hblocks bl2 hok

/-- With a sticky tokenizer error the page loop never succeeds. -/
theorem ppage_err :
    ∀ (fuel : Nat) (blocks : List Block) (ts : List Tok) (msg : String)
      (bl2 : List Block),
      parsePage fuel blocks ts (some msg) = Except.ok bl2 → False := by
  intro fuel
  induction fuel with
  | zero =>
    intro _ _ _ _ hok
    exact Except.noConfusion hok
  | succ fuel ih =>
    intro blocks ts msg bl2 hok
    match ts, hok with
    | [], hok => exact Except.noConfusion hok
    | Tok.charData x :: rest, hok =>
      rw [parsePage] at hok
      exact ih blocks rest msg bl2 hok
    | Tok.endEl nn :: rest, hok =>
      rw [parsePage] at hok
      exact ih blocks rest msg bl2 hok
    | Tok.startEl nn a :: rest, hok =>
      rw [parsePage] at hok
      cases hel : parseElement fuel nn a rest (some msg) with
      | error m3 =>
        rw [hel] at hok
        exact Except.noConfusion hok
      | ok pr =>
        obtain ⟨ob, rest3⟩ := pr
        rw [hel] at hok
        match ob, hok with
        | some b, hok => exact ih (blocks ++ [b]) rest3 msg bl2 hok
        | none, hok => exact ih blocks rest3 msg bl2 hok

/-- Claim C9: every text the parser extracts into a page — paragraph,
heading and list-item text and table-cell text — is already trimmed:
`goTrimSpace` leaves it unchanged.  (Implicit normalization the spec
does not state.) -/
theorem parse_output_trimmed (s : String) (page : Page)
    (h : Parse s = Except.ok page) :
    ∀ b ∈ page.blocks, TrimmedBlock b := by
  rw [Parse] at h
  by_cases hs : s = ""
  · rw [if_pos hs] at h
    obtain rfl := Except.ok.inj h
    intro b hb
    exact absurd hb (List.not_mem_nil b)
  · rw [if_neg hs] at h
    have h2 : (match parsePage ((xmlTokens s).1.length + 1) [] (xmlTokens s).1
        (xmlTokens s).2 with
      | Except.error msg => Except.error msg
      | Except.ok blocks => Except.ok (⟨blocks⟩ : Page)) = Except.ok page := h
    cases hpp : parsePage ((xmlTokens s).1.length + 1) [] (xmlTokens s).1
        (xmlTokens s).2 with
    | error m3 =>
      rw [hpp] at h2
      exact Except.noConfusion h2
    | ok blocks =>
      rw [hpp] at h2
      obtain rfl := Except.ok.inj h2
      show ∀ b ∈ blocks, TrimmedBlock b
      cases herr : (xmlTokens s).2 with
      | some msg =>
        rw [herr] at hpp
        exact absurd hpp (by intro h3; exact ppage_err _ [] _ msg blocks h3)
      | none =>
        have hbal : stkRun (xmlTokens s).1 [] = some [] := by
          apply xmlTokens_balanced s
          have := Prod.mk.eta (p := xmlTokens s)
          rw [herr] at this
          exact this.symm
        rw [herr] at hpp
        exact ppage_inv ((xmlTokens s).1.length + 1) [] (xmlTokens s).1 none []
          hbal (fun b hb => absurd hb (List.not_mem_nil b)) blocks hpp

/-- Witness for claim C9 on a concrete untrimmed input. -/
theorem parse_output_trimmed_witness :
    Parse "<p>  hi there  </p>" = Except.ok ⟨[Block.paragraph "hi there"]⟩ ∧
    (∀ b ∈ (⟨[Block.paragraph "hi there"]⟩ : Page).blocks, TrimmedBlock b) :=
  ⟨rfl, parse_output_trimmed "<p>  hi there  </p>" ⟨[Block.paragraph "hi there"]⟩ rfl⟩

end Storage
